import Mathlib

/-! # Page allocator (`kernel/kalloc.c`) and block cache (`kernel/bio.c`)

A shallow embedding of the two kernel files and the properties their
specification states about them.

Conventions of the embedding.

* The kernel runs the modelled calls one at a time: spinlock `acquire` /
  `release` pairs delimit the critical sections and have no effect on the
  data, so they do not appear in the state.
* Physical memory is a map from byte addresses to byte values.  The free list
  is intrusive, exactly as in the source: `kmem.freelist` is a pointer
  (`0` is the null pointer) and the `next` link of a free page is the
  little-endian 64-bit word stored in its first eight bytes.
* `uint64` arithmetic wraps modulo `2 ^ 64`.  The entries of `ref_cnt` are C
  `int`s; they are taken as mathematical integers (a signed overflow has no
  defined behaviour in C and needs `2 ^ 31` references to a single page).
* A call either returns (`Outcome.ok`), halts in `panic` (`Outcome.panic`), or
  indexes `ref_cnt` outside the table (`Outcome.oob`: C gives it no meaning).
* The headers `memlayout.h` and `riscv.h` lie outside the two files: the
  address bounds `KERNBASE`, `PHYSTOP` and the linker symbol `end` are
  parameters (`Layout`).
-/

namespace Kalloc

/-- Result of a kernel call: normal return, fatal halt through `panic`, or an
access outside the bounds of an array. -/
inductive Outcome (α : Type) where
  | ok (a : α) : Outcome α
  | panic (msg : String) : Outcome α
  | oob : Outcome α

/-- Page size in bytes (`PGSIZE`; the file header: "Allocates whole 4096-byte pages"). -/
def PGSIZE : Nat := 4096

/-- Number of values of a `uint64`. -/
def U64 : Nat := 2 ^ 64

/-- Address bounds the allocator is compiled against. -/
structure Layout where
  /-- Start of physical RAM (`KERNBASE`). -/
  KERNBASE : Nat
  /-- End of physical RAM (`PHYSTOP`). -/
  PHYSTOP : Nat
  /-- First address after the kernel image (`end`, set by the linker script). -/
  kend : Nat

/-- Modelled from the spec: `riscv.h` is absent; `PGROUNDUP(sz)` is
`(sz + PGSIZE - 1) & ~(PGSIZE - 1)` on `uint64`, the least multiple of the page
size that is not below `sz`. -/
def PGROUNDUP (sz : Nat) : Nat := (sz + (PGSIZE - 1)) % U64 / PGSIZE * PGSIZE

/-- `#define PHY_PAGES ((uint64)(PHYSTOP - KERNBASE) / PGSIZE)`. -/
def PHY_PAGES (L : Layout) : Nat := (L.PHYSTOP + U64 - L.KERNBASE % U64) % U64 / PGSIZE

/-- `#define PA2RCI(pa) ((uint64)pa - (uint64)KERNBASE) / PGSIZE`. -/
def PA2RCI (L : Layout) (pa : Nat) : Nat := (pa + U64 - L.KERNBASE % U64) % U64 / PGSIZE

/-- Conversion of a `uint64` value to `int` (`int index = PA2RCI(pa)`): the low
32 bits, read as a two's complement number. -/
def toInt32 (n : Nat) : Int :=
  if n % 2 ^ 32 < 2 ^ 31 then ((n % 2 ^ 32 : Nat) : Int) else ((n % 2 ^ 32 : Nat) : Int) - 2 ^ 32

/-- State of the allocator. -/
structure KState where
  /-- Table `int ref_cnt[PHY_PAGES]`, by index. -/
  ref_cnt : Nat → Int
  /-- Pointer `kmem.freelist` (`0` when the list is empty). -/
  freelist : Nat
  /-- Physical memory, byte by byte. -/
  mem : Nat → Nat

/-- `memset(dst, c, n)` on the byte memory. -/
def memset (mem : Nat → Nat) (dst c n : Nat) : Nat → Nat :=
  fun a => if dst ≤ a ∧ a < dst + n then c % 256 else mem a

/-- Load of the 64-bit little-endian word at address `a` (`r->next`). -/
def read64 (mem : Nat → Nat) (a : Nat) : Nat :=
  mem a % 256 + mem (a + 1) % 256 * 256 ^ 1 + mem (a + 2) % 256 * 256 ^ 2
    + mem (a + 3) % 256 * 256 ^ 3 + mem (a + 4) % 256 * 256 ^ 4
    + mem (a + 5) % 256 * 256 ^ 5 + mem (a + 6) % 256 * 256 ^ 6
    + mem (a + 7) % 256 * 256 ^ 7

/-- Store of the 64-bit word `v` at address `a` (`r->next = v`). -/
def write64 (mem : Nat → Nat) (a v : Nat) : Nat → Nat :=
  fun x => if a ≤ x ∧ x < a + 8 then v / 256 ^ (x - a) % 256 else mem x

/-- Whether an `int` index lies inside `ref_cnt`. -/
def inTable (L : Layout) (i : Int) : Prop := 0 ≤ i ∧ i < (PHY_PAGES L : Int)

instance (L : Layout) (i : Int) : Decidable (inTable L i) := by
  unfold inTable; exact inferInstance

/-- `incref(pa)`: `ref_cnt[index]++` with `int index = PA2RCI(pa)`. -/
def incref (L : Layout) (s : KState) (pa : Nat) : Outcome KState :=
  let index := toInt32 (PA2RCI L pa)
  if inTable L index then
    .ok { s with ref_cnt := Function.update s.ref_cnt index.toNat (s.ref_cnt index.toNat + 1) }
  else .oob

/-- `decref(pa)`: `ref_cnt[index]--` with `int index = PA2RCI(pa)`. -/
def decref (L : Layout) (s : KState) (pa : Nat) : Outcome KState :=
  let index := toInt32 (PA2RCI L pa)
  if inTable L index then
    .ok { s with ref_cnt := Function.update s.ref_cnt index.toNat (s.ref_cnt index.toNat - 1) }
  else .oob

/-- `kfree(pa)`: drop one reference; when none is left, check the address,
fill the page with the byte 1 and push it on the free list. -/
def kfree (L : Layout) (s : KState) (pa : Nat) : Outcome KState :=
  match decref L s pa with
  | .ok s1 =>
    let index := PA2RCI L pa
    if index < PHY_PAGES L then
      if s1.ref_cnt index > 0 then .ok s1
      else if pa % PGSIZE ≠ 0 ∨ pa < L.kend ∨ pa ≥ L.PHYSTOP then .panic "kfree"
      else
        .ok { s1 with mem := write64 (memset s1.mem pa 1 PGSIZE) pa s1.freelist, freelist := pa }
    else .oob
  | o => o

/-- `kalloc()`: pop the head of the free list, set its count to 1, fill the
page with the byte 5; the returned pointer is `0` when the list is empty. -/
def kalloc (L : Layout) (s : KState) : Outcome (Nat × KState) :=
  let r := s.freelist
  let s1 : KState := if r ≠ 0 then { s with freelist := read64 s.mem r } else s
  if r ≠ 0 then
    let index := toInt32 (PA2RCI L r)
    if inTable L index then
      .ok (r, { s1 with ref_cnt := Function.update s1.ref_cnt index.toNat 1,
                        mem := memset s1.mem r 5 PGSIZE })
    else .oob
  else .ok (r, s1)

/-- The loop of `freerange`: `for(; p + PGSIZE <= pa_end; p += PGSIZE) kfree(p);`.
The first argument bounds the number of iterations; `none` means the bound was
too small. -/
def freerangeLoop (L : Layout) (pa_end : Nat) : Nat → Nat → KState → Option (Outcome KState)
  | 0, _, _ => none
  | fuel + 1, p, s =>
    if p + PGSIZE ≤ pa_end then
      match kfree L s p with
      | .ok s1 => freerangeLoop L pa_end fuel (p + PGSIZE) s1
      | o => some o
    else some (.ok s)

/-- `freerange(pa_start, pa_end)`. -/
def freerange (L : Layout) (s : KState) (pa_start pa_end : Nat) : Option (Outcome KState) :=
  freerangeLoop L pa_end (pa_end / PGSIZE + 1) (PGROUNDUP pa_start) s

/-- `kinit()`: seed the free list through `freerange(end, PHYSTOP)`, then
`memset(ref_cnt, 0, sizeof(int) * PHY_PAGES)`. -/
def kinit (L : Layout) (s : KState) : Option (Outcome KState) :=
  match freerange L s L.kend L.PHYSTOP with
  | some (.ok s1) =>
    some (.ok { s1 with ref_cnt := fun i => if i < PHY_PAGES L then 0 else s1.ref_cnt i })
  | o => o

/-- State at boot: the kernel's zero-initialised data (`ref_cnt` and
`kmem.freelist` are globals without initialiser) over some memory contents. -/
def bootState (mem : Nat → Nat) : KState :=
  { ref_cnt := fun _ => 0, freelist := 0, mem := mem }

/-- The chain of pages reached from pointer `h` through the `next` links is
exactly the list `l`, ending in the null pointer. -/
def Chain (mem : Nat → Nat) : Nat → List Nat → Prop
  | h, [] => h = 0
  | h, p :: l => h = p ∧ p ≠ 0 ∧ Chain mem (read64 mem p) l

instance Chain.decide (mem : Nat → Nat) : (h : Nat) → (l : List Nat) → Decidable (Chain mem h l)
  | h, [] => by unfold Chain; exact inferInstance
  | h, p :: l => by
    unfold Chain
    haveI := Chain.decide mem (read64 mem p) l
    exact inferInstance

/-- The first `n` pages reached from pointer `h` through the `next` links. -/
def walk (mem : Nat → Nat) : Nat → Nat → List Nat
  | 0, _ => []
  | n + 1, h => if h = 0 then [] else h :: walk mem n (read64 mem h)

/-- Page `p` is on the free list of `s`: following the links from
`kmem.freelist` reaches it. -/
def onFreeList (s : KState) (p : Nat) : Prop := ∃ n, p ∈ walk s.mem n s.freelist

/-- The pages `freerange(end, PHYSTOP)` hands to `kfree`: page-aligned `p`
with `PGROUNDUP(end) <= p` and `p + PGSIZE <= PHYSTOP`. -/
def isPage (L : Layout) (p : Nat) : Prop :=
  p % PGSIZE = 0 ∧ PGROUNDUP L.kend ≤ p ∧ p + PGSIZE ≤ L.PHYSTOP

instance (L : Layout) (p : Nat) : Decidable (isPage L p) := by
  unfold isPage; exact inferInstance

/-- Assumptions on the address bounds, all true of the values in xv6
(`KERNBASE = 0x80000000`, `PHYSTOP = KERNBASE + 128 MiB`): RAM starts at a
page boundary above address 0, the kernel image lies inside RAM, addresses
fit in 64 bits and page indices in an `int`. -/
structure Layout.WF (L : Layout) : Prop where
  base_pos : 0 < L.KERNBASE
  base_aligned : L.KERNBASE % PGSIZE = 0
  base_le_end : L.KERNBASE ≤ L.kend
  end_le_stop : L.kend ≤ L.PHYSTOP
  stop_lt : L.PHYSTOP + 2 * PGSIZE ≤ U64
  pages_le : PHY_PAGES L ≤ 2 ^ 31

/-- A small layout for concrete runs: three pages of RAM at `0x80000000`, the
kernel image ending inside the first one. -/
def L3 : Layout := { KERNBASE := 0x80000000, PHYSTOP := 0x80003000, kend := 0x80000100 }

/-- Memory with every byte zero. -/
def zeroMem : Nat → Nat := fun _ => 0

/-- The second and third page of `L3` (the first one holds the kernel image). -/
def pageA : Nat := 0x80001000

/-- The third page of `L3`. -/
def pageB : Nat := 0x80002000

/-- The calls of the allocator's interface. -/
inductive Op where
  | kalloc : Op
  | kfree (pa : Nat) : Op
  | incref (pa : Nat) : Op
  | decref (pa : Nat) : Op

/-- One call, keeping the state only. -/
def step (L : Layout) (s : KState) : Op → Outcome KState
  | .kalloc => match kalloc L s with
    | .ok (_, s1) => .ok s1
    | .panic m => .panic m
    | .oob => .oob
  | .kfree pa => kfree L s pa
  | .incref pa => incref L s pa
  | .decref pa => decref L s pa

/-- A sequence of calls, stopping at the first one that does not return. -/
def run (L : Layout) (s : KState) : List Op → Outcome KState
  | [] => .ok s
  | op :: ops => match step L s op with
    | .ok s1 => run L s1 ops
    | o => o

/-- The calls `ops` issued after `kinit` at boot. -/
def bootRun (L : Layout) (mem : Nat → Nat) (ops : List Op) : Option (Outcome KState) :=
  match kinit L (bootState mem) with
  | some (.ok s) => some (run L s ops)
  | o => o

/-- The allocator's invariant: the free list is a finite chain without
repetition, it holds exactly the pages of the managed range whose count is 0,
and no count in the table is negative. -/
def Inv (L : Layout) (s : KState) : Prop :=
  ∃ l : List Nat, Chain s.mem s.freelist l ∧ l.Nodup ∧
    (∀ p, p ∈ l ↔ isPage L p ∧ s.ref_cnt (PA2RCI L p) = 0) ∧
    ∀ i, i < PHY_PAGES L → 0 ≤ s.ref_cnt i

/-- States reached from boot by `kalloc` and `kfree` calls that return, each
`kfree` being given an address whose page count is at least 1 (nothing is
released more often than it was claimed). -/
inductive ReachAF (L : Layout) : KState → Prop where
  | boot (mem : Nat → Nat) (s : KState) :
      kinit L (bootState mem) = some (.ok s) → ReachAF L s
  | kalloc (s : KState) (p : Nat) (s1 : KState) :
      ReachAF L s → kalloc L s = .ok (p, s1) → ReachAF L s1
  | kfree (s : KState) (pa : Nat) (s1 : KState) :
      ReachAF L s → 1 ≤ s.ref_cnt (PA2RCI L pa) → kfree L s pa = .ok s1 → ReachAF L s1

/-- States reached from boot by `kalloc`, `incref` and `kfree` calls that
return, together with the addresses `kalloc` has returned so far; `incref` and
`kfree` are given only such an address, and only while its count is at
least 1. -/
inductive ReachShare (L : Layout) : KState → List Nat → Prop where
  | boot (mem : Nat → Nat) (s : KState) :
      kinit L (bootState mem) = some (.ok s) → ReachShare L s []
  | kalloc (s : KState) (hist : List Nat) (p : Nat) (s1 : KState) :
      ReachShare L s hist → kalloc L s = .ok (p, s1) →
      ReachShare L s1 (if p = 0 then hist else p :: hist)
  | incref (s : KState) (hist : List Nat) (pa : Nat) (s1 : KState) :
      ReachShare L s hist → pa ∈ hist → 1 ≤ s.ref_cnt (PA2RCI L pa) →
      incref L s pa = .ok s1 → ReachShare L s1 hist
  | kfree (s : KState) (hist : List Nat) (pa : Nat) (s1 : KState) :
      ReachShare L s hist → pa ∈ hist → 1 ≤ s.ref_cnt (PA2RCI L pa) →
      kfree L s pa = .ok s1 → ReachShare L s1 hist

/-- A state of `L3` with the free list `pageB → pageA` and all counts 0. -/
def seeded3 : KState :=
  { ref_cnt := fun _ => 0, freelist := pageB, mem := write64 (write64 zeroMem pageA 0) pageB pageA }

/-- The addresses `p, p + PGSIZE, ...`, `n` of them, in the order in which the
loop of `freerange` visits them. -/
def pagesFrom : Nat → Nat → List Nat
  | _, 0 => []
  | p, n + 1 => p :: pagesFrom (p + PGSIZE) n

/-- The pages `freerange(end, PHYSTOP)` visits, in order. -/
def seedPages (L : Layout) : List Nat :=
  pagesFrom (PGROUNDUP L.kend) ((L.PHYSTOP - PGROUNDUP L.kend) / PGSIZE)

/-- The state after the calls `ops` issued after boot on `L3` over zeroed
memory (the boot state itself should one of them not return). -/
def after3 (ops : List Op) : KState :=
  match bootRun L3 zeroMem ops with
  | some (.ok s) => s
  | _ => bootState zeroMem

end Kalloc

/-! # Block cache (`kernel/bio.c`)

`buf.h`, `param.h`, `fs.h`, the sleep lock and the disk driver lie outside
`bio.c`.  A slot carries the fields `bio.c` uses (`valid`, `dev`,
`blockno`, `lock`, `refcnt`, `data`); the number of slots `NBUF` and the block
size are parameters of the initial state; counters are mathematical integers,
as for the allocator.  A `struct buf *` is the index of the slot in
`bcache.buf`.  Calls carry the identity `pid` of the calling process, which
is what the sleep lock records.  The code that edits the data of a buffer
lies outside `bio.c` as well: a store by the process holding the slot's lock
is a step of its own, next to the calls. -/

namespace Bio

/-- Result of a cache call: normal return, fatal halt through `panic`, the
caller put to sleep on a held sleep lock, or a slot pointer outside the
array. -/
inductive Res (α : Type) where
  | ok (a : α) : Res α
  | panic (msg : String) : Res α
  | sleeps : Res α
  | badptr : Res α

/-- `#define NBUCKET 13`. -/
def NBUCKET : Nat := 13

/-- Modelled from the spec: `buf.h` is absent.  One slot of `bcache.buf`
(`struct buf`) with the attributes the spec lists for a buffer and `bio.c`
uses: device, block number, validity flag, reference count, exclusive lock and
data payload. -/
structure Buf where
  /-- Has the data been read from disk (`int valid`). -/
  valid : Int
  /-- Device number. -/
  dev : Nat
  /-- Block number. -/
  blockno : Nat
  /-- Sleep lock of the slot: the process holding it, if any. -/
  lock : Option Nat
  /-- Number of claims on the slot. -/
  refcnt : Int
  /-- Payload, one block of bytes. -/
  data : List Nat
  deriving DecidableEq

/-- One transfer of a block of bytes into or out of a slot: the slot, the
identity it carried, and the bytes transferred.  Either an operation of the
disk driver issued by the cache (`read` into the slot, `write` out of it) or a
`store` into the slot by the process holding its lock. -/
inductive DiskEv where
  | read (slot dev blockno : Nat) (data : List Nat) : DiskEv
  | write (slot dev blockno : Nat) (data : List Nat) : DiskEv
  | store (slot dev blockno : Nat) (data : List Nat) : DiskEv
  deriving DecidableEq

/-- State of the cache and of the device behind it. -/
structure Cache where
  /-- The array `bcache.buf[NBUF]`. -/
  buf : List Buf
  /-- Contents of the device, by device and block number. -/
  disk : Nat → Nat → List Nat
  /-- Operations the driver has performed and stores by holders, oldest first. -/
  log : List DiskEv

/-- Assignment through a slot pointer: `f` applied to slot `i` in place. -/
def updSlot (f : Buf → Buf) : List Buf → Nat → List Buf
  | [], _ => []
  | b :: bs, 0 => f b :: bs
  | b :: bs, i + 1 => b :: updSlot f bs i

/-- The scan `for(i = 0; i < NBUF; i++) if(b->dev == dev && b->blockno == blockno)`:
the first slot carrying the identity, counted from index `i`. -/
def lookup (dev blockno : Nat) : List Buf → Nat → Option Nat
  | [], _ => none
  | b :: bs, i => if b.dev = dev ∧ b.blockno = blockno then some i else lookup dev blockno bs (i + 1)

/-- The eviction scan `for(i = 0; i < NBUF; i++) if(b->refcnt == 0)`: the first
slot without claim, counted from index `i`.  (The bucket locks the scan takes
and drops on the way protect the slot against other processors; they change
no data.) -/
def findFree : List Buf → Nat → Option Nat
  | [], _ => none
  | b :: bs, i => if b.refcnt = 0 then some i else findFree bs (i + 1)

/-- Modelled from the spec: `sleeplock.c` is absent.  `acquiresleep(&b->lock)`
takes the slot's exclusive lock for `pid` when nobody holds it and otherwise
suspends the caller ("at most one execution context holds the
exclusive-access lock on a given buffer at a time"). -/
def acquiresleep (pid : Nat) (c : Cache) (i : Nat) : Res (Nat × Cache) :=
  match c.buf[i]? with
  | none => .badptr
  | some b =>
    match b.lock with
    | none => .ok (i, { c with buf := updSlot (fun b => { b with lock := some pid }) c.buf i })
    | some _ => .sleeps

/-- Modelled from the spec: `sleeplock.c` is absent.  `holdingsleep(&b->lock)`:
does the caller hold the slot's exclusive lock. -/
def holdingsleep (pid : Nat) (b : Buf) : Bool := b.lock == some pid

/-- Modelled from the spec: `sleeplock.c` is absent.  `releasesleep(&b->lock)`
gives the exclusive lock back. -/
def releasesleep (b : Buf) : Buf := { b with lock := none }

/-- Modelled from the spec: the disk driver is absent ("a synchronous device
read/write operation taking a buffer and a direction flag").
`virtio_disk_rw(b, write)` copies the block named by the slot's `dev` and
`blockno` from the device into the slot's data, or the data to the device, and
the operation is recorded in the log. -/
def virtio_disk_rw (c : Cache) (i : Nat) (write : Bool) : Cache :=
  match c.buf[i]? with
  | none => c
  | some b =>
    if write then
      { c with disk := fun d n => if d = b.dev ∧ n = b.blockno then b.data else c.disk d n,
               log := c.log ++ [.write i b.dev b.blockno b.data] }
    else
      { c with buf := updSlot (fun x => { x with data := c.disk b.dev b.blockno }) c.buf i,
               log := c.log ++ [.read i b.dev b.blockno (c.disk b.dev b.blockno)] }

/-- The part of `bget` that runs under the spin locks: the choice of the slot
and the update of its count and identity.  The scan for the block is done
twice, before and after taking `bcache.lock`; then the eviction scan claims
the first slot with `refcnt == 0`; if there is none, `panic`. -/
def bgetClaim (c : Cache) (dev blockno : Nat) : Res (Nat × Cache) :=
  match lookup dev blockno c.buf 0 with
  | some i => .ok (i, { c with buf := updSlot (fun b => { b with refcnt := b.refcnt + 1 }) c.buf i })
  | none =>
    match lookup dev blockno c.buf 0 with
    | some i =>
      .ok (i, { c with buf := updSlot (fun b => { b with refcnt := b.refcnt + 1 }) c.buf i })
    | none =>
      match findFree c.buf 0 with
      | some i =>
        let claim : Buf → Buf :=
          fun b => { b with dev := dev, blockno := blockno, valid := 0, refcnt := 1 }
        .ok (i, { c with buf := updSlot claim c.buf i })
      | none => .panic "bget: no buffers"

/-- `bget(dev, blockno)`: choose the slot, then `acquiresleep(&b->lock)`. -/
def bget (pid : Nat) (c : Cache) (dev blockno : Nat) : Res (Nat × Cache) :=
  match bgetClaim c dev blockno with
  | .ok (i, c1) => acquiresleep pid c1 i
  | o => o

/-- `bread(dev, blockno)`: `bget`, then read the block from disk unless the
slot is valid. -/
def bread (pid : Nat) (c : Cache) (dev blockno : Nat) : Res (Nat × Cache) :=
  match bget pid c dev blockno with
  | .ok (i, c1) =>
    match c1.buf[i]? with
    | none => .badptr
    | some b =>
      if b.valid = 0 then
        let c2 := virtio_disk_rw c1 i false
        .ok (i, { c2 with buf := updSlot (fun x => { x with valid := 1 }) c2.buf i })
      else .ok (i, c1)
  | o => o

/-- `bwrite(b)`: `panic` unless the caller holds the lock, else write to disk. -/
def bwrite (pid : Nat) (c : Cache) (i : Nat) : Res Cache :=
  match c.buf[i]? with
  | none => .badptr
  | some b => if !holdingsleep pid b then .panic "bwrite" else .ok (virtio_disk_rw c i true)

/-- `brelse(b)`: `panic` unless the caller holds the lock, else release it and
drop one claim. -/
def brelse (pid : Nat) (c : Cache) (i : Nat) : Res Cache :=
  match c.buf[i]? with
  | none => .badptr
  | some b =>
    if !holdingsleep pid b then .panic "brelse"
    else .ok { c with buf := updSlot (fun x => { releasesleep x with refcnt := x.refcnt - 1 }) c.buf i }

/-- `bpin(b)`: `b->refcnt++`. -/
def bpin (c : Cache) (i : Nat) : Res Cache :=
  match c.buf[i]? with
  | none => .badptr
  | some _ => .ok { c with buf := updSlot (fun x => { x with refcnt := x.refcnt + 1 }) c.buf i }

/-- `bunpin(b)`: `b->refcnt--`. -/
def bunpin (c : Cache) (i : Nat) : Res Cache :=
  match c.buf[i]? with
  | none => .badptr
  | some _ => .ok { c with buf := updSlot (fun x => { x with refcnt := x.refcnt - 1 }) c.buf i }

/-- A slot of the zero-initialised array, for blocks of `bsize` bytes. -/
def zeroBuf (bsize : Nat) : Buf :=
  { valid := 0, dev := 0, blockno := 0, lock := none, refcnt := 0, data := List.replicate bsize 0 }

/-- State after `binit()`: `nbuf` zeroed slots with their locks initialised
(free), over a device with contents `disk`. -/
def binit (nbuf bsize : Nat) (disk : Nat → Nat → List Nat) : Cache :=
  { buf := List.replicate nbuf (zeroBuf bsize), disk := disk, log := [] }

/-- The calls of the cache's interface. -/
inductive BOp where
  | bread (pid dev blockno : Nat) : BOp
  | bwrite (pid i : Nat) : BOp
  | brelse (pid i : Nat) : BOp
  | bpin (i : Nat) : BOp
  | bunpin (i : Nat) : BOp

/-- One call, keeping the state only. -/
def bstep (c : Cache) : BOp → Res Cache
  | .bread pid dev blockno =>
    match bread pid c dev blockno with
    | .ok (_, c1) => .ok c1
    | .panic m => .panic m
    | .sleeps => .sleeps
    | .badptr => .badptr
  | .bwrite pid i => bwrite pid c i
  | .brelse pid i => brelse pid c i
  | .bpin i => bpin c i
  | .bunpin i => bunpin c i

/-- A sequence of calls, stopping at the first one that does not return. -/
def brun (c : Cache) : List BOp → Res Cache
  | [] => .ok c
  | op :: ops => match bstep c op with
    | .ok c1 => brun c1 ops
    | o => o

/-- States reached from `binit` by calls that return. -/
inductive BReach (nbuf bsize : Nat) (disk : Nat → Nat → List Nat) : Cache → Prop where
  | init : BReach nbuf bsize disk (binit nbuf bsize disk)
  | step (c : Cache) (op : BOp) (c1 : Cache) :
      BReach nbuf bsize disk c → bstep c op = .ok c1 → BReach nbuf bsize disk c1

/-- The caller contract on the two calls that drop a claim: the slot has a
claim to drop. -/
def claimHeld (c : Cache) : BOp → Prop
  | .brelse _ i => ∃ b, c.buf[i]? = some b ∧ 1 ≤ b.refcnt
  | .bunpin i => ∃ b, c.buf[i]? = some b ∧ 1 ≤ b.refcnt
  | _ => True

/-- States reached from `binit` by calls that return, `brelse` and `bunpin`
being applied only to a slot whose count is at least 1. -/
inductive BReachHeld (nbuf bsize : Nat) (disk : Nat → Nat → List Nat) : Cache → Prop where
  | init : BReachHeld nbuf bsize disk (binit nbuf bsize disk)
  | step (c : Cache) (op : BOp) (c1 : Cache) :
      BReachHeld nbuf bsize disk c → claimHeld c op → bstep c op = .ok c1 →
      BReachHeld nbuf bsize disk c1

/-- Modelled from the spec: the code that edits a buffer is outside `bio.c`
("After changing buffer data, call bwrite to write it to disk"; the exclusive
lock guards the slot's data payload).  The process `pid` that holds the lock of
slot `i` stores `data` over the slot's payload, and the store is recorded in
the log with the identity the slot carries.  A process that does not hold the
lock has no such step. -/
def holderStore (pid : Nat) (c : Cache) (i : Nat) (data : List Nat) : Option Cache :=
  match c.buf[i]? with
  | none => none
  | some b =>
    if holdingsleep pid b then
      some { c with buf := updSlot (fun x => { x with data := data }) c.buf i,
                    log := c.log ++ [.store i b.dev b.blockno data] }
    else none

/-- States reached from `binit` by calls that return and by stores of holders
into their buffers; with `held`, `brelse` and `bunpin` are applied only to a
slot whose count is at least 1. -/
inductive BReachW (held : Bool) (nbuf bsize : Nat) (disk : Nat → Nat → List Nat) :
    Cache → Prop where
  | init : BReachW held nbuf bsize disk (binit nbuf bsize disk)
  | call (c : Cache) (op : BOp) (c1 : Cache) :
      BReachW held nbuf bsize disk c → (held = true → claimHeld c op) → bstep c op = .ok c1 →
      BReachW held nbuf bsize disk c1
  | store (c : Cache) (pid i : Nat) (data : List Nat) (c1 : Cache) :
      BReachW held nbuf bsize disk c → holderStore pid c i data = some c1 →
      BReachW held nbuf bsize disk c1

/-- No slot has a negative count. -/
def NonNeg (c : Cache) : Prop :=
  ∀ (i : Nat) (x : Buf), c.buf[i]? = some x → 0 ≤ x.refcnt

/-- A device whose block `n` of device `d` holds the two bytes `d`, `n`. -/
def disk0 : Nat → Nat → List Nat := fun d n => [d, n]

/-- The state after the calls `ops` issued after `binit` with two slots of
four bytes over `disk0` (the initial state should one of them not return). -/
def cacheAfter (ops : List BOp) : Cache :=
  match brun (binit 2 4 disk0) ops with
  | .ok c => c
  | _ => binit 2 4 disk0

/-- What the scans of `bget` look at in a slot: device, block number and
reference count. -/
def slotKey (b : Buf) : Nat × Nat × Int := (b.dev, b.blockno, b.refcnt)

/-- The index of the slot `bget` chooses for `(dev, blockno)`, if it chooses
one. -/
def chosen (c : Cache) (dev blockno : Nat) : Option Nat :=
  match bgetClaim c dev blockno with
  | .ok (i, _) => some i
  | _ => none

/-- The call `op` is not aimed at slot `i` or at the block `(d, n)`: it is a
`bread` of another block, or a call on another slot. -/
def avoids (i d n : Nat) : BOp → Prop
  | .bread _ dev blockno => ¬ (dev = d ∧ blockno = n)
  | .bwrite _ j => j ≠ i
  | .brelse _ j => j ≠ i
  | .bpin j => j ≠ i
  | .bunpin j => j ≠ i

/-- The call is a `bread` or a `brelse`. -/
def readRelease : BOp → Prop
  | .bread _ _ _ => True
  | .brelse _ _ => True
  | _ => False

/-- No slot before a slot with a count above 0 carries the same identity. -/
def FirstLive (c : Cache) : Prop :=
  ∀ (i : Nat) (x : Buf), c.buf[i]? = some x → 0 < x.refcnt →
    ∀ (j : Nat) (y : Buf), j < i → c.buf[j]? = some y →
      ¬ (y.dev = x.dev ∧ y.blockno = x.blockno)

/-! ## Lock events

The spin locks (`bcache.lock` and the bucket locks) leave the data alone, so
the calls above do not mention them.  The definitions below list, in program
order, the lock operations and suspension points of one execution of each
call. -/

/-- A spin lock of the cache: `bcache.lock` or `buckets[k].bucket_lock`. -/
inductive Lock where
  | pool : Lock
  | bucket (k : Nat) : Lock
  deriving DecidableEq

/-- One lock operation or suspension point: `acquire`, `release`,
`acquiresleep` on a slot (the caller may be suspended), `releasesleep` on a
slot, and the device read of `bread` into a slot (the caller is suspended). -/
inductive LockEv where
  | acq (l : Lock) : LockEv
  | rel (l : Lock) : LockEv
  | sleepAcq (slot : Nat) : LockEv
  | sleepRel (slot : Nat) : LockEv
  | diskRead (slot : Nat) : LockEv
  deriving DecidableEq

/-- Events of the eviction scan of `bget` over the slots from index `i` on,
for target bucket `t`: the bucket of the slot's current block number is
locked when it is not the target's; a slot with `refcnt == 0` ends the scan
with `release(&bcache.lock)`, the release of the extra bucket lock, the
release of the target bucket lock and `acquiresleep`; another slot has its
extra bucket lock released and the scan goes on.  When the slots are
exhausted `bget` halts in `panic` with both locks still held. -/
def evictTrace (t : Nat) : List Buf → Nat → List LockEv
  | [], _ => []
  | b :: bs, i =>
    (if b.blockno % NBUCKET ≠ t then [.acq (.bucket (b.blockno % NBUCKET))] else []) ++
      (if b.refcnt = 0 then
        [.rel .pool] ++
          (if b.blockno % NBUCKET ≠ t then [.rel (.bucket (b.blockno % NBUCKET))] else []) ++
          [.rel (.bucket t), .sleepAcq i]
      else
        (if b.blockno % NBUCKET ≠ t then [.rel (.bucket (b.blockno % NBUCKET))] else []) ++
          evictTrace t bs (i + 1))

/-- Events of the slow path of `bget` ("Not cached."), run on state `c`:
`acquire(&bcache.lock)`, `acquire(&bkt->bucket_lock)`, the second scan, and
the eviction scan if that finds nothing. -/
def slowTrace (c : Cache) (dev blockno : Nat) : List LockEv :=
  [.acq .pool, .acq (.bucket (blockno % NBUCKET))] ++
    match lookup dev blockno c.buf 0 with
    | some i => [.rel .pool, .rel (.bucket (blockno % NBUCKET)), .sleepAcq i]
    | none => evictTrace (blockno % NBUCKET) c.buf 0

/-- Events of `bget(dev, blockno)`: the first scan under the target bucket
lock sees state `c`; if it finds nothing the lock is released and the slow
path runs on state `c2` (equal to `c` unless another processor changed the
cache in between). -/
def bgetTrace (c c2 : Cache) (dev blockno : Nat) : List LockEv :=
  .acq (.bucket (blockno % NBUCKET)) ::
    match lookup dev blockno c.buf 0 with
    | some i => [.rel (.bucket (blockno % NBUCKET)), .sleepAcq i]
    | none => .rel (.bucket (blockno % NBUCKET)) :: slowTrace c2 dev blockno

/-- Events of `bread(dev, blockno)` on state `c`: those of `bget`, then the
device read when the slot returned is not valid. -/
def breadTrace (c : Cache) (dev blockno : Nat) : List LockEv :=
  bgetTrace c c dev blockno ++
    match bgetClaim c dev blockno with
    | .ok (i, c1) =>
      match c1.buf[i]? with
      | some b => if b.valid = 0 then [.diskRead i] else []
      | none => []
    | _ => []

/-- Events of `brelse(b)`: none when the call halts in `panic`, else
`releasesleep`, then the bucket lock of the slot's block number around the
decrement. -/
def brelseTrace (pid : Nat) (c : Cache) (i : Nat) : List LockEv :=
  match c.buf[i]? with
  | none => []
  | some b =>
    if !holdingsleep pid b then []
    else [.sleepRel i, .acq (.bucket (b.blockno % NBUCKET)),
          .rel (.bucket (b.blockno % NBUCKET))]

/-- Events of `bpin(b)` and of `bunpin(b)`: `bcache.lock` around the update
of the count. -/
def bpinTrace : List LockEv := [.acq .pool, .rel .pool]

/-- The lock order on a sequence of events of the slow path for target
bucket `t`, given the spin locks `held` before it and the event `prev` before
it.  The target bucket lock is acquired with `bcache.lock` held; another
bucket lock is acquired with `bcache.lock` and the target bucket lock held.
Another bucket lock is released with `bcache.lock` still held or, unless
`strict`, right after the release of `bcache.lock`.  When `bcache.lock` is
released, every spin lock held is `bcache.lock` itself, the target bucket lock
or, unless `strict`, the lock that the very next event releases; at the end of
the sequence no bucket lock other than the target's is held. -/
def LockOrder (strict : Bool) (t : Nat) : List Lock → Option LockEv → List LockEv → Prop
  | held, _, [] => ∀ l ∈ held, l = .pool ∨ l = .bucket t
  | held, _, .acq .pool :: evs => LockOrder strict t (.pool :: held) (some (.acq .pool)) evs
  | held, _, .acq (.bucket k) :: evs =>
    Lock.pool ∈ held ∧ (k ≠ t → Lock.bucket t ∈ held) ∧
      LockOrder strict t (.bucket k :: held) (some (.acq (.bucket k))) evs
  | held, _, .rel .pool :: evs =>
    (∀ l ∈ held, l = .pool ∨ l = .bucket t ∨ (strict = false ∧ evs.head? = some (.rel l))) ∧
      LockOrder strict t (held.erase .pool) (some (.rel .pool)) evs
  | held, prev, .rel (.bucket k) :: evs =>
    (k ≠ t → Lock.pool ∈ held ∨ (strict = false ∧ prev = some (.rel .pool))) ∧
      LockOrder strict t (held.erase (.bucket k)) (some (.rel (.bucket k))) evs
  | held, _, .sleepAcq i :: evs => LockOrder strict t held (some (.sleepAcq i)) evs
  | held, _, .sleepRel i :: evs => LockOrder strict t held (some (.sleepRel i)) evs
  | held, _, .diskRead i :: evs => LockOrder strict t held (some (.diskRead i)) evs

instance LockOrder.decide (strict : Bool) (t : Nat) :
    (held : List Lock) → (prev : Option LockEv) → (evs : List LockEv) →
    Decidable (LockOrder strict t held prev evs)
  | _, _, [] => by unfold LockOrder; exact inferInstance
  | held, _, .acq .pool :: evs => by
    unfold LockOrder
    exact LockOrder.decide strict t _ _ evs
  | held, _, .acq (.bucket k) :: evs => by
    unfold LockOrder
    haveI := LockOrder.decide strict t (.bucket k :: held) (some (.acq (.bucket k))) evs
    exact inferInstance
  | held, _, .rel .pool :: evs => by
    unfold LockOrder
    haveI := LockOrder.decide strict t (held.erase .pool) (some (.rel .pool)) evs
    exact inferInstance
  | held, prev, .rel (.bucket k) :: evs => by
    unfold LockOrder
    haveI := LockOrder.decide strict t (held.erase (.bucket k)) (some (.rel (.bucket k))) evs
    exact inferInstance
  | held, _, .sleepAcq i :: evs => by
    unfold LockOrder
    exact LockOrder.decide strict t _ _ evs
  | held, _, .sleepRel i :: evs => by
    unfold LockOrder
    exact LockOrder.decide strict t _ _ evs
  | held, _, .diskRead i :: evs => by
    unfold LockOrder
    exact LockOrder.decide strict t _ _ evs

/-- No spin lock is held at a suspension point and none is acquired twice:
along the events, starting with the spin locks `held`, every `acquire` takes
a lock that is not held, and at every `acquiresleep` and device read no spin
lock is held. -/
def NoSpinHeld : List Lock → List LockEv → Prop
  | _, [] => True
  | held, .acq l :: evs => l ∉ held ∧ NoSpinHeld (l :: held) evs
  | held, .rel l :: evs => NoSpinHeld (held.erase l) evs
  | held, .sleepAcq _ :: evs => held = [] ∧ NoSpinHeld held evs
  | held, .sleepRel _ :: evs => NoSpinHeld held evs
  | held, .diskRead _ :: evs => held = [] ∧ NoSpinHeld held evs

instance NoSpinHeld.decide : (held : List Lock) → (evs : List LockEv) →
    Decidable (NoSpinHeld held evs)
  | _, [] => by unfold NoSpinHeld; exact inferInstance
  | held, .acq l :: evs => by
    unfold NoSpinHeld
    haveI := NoSpinHeld.decide (l :: held) evs
    exact inferInstance
  | held, .rel l :: evs => by
    unfold NoSpinHeld
    exact NoSpinHeld.decide _ evs
  | held, .sleepAcq _ :: evs => by
    unfold NoSpinHeld
    haveI := NoSpinHeld.decide held evs
    exact inferInstance
  | held, .sleepRel _ :: evs => by
    unfold NoSpinHeld
    exact NoSpinHeld.decide _ evs
  | held, .diskRead _ :: evs => by
    unfold NoSpinHeld
    haveI := NoSpinHeld.decide held evs
    exact inferInstance

end Bio

namespace Kalloc

/-- `L3` satisfies the layout assumptions. -/
theorem L3_WF : L3.WF :=
  ⟨by decide, by decide, by decide, by decide, by decide, by decide⟩

/-! ## Arithmetic of addresses and indices -/

theorem toInt32_of_lt {n : Nat} (h : n < 2 ^ 31) : toInt32 n = (n : Int) := by
  unfold toInt32
  have h1 : n % 2 ^ 32 = n := Nat.mod_eq_of_lt (by omega)
  rw [h1, if_pos h]

theorem inTable_of_lt {L : Layout} (hL : L.WF) {i : Nat} (h : i < PHY_PAGES L) :
    inTable L (toInt32 i) ∧ (toInt32 i).toNat = i := by
  have h31 : i < 2 ^ 31 := lt_of_lt_of_le h hL.pages_le
  rw [toInt32_of_lt h31]
  refine ⟨⟨Int.natCast_nonneg i, ?_⟩, Int.toNat_natCast i⟩
  exact_mod_cast h

theorem PHY_PAGES_eq {L : Layout} (hL : L.WF) :
    PHY_PAGES L = (L.PHYSTOP - L.KERNBASE) / PGSIZE := by
  have h1 := hL.base_le_end
  have h2 := hL.end_le_stop
  have h3 := hL.stop_lt
  unfold PHY_PAGES
  unfold U64 PGSIZE at *
  have hk : L.KERNBASE % 2 ^ 64 = L.KERNBASE := Nat.mod_eq_of_lt (by omega)
  rw [hk]
  have : (L.PHYSTOP + 2 ^ 64 - L.KERNBASE) % 2 ^ 64 = L.PHYSTOP - L.KERNBASE := by omega
  rw [this]

theorem PA2RCI_eq {L : Layout} (hL : L.WF) {pa : Nat} (h1 : L.KERNBASE ≤ pa) (h2 : pa < U64) :
    PA2RCI L pa = (pa - L.KERNBASE) / PGSIZE := by
  have h3 := hL.stop_lt
  have h4 := hL.base_le_end
  have h5 := hL.end_le_stop
  unfold PA2RCI
  unfold U64 PGSIZE at *
  have hk : L.KERNBASE % 2 ^ 64 = L.KERNBASE := Nat.mod_eq_of_lt (by omega)
  rw [hk]
  have : (pa + 2 ^ 64 - L.KERNBASE) % 2 ^ 64 = pa - L.KERNBASE := by omega
  rw [this]

theorem PGROUNDUP_spec {L : Layout} (hL : L.WF) :
    PGROUNDUP L.kend % PGSIZE = 0 ∧ L.kend ≤ PGROUNDUP L.kend ∧ PGROUNDUP L.kend < L.kend + PGSIZE := by
  have h3 := hL.stop_lt
  have h5 := hL.end_le_stop
  unfold PGROUNDUP
  unfold U64 PGSIZE at *
  have : (L.kend + (4096 - 1)) % 2 ^ 64 = L.kend + 4095 := Nat.mod_eq_of_lt (by omega)
  rw [this]
  omega

/-- A page of the managed range is a page-aligned address from `end` up to
`PHYSTOP - PGSIZE`. -/
theorem isPage_iff {L : Layout} (hL : L.WF) (p : Nat) :
    isPage L p ↔ p % PGSIZE = 0 ∧ L.kend ≤ p ∧ p + PGSIZE ≤ L.PHYSTOP := by
  have h := PGROUNDUP_spec hL
  unfold isPage
  unfold PGSIZE at *
  constructor
  · rintro ⟨a, b, c⟩; exact ⟨a, by omega, c⟩
  · rintro ⟨a, b, c⟩; exact ⟨a, by omega, c⟩

theorem isPage_index {L : Layout} (hL : L.WF) {p : Nat} (hp : isPage L p) :
    PA2RCI L p < PHY_PAGES L ∧ p ≠ 0 ∧ p < U64 := by
  have hb := hL.base_pos
  have ha := hL.base_aligned
  have h1 := hL.base_le_end
  have h3 := hL.stop_lt
  obtain ⟨a, b, c⟩ := (isPage_iff hL p).1 hp
  have hlt : p < U64 := by unfold PGSIZE at *; omega
  rw [PA2RCI_eq hL (le_trans h1 b) hlt, PHY_PAGES_eq hL]
  unfold U64 PGSIZE at *
  omega

theorem PA2RCI_inj {L : Layout} (hL : L.WF) {p q : Nat} (hp : isPage L p) (hq : isPage L q)
    (h : PA2RCI L p = PA2RCI L q) : p = q := by
  have ha := hL.base_aligned
  have h1 := hL.base_le_end
  obtain ⟨a, b, c⟩ := (isPage_iff hL p).1 hp
  obtain ⟨a2, b2, c2⟩ := (isPage_iff hL q).1 hq
  rw [PA2RCI_eq hL (le_trans h1 b) (isPage_index hL hp).2.2,
    PA2RCI_eq hL (le_trans h1 b2) (isPage_index hL hq).2.2] at h
  unfold PGSIZE at *
  omega

/-! ## Memory -/

theorem read64_congr {m m2 : Nat → Nat} {a : Nat} (h : ∀ k, k < 8 → m2 (a + k) = m (a + k)) :
    read64 m2 a = read64 m a := by
  unfold read64
  have h0 := h 0 (by omega)
  rw [Nat.add_zero] at h0
  rw [h0, h 1 (by omega), h 2 (by omega), h 3 (by omega), h 4 (by omega), h 5 (by omega),
    h 6 (by omega), h 7 (by omega)]

theorem read64_lt (m : Nat → Nat) (a : Nat) : read64 m a < U64 := by
  unfold read64 U64
  omega

theorem read64_write64 (m : Nat → Nat) (a v : Nat) (hv : v < U64) :
    read64 (write64 m a v) a = v := by
  unfold U64 at hv
  unfold read64 write64
  simp only [le_refl, Nat.lt_add_one, lt_add_iff_pos_right, Nat.ofNat_pos, and_self, if_true,
    Nat.sub_self, pow_zero, Nat.div_one, le_add_iff_nonneg_right, zero_le, add_lt_add_iff_left,
    Nat.one_lt_ofNat, Nat.reduceLT, true_and, add_tsub_cancel_left, Nat.mod_mod, Nat.reducePow]
  omega

theorem write64_other (m : Nat → Nat) (a v x : Nat) (h : x < a ∨ a + 8 ≤ x) :
    write64 m a v x = m x := by
  unfold write64
  rw [if_neg (by omega)]

theorem memset_in (m : Nat → Nat) (dst c n x : Nat) (h : dst ≤ x ∧ x < dst + n) :
    memset m dst c n x = c % 256 := by
  unfold memset
  rw [if_pos h]

theorem memset_other (m : Nat → Nat) (dst c n x : Nat) (h : x < dst ∨ dst + n ≤ x) :
    memset m dst c n x = m x := by
  unfold memset
  rw [if_neg (by omega)]

theorem Chain_congr {m m2 : Nat → Nat} :
    ∀ (l : List Nat) (h : Nat), (∀ q ∈ l, ∀ k, k < 8 → m2 (q + k) = m (q + k)) →
      Chain m h l → Chain m2 h l
  | [], _, _, hc => hc
  | p :: l, h, hm, hc => by
    unfold Chain at hc ⊢
    obtain ⟨e, n, c⟩ := hc
    refine ⟨e, n, ?_⟩
    rw [read64_congr (hm p (List.mem_cons_self p l))]
    exact Chain_congr l _ (fun q hq => hm q (List.mem_cons_of_mem p hq)) c

theorem walk_of_Chain {m : Nat → Nat} :
    ∀ (l : List Nat) (h : Nat), Chain m h l → ∀ n, l.length ≤ n → walk m n h = l
  | [], h, hc, n, _ => by
    unfold Chain at hc
    subst hc
    cases n <;> simp [walk]
  | p :: l, h, hc, n, hn => by
    unfold Chain at hc
    obtain ⟨e, ne, c⟩ := hc
    subst e
    cases n with
    | zero => simp at hn
    | succ n =>
      simp only [walk, if_neg ne]
      rw [walk_of_Chain l _ c n (by simpa using hn)]

theorem walk_prefix_of_Chain {m : Nat → Nat} :
    ∀ (l : List Nat) (h : Nat), Chain m h l → ∀ n p, p ∈ walk m n h → p ∈ l
  | [], h, hc, n, p, hp => by
    unfold Chain at hc
    subst hc
    cases n <;> simp [walk] at hp
  | q :: l, h, hc, n, p, hp => by
    unfold Chain at hc
    obtain ⟨e, ne, c⟩ := hc
    subst e
    cases n with
    | zero => simp [walk] at hp
    | succ n =>
      simp only [walk, if_neg ne, List.mem_cons] at hp
      rcases hp with hp | hp
      · exact hp ▸ List.mem_cons_self _ _
      · exact List.mem_cons_of_mem _ (walk_prefix_of_Chain l _ c n p hp)

/-- When the free list is the finite chain `l`, being on the free list is
membership in `l`. -/
theorem onFreeList_iff {s : KState} {l : List Nat} (hc : Chain s.mem s.freelist l) (p : Nat) :
    onFreeList s p ↔ p ∈ l := by
  constructor
  · rintro ⟨n, hn⟩
    exact walk_prefix_of_Chain l _ hc n p hn
  · intro hp
    exact ⟨l.length, by rw [walk_of_Chain l _ hc _ le_rfl]; exact hp⟩

/-! ## The calls, one by one -/

theorem incref_eq {L : Layout} (hL : L.WF) (s : KState) {pa : Nat}
    (h : PA2RCI L pa < PHY_PAGES L) :
    incref L s pa =
      .ok { ref_cnt := Function.update s.ref_cnt (PA2RCI L pa) (s.ref_cnt (PA2RCI L pa) + 1),
            freelist := s.freelist, mem := s.mem } := by
  obtain ⟨h1, h2⟩ := inTable_of_lt hL h
  unfold incref
  simp only [h1, h2, if_true]

theorem decref_eq {L : Layout} (hL : L.WF) (s : KState) {pa : Nat}
    (h : PA2RCI L pa < PHY_PAGES L) :
    decref L s pa =
      .ok { ref_cnt := Function.update s.ref_cnt (PA2RCI L pa) (s.ref_cnt (PA2RCI L pa) - 1),
            freelist := s.freelist, mem := s.mem } := by
  obtain ⟨h1, h2⟩ := inTable_of_lt hL h
  unfold decref
  simp only [h1, h2, if_true]

/-- The three ways out of `kfree` for an address whose index is in the table. -/
theorem kfree_eq {L : Layout} (hL : L.WF) (s : KState) {pa : Nat}
    (h : PA2RCI L pa < PHY_PAGES L) :
    kfree L s pa =
      if 1 < s.ref_cnt (PA2RCI L pa) then
        .ok { ref_cnt := Function.update s.ref_cnt (PA2RCI L pa) (s.ref_cnt (PA2RCI L pa) - 1),
              mem := s.mem, freelist := s.freelist }
      else if pa % PGSIZE ≠ 0 ∨ pa < L.kend ∨ pa ≥ L.PHYSTOP then .panic "kfree"
      else
        .ok { ref_cnt := Function.update s.ref_cnt (PA2RCI L pa) (s.ref_cnt (PA2RCI L pa) - 1),
              mem := write64 (memset s.mem pa 1 PGSIZE) pa s.freelist,
              freelist := pa } := by
  unfold kfree
  rw [decref_eq hL s h]
  simp only [h, if_true, Function.update_same]
  by_cases hc : 1 < s.ref_cnt (PA2RCI L pa)
  · rw [if_pos hc, if_pos (by omega)]
  · rw [if_neg hc, if_neg (by omega)]

theorem kalloc_empty (L : Layout) (s : KState) (h : s.freelist = 0) :
    kalloc L s = .ok (0, s) := by
  unfold kalloc
  simp [h]

theorem kalloc_eq {L : Layout} (hL : L.WF) (s : KState) (h0 : s.freelist ≠ 0)
    (h : PA2RCI L s.freelist < PHY_PAGES L) :
    kalloc L s = .ok (s.freelist,
      { ref_cnt := Function.update s.ref_cnt (PA2RCI L s.freelist) 1,
        mem := memset s.mem s.freelist 5 PGSIZE,
        freelist := read64 s.mem s.freelist }) := by
  obtain ⟨h1, h2⟩ := inTable_of_lt hL h
  unfold kalloc
  simp only [h0, ne_eq, not_false_eq_true, if_true, h1, h2]

/-- A page different from `p` keeps its link word when bytes of `p` change. -/
theorem link_disjoint {p q : Nat} (hp : p % PGSIZE = 0) (hq : q % PGSIZE = 0) (hne : q ≠ p)
    (k : Nat) (hk : k < 8) : q + k < p ∨ p + PGSIZE ≤ q + k := by
  unfold PGSIZE at *
  omega

/-! ## Reference counts alone (C8) -/

/-- C8: for an address whose index lies in the counter table, `incref` and
`decref` return normally, move the count of the page containing the address
by exactly one up resp. down, and change neither another count, nor the free
list, nor memory; a count of 0 is incremented to 1 like any other, and
`decref` after `incref` gives back the state before. -/
theorem C8_incref_decref (L : Layout) (hL : L.WF) (s : KState) (pa : Nat)
    (h : PA2RCI L pa < PHY_PAGES L) :
    ∃ s1 s2, incref L s pa = .ok s1 ∧ decref L s pa = .ok s2 ∧
      s1.ref_cnt (PA2RCI L pa) = s.ref_cnt (PA2RCI L pa) + 1 ∧
      s2.ref_cnt (PA2RCI L pa) = s.ref_cnt (PA2RCI L pa) - 1 ∧
      (∀ i, i ≠ PA2RCI L pa → s1.ref_cnt i = s.ref_cnt i ∧ s2.ref_cnt i = s.ref_cnt i) ∧
      s1.freelist = s.freelist ∧ s2.freelist = s.freelist ∧
      s1.mem = s.mem ∧ s2.mem = s.mem ∧
      (s.ref_cnt (PA2RCI L pa) = 0 → s1.ref_cnt (PA2RCI L pa) = 1) ∧
      decref L s1 pa = .ok s := by
  refine ⟨_, _, incref_eq hL s h, decref_eq hL s h, ?_, ?_, ?_, rfl, rfl, rfl, rfl, ?_, ?_⟩
  · simp
  · simp
  · intro i hi
    simp [Function.update_noteq hi]
  · intro h0
    simp [h0]
  · rw [decref_eq hL _ h]
    simp

theorem C8_incref_decref_witness :
    PA2RCI L3 (pageA + 8) < PHY_PAGES L3 ∧
    ∃ s1 s2, incref L3 (bootState zeroMem) (pageA + 8) = .ok s1 ∧
      decref L3 (bootState zeroMem) (pageA + 8) = .ok s2 ∧
      s1.ref_cnt (PA2RCI L3 (pageA + 8)) = (bootState zeroMem).ref_cnt (PA2RCI L3 (pageA + 8)) + 1 ∧
      s2.ref_cnt (PA2RCI L3 (pageA + 8)) = (bootState zeroMem).ref_cnt (PA2RCI L3 (pageA + 8)) - 1 ∧
      (∀ i, i ≠ PA2RCI L3 (pageA + 8) → s1.ref_cnt i = (bootState zeroMem).ref_cnt i ∧
        s2.ref_cnt i = (bootState zeroMem).ref_cnt i) ∧
      s1.freelist = (bootState zeroMem).freelist ∧ s2.freelist = (bootState zeroMem).freelist ∧
      s1.mem = (bootState zeroMem).mem ∧ s2.mem = (bootState zeroMem).mem ∧
      ((bootState zeroMem).ref_cnt (PA2RCI L3 (pageA + 8)) = 0 →
        s1.ref_cnt (PA2RCI L3 (pageA + 8)) = 1) ∧
      decref L3 s1 (pageA + 8) = .ok (bootState zeroMem) :=
  ⟨by decide, C8_incref_decref L3 L3_WF (bootState zeroMem) (pageA + 8) (by decide)⟩

/-! ## `kalloc` (C5) -/

/-- C5, as stated, fails: after boot on `L3`, `kalloc`, `kfree(pageB)` and a
second `kfree(pageB)` leave `pageB` at the head of the free list with its own
address in its link word.  The next `kalloc` returns `pageB` with count 1, but
the head of the new free list is still `pageB`: the returned page has not been
removed, and its link word now holds the sentinel bytes. -/
theorem C5_counterexample :
    ∃ s s1, bootRun L3 zeroMem [.kalloc, .kfree pageB, .kfree pageB] = some (.ok s) ∧
      s.freelist = pageB ∧ read64 s.mem pageB = pageB ∧
      kalloc L3 s = .ok (pageB, s1) ∧ s1.ref_cnt (PA2RCI L3 pageB) = 1 ∧
      s1.freelist = pageB ∧ read64 s1.mem pageB = 0x0505050505050505 :=
  ⟨_, _, rfl, by decide, by decide, rfl, by decide, by decide, by decide⟩

/-- C5 (amended): in every state whose free-list head is null or has its index
inside the counter table: if the head is null, `kalloc` returns 0 and the state
is unchanged; otherwise it returns the head, the new head is the link word of
the old one, the count of the returned page becomes 1, all 4096 bytes of it
hold the byte 5, and every other count and every byte outside the page is
unchanged.  When the old free list is a finite chain of distinct page-aligned
addresses, the new free list is that chain with exactly its head removed. -/
theorem C5_kalloc (L : Layout) (hL : L.WF) (s : KState)
    (hh : s.freelist = 0 ∨ PA2RCI L s.freelist < PHY_PAGES L) :
    (s.freelist = 0 → kalloc L s = .ok (0, s)) ∧
    (s.freelist ≠ 0 → ∃ s1, kalloc L s = .ok (s.freelist, s1) ∧
      s1.freelist = read64 s.mem s.freelist ∧
      s1.ref_cnt (PA2RCI L s.freelist) = 1 ∧
      (∀ a, s.freelist ≤ a → a < s.freelist + 4096 → s1.mem a = 5) ∧
      (∀ i, i ≠ PA2RCI L s.freelist → s1.ref_cnt i = s.ref_cnt i) ∧
      (∀ a, a < s.freelist ∨ s.freelist + 4096 ≤ a → s1.mem a = s.mem a) ∧
      (∀ p t, Chain s.mem s.freelist (p :: t) → (p :: t).Nodup →
        (∀ q ∈ p :: t, q % PGSIZE = 0) → p = s.freelist ∧ Chain s1.mem s1.freelist t)) := by
  constructor
  · intro e
    exact kalloc_empty L s e
  · intro ne
    have hpi : PA2RCI L s.freelist < PHY_PAGES L := hh.resolve_left ne
    obtain ⟨rc, fl, m⟩ := s
    simp only at ne hpi
    refine ⟨_, kalloc_eq hL _ ne hpi, rfl, ?_, ?_, ?_, ?_, ?_⟩
    · show Function.update rc (PA2RCI L fl) 1 (PA2RCI L fl) = 1
      rw [Function.update_same]
    · intro a h1 h2
      show memset m fl 5 PGSIZE a = 5
      exact memset_in m fl 5 PGSIZE a ⟨h1, h2⟩
    · intro i hi
      show Function.update rc (PA2RCI L fl) 1 i = rc i
      rw [Function.update_noteq hi]
    · intro a ha
      exact memset_other m fl 5 PGSIZE a ha
    · intro p t hc hnd hl
      unfold Chain at hc
      obtain ⟨e, _, c⟩ := hc
      simp only at e c
      subst e
      have hpa := hl fl (List.mem_cons_self fl t)
      have hnp : fl ∉ t := (List.nodup_cons.1 hnd).1
      refine ⟨rfl, ?_⟩
      show Chain (memset m fl 5 PGSIZE) (read64 m fl) t
      refine Chain_congr t _ ?_ c
      intro q hq k hk
      have hqa := hl q (List.mem_cons_of_mem fl hq)
      have hne : q ≠ fl := fun h => hnp (h ▸ hq)
      exact memset_other _ _ _ _ _ (link_disjoint hpa hqa hne k hk)

theorem C5_kalloc_witness :
    (seeded3.freelist = 0 ∨ PA2RCI L3 seeded3.freelist < PHY_PAGES L3) ∧
    seeded3.freelist = pageB ∧
    Chain seeded3.mem seeded3.freelist [pageB, pageA] ∧ [pageB, pageA].Nodup ∧
    (∀ q ∈ [pageB, pageA], q % PGSIZE = 0) ∧
    ∃ s1, kalloc L3 seeded3 = .ok (seeded3.freelist, s1) ∧ Chain s1.mem s1.freelist [pageA] ∧
      s1.ref_cnt (PA2RCI L3 seeded3.freelist) = 1 :=
  ⟨by decide, by decide, by decide, by decide, by decide,
    match (C5_kalloc L3 L3_WF seeded3 (by decide)).2 (by decide) with
    | ⟨s1, h1, _, h2, _, _, _, h3⟩ =>
      ⟨s1, h1, (h3 pageB [pageA] (by decide) (by decide) (by decide)).2, h2⟩⟩

/-! ## `kfree` (C2, C3, C4) -/

/-- C2, as stated, fails: after boot on `L3`, `kalloc` returns `pageB` and
`kfree(pageB)` brings its count back to 0; a second `kfree(pageB)` returns
normally, leaves the count at -1 and makes `pageB` the head of the free list
with its own address in its link word. -/
theorem C2_counterexample :
    ∃ s s1, bootRun L3 zeroMem [.kalloc, .kfree pageB] = some (.ok s) ∧
      isPage L3 pageB ∧ s.ref_cnt (PA2RCI L3 pageB) = 0 ∧
      kfree L3 s pageB = .ok s1 ∧ s1.ref_cnt (PA2RCI L3 pageB) = -1 ∧
      walk s1.mem 3 s1.freelist = [pageB, pageB, pageB] :=
  ⟨_, _, rfl, by decide, by decide, rfl, by decide, by decide⟩

/-- C2 (amended): releasing a page of the managed range whose count is
already 0 is not fatal.  `kfree` returns normally, the count is left at -1,
the page is filled with the byte 1 and becomes the head of the free list, its
link word holding the previous head; nothing else changes. -/
theorem C2_kfree_at_zero (L : Layout) (hL : L.WF) (s : KState) (p : Nat)
    (hp : isPage L p) (h0 : s.ref_cnt (PA2RCI L p) = 0) (hf : s.freelist < U64) :
    ∃ s1, kfree L s p = .ok s1 ∧ s1.ref_cnt (PA2RCI L p) = -1 ∧
      s1.freelist = p ∧ read64 s1.mem p = s.freelist ∧
      (∀ a, p + 8 ≤ a → a < p + 4096 → s1.mem a = 1) ∧
      (∀ i, i ≠ PA2RCI L p → s1.ref_cnt i = s.ref_cnt i) ∧
      (∀ a, a < p ∨ p + 4096 ≤ a → s1.mem a = s.mem a) := by
  obtain ⟨hi, _, _⟩ := isPage_index hL hp
  obtain ⟨ha, hb, hc⟩ := (isPage_iff hL p).1 hp
  have hv : ¬ (p % PGSIZE ≠ 0 ∨ p < L.kend ∨ p ≥ L.PHYSTOP) := by
    unfold PGSIZE at *
    omega
  have hk := kfree_eq hL s hi
  rw [if_neg (by omega), if_neg hv] at hk
  refine ⟨_, hk, ?_, ?_, ?_, ?_, ?_, ?_⟩
  · simp [h0]
  · rfl
  · exact read64_write64 _ _ _ hf
  · intro a h1 h2
    show write64 (memset s.mem p 1 PGSIZE) p s.freelist a = 1
    rw [write64_other _ _ _ _ (Or.inr h1)]
    exact memset_in s.mem p 1 PGSIZE a ⟨by omega, h2⟩
  · intro i hne
    show Function.update s.ref_cnt (PA2RCI L p) _ i = s.ref_cnt i
    rw [Function.update_noteq hne]
  · intro a h1
    show write64 (memset s.mem p 1 PGSIZE) p s.freelist a = s.mem a
    rw [write64_other _ _ _ _ (by omega)]
    exact memset_other s.mem p 1 PGSIZE a h1

theorem C2_kfree_at_zero_witness :
    isPage L3 pageA ∧ seeded3.ref_cnt (PA2RCI L3 pageA) = 0 ∧ seeded3.freelist < U64 ∧
    ∃ s1, kfree L3 seeded3 pageA = .ok s1 ∧ s1.ref_cnt (PA2RCI L3 pageA) = -1 ∧
      s1.freelist = pageA :=
  ⟨by decide, by decide, by decide,
    match C2_kfree_at_zero L3 L3_WF seeded3 pageA (by decide) (by decide) (by decide) with
    | ⟨s1, h1, h2, h3, _⟩ => ⟨s1, h1, h2, h3⟩⟩

/-- C3, as stated, fails: after boot on `L3`, `kalloc` returns `pageB` and
`incref(pageB)` brings its count to 2; `kfree(pageB + 8)`, an address that is
not a multiple of the page size, then returns normally with the count at 1. -/
theorem C3_counterexample :
    ∃ s s1, bootRun L3 zeroMem [.kalloc, .incref pageB] = some (.ok s) ∧
      s.ref_cnt (PA2RCI L3 (pageB + 8)) = 2 ∧ (pageB + 8) % PGSIZE ≠ 0 ∧
      PA2RCI L3 (pageB + 8) = PA2RCI L3 pageB ∧
      kfree L3 s (pageB + 8) = .ok s1 ∧ s1.ref_cnt (PA2RCI L3 (pageB + 8)) = 1 :=
  ⟨_, _, rfl, by decide, by decide, by decide, rfl, by decide⟩

/-- C3 (amended): for an address that is misaligned or outside
`[end, PHYSTOP)`, with its index inside the counter table, `kfree` halts in
`panic("kfree")` when the count recorded for its page is at most 1, that is
when the decrement leaves no reference; when the count is 2 or more it only
decrements the count and returns. -/
theorem C3_kfree_bad_address (L : Layout) (hL : L.WF) (s : KState) (pa : Nat)
    (hi : PA2RCI L pa < PHY_PAGES L)
    (hbad : pa % PGSIZE ≠ 0 ∨ pa < L.kend ∨ pa ≥ L.PHYSTOP) :
    (s.ref_cnt (PA2RCI L pa) ≤ 1 → kfree L s pa = .panic "kfree") ∧
    (2 ≤ s.ref_cnt (PA2RCI L pa) → kfree L s pa =
      .ok { ref_cnt := Function.update s.ref_cnt (PA2RCI L pa) (s.ref_cnt (PA2RCI L pa) - 1),
            mem := s.mem, freelist := s.freelist }) := by
  constructor
  · intro h
    rw [kfree_eq hL s hi, if_neg (by omega), if_pos hbad]
  · intro h
    rw [kfree_eq hL s hi, if_pos (by omega)]

theorem C3_kfree_bad_address_witness :
    PA2RCI L3 (pageA + 8) < PHY_PAGES L3 ∧
    ((pageA + 8) % PGSIZE ≠ 0 ∨ pageA + 8 < L3.kend ∨ pageA + 8 ≥ L3.PHYSTOP) ∧
    seeded3.ref_cnt (PA2RCI L3 (pageA + 8)) ≤ 1 ∧
    kfree L3 seeded3 (pageA + 8) = .panic "kfree" :=
  ⟨by decide, by decide, by decide,
    (C3_kfree_bad_address L3 L3_WF seeded3 (pageA + 8) (by decide) (by decide)).1 (by decide)⟩

/-- C4: in a state whose free-list head `p` is a page of the managed range,
`kalloc` returns `p`; after `incref(p)` the first `kfree(p)` changes neither
the free list nor any byte of memory and leaves the count of `p` at 1; the
second `kfree(p)` brings the count to 0, makes `p` the head of the free list
in front of the previous list, and fills `p` with the byte 1 (where
`kalloc` had put the byte 5) in every byte after the link word. -/
theorem C4_shared_release (L : Layout) (hL : L.WF) (s : KState) (hp : isPage L s.freelist) :
    ∃ s1 s2 s3 s4, kalloc L s = .ok (s.freelist, s1) ∧
      (∀ a, s.freelist ≤ a → a < s.freelist + 4096 → s1.mem a = 5) ∧
      incref L s1 s.freelist = .ok s2 ∧
      kfree L s2 s.freelist = .ok s3 ∧
      s3.freelist = s2.freelist ∧ s3.mem = s2.mem ∧ s3.ref_cnt (PA2RCI L s.freelist) = 1 ∧
      kfree L s3 s.freelist = .ok s4 ∧
      s4.ref_cnt (PA2RCI L s.freelist) = 0 ∧
      s4.freelist = s.freelist ∧ read64 s4.mem s.freelist = s3.freelist ∧
      (∀ l, Chain s3.mem s3.freelist l → (∀ q ∈ l, q % PGSIZE = 0 ∧ q ≠ s.freelist) →
        Chain s4.mem s4.freelist (s.freelist :: l)) ∧
      (∀ a, s.freelist + 8 ≤ a → a < s.freelist + 4096 → s4.mem a = 1) := by
  obtain ⟨rc, p, m⟩ := s
  simp only at hp ⊢
  obtain ⟨hi, hne, _⟩ := isPage_index hL hp
  obtain ⟨ha, hb, hc⟩ := (isPage_iff hL p).1 hp
  have hv : ¬ (p % PGSIZE ≠ 0 ∨ p < L.kend ∨ p ≥ L.PHYSTOP) := by
    unfold PGSIZE at *
    omega
  have h1 := kalloc_eq hL ⟨rc, p, m⟩ hne hi
  have h2 := incref_eq hL ⟨Function.update rc (PA2RCI L p) 1, read64 m p, memset m p 5 PGSIZE⟩ hi
  simp only [Function.update_same, Function.update_idem] at h2
  have h3 := kfree_eq hL ⟨Function.update rc (PA2RCI L p) (1 + 1), read64 m p,
    memset m p 5 PGSIZE⟩ hi
  simp only [Function.update_same, Function.update_idem] at h3
  rw [if_pos (by norm_num)] at h3
  have h4 := kfree_eq hL ⟨Function.update rc (PA2RCI L p) (1 + 1 - 1), read64 m p,
    memset m p 5 PGSIZE⟩ hi
  simp only [Function.update_same, Function.update_idem] at h4
  rw [if_neg (by norm_num), if_neg hv] at h4
  refine ⟨_, _, _, _, h1, ?_, h2, h3, rfl, rfl, ?_, h4, ?_, rfl, ?_, ?_, ?_⟩
  · intro a a1 a2
    exact memset_in m p 5 PGSIZE a ⟨a1, a2⟩
  · simp
  · simp
  · exact read64_write64 _ _ _ (read64_lt m p)
  · intro l hcl hl
    show Chain _ p (p :: l)
    unfold Chain
    refine ⟨rfl, hne, ?_⟩
    rw [read64_write64 _ _ _ (read64_lt m p)]
    refine Chain_congr l _ ?_ hcl
    intro q hq k hk
    obtain ⟨hqa, hqne⟩ := hl q hq
    have hd := link_disjoint ha hqa hqne k hk
    show write64 (memset (memset m p 5 PGSIZE) p 1 PGSIZE) p (read64 m p) (q + k)
      = memset m p 5 PGSIZE (q + k)
    rw [write64_other _ _ _ _ (by unfold PGSIZE at hd; omega)]
    exact memset_other _ p 1 PGSIZE (q + k) hd
  · intro a a1 a2
    show write64 (memset (memset m p 5 PGSIZE) p 1 PGSIZE) p (read64 m p) a = 1
    rw [write64_other _ _ _ _ (Or.inr a1)]
    exact memset_in _ p 1 PGSIZE a ⟨by omega, a2⟩

theorem C4_shared_release_witness :
    isPage L3 seeded3.freelist ∧
    ∃ s1 s2 s3 s4, kalloc L3 seeded3 = .ok (pageB, s1) ∧ incref L3 s1 pageB = .ok s2 ∧
      kfree L3 s2 pageB = .ok s3 ∧ s3.freelist = s2.freelist ∧ s3.mem = s2.mem ∧
      s3.ref_cnt (PA2RCI L3 pageB) = 1 ∧
      kfree L3 s3 pageB = .ok s4 ∧ s4.ref_cnt (PA2RCI L3 pageB) = 0 ∧ s4.freelist = pageB :=
  ⟨by decide,
    match C4_shared_release L3 L3_WF seeded3 (by decide) with
    | ⟨s1, s2, s3, s4, h1, _, h2, h3, h4, h5, h6, h7, h8, h9, _⟩ =>
      ⟨s1, s2, s3, s4, h1, h2, h3, h4, h5, h6, h7, h8, h9⟩⟩

/-! ## Preservation of the invariant -/

theorem kfree_ok_index {L : Layout} {s s1 : KState} {pa : Nat} (h : kfree L s pa = .ok s1) :
    PA2RCI L pa < PHY_PAGES L := by
  unfold kfree at h
  by_contra hn
  cases hd : decref L s pa with
  | ok s2 => rw [hd] at h; simp only [hn, if_false] at h; cases h
  | panic m => rw [hd] at h; cases h
  | oob => rw [hd] at h; cases h

/-- An address that passes the check of `kfree` and has its index in the table
is a page of the managed range. -/
theorem isPage_of_valid {L : Layout} (hL : L.WF) {pa : Nat}
    (hv : ¬ (pa % PGSIZE ≠ 0 ∨ pa < L.kend ∨ pa ≥ L.PHYSTOP)) (hi : PA2RCI L pa < PHY_PAGES L) :
    isPage L pa := by
  have ha := hL.base_aligned
  have h1 := hL.base_le_end
  have h3 := hL.stop_lt
  rw [isPage_iff hL]
  have hlt : pa < U64 := by unfold U64 PGSIZE at *; omega
  rw [PA2RCI_eq hL (by omega) hlt, PHY_PAGES_eq hL] at hi
  unfold PGSIZE at *
  omega

theorem Chain_head_lt {m : Nat → Nat} {h : Nat} {l : List Nat} (hc : Chain m h l)
    (hl : ∀ q ∈ l, q < U64) : h < U64 := by
  cases l with
  | nil => unfold Chain at hc; rw [hc]; unfold U64; norm_num
  | cons p t => unfold Chain at hc; rw [hc.1]; exact hl p (List.mem_cons_self p t)

/-- The push of `kfree`: fill page `p`, store the old head in its link word. -/
theorem Chain_push {m : Nat → Nat} {h p : Nat} {l : List Nat} (hc : Chain m h l)
    (hp : p % PGSIZE = 0) (hp0 : p ≠ 0) (hl : ∀ q ∈ l, q % PGSIZE = 0 ∧ q ≠ p ∧ q < U64) :
    Chain (write64 (memset m p 1 PGSIZE) p h) p (p :: l) := by
  have hh : h < U64 := Chain_head_lt hc (fun q hq => (hl q hq).2.2)
  unfold Chain
  refine ⟨rfl, hp0, ?_⟩
  rw [read64_write64 _ _ _ hh]
  refine Chain_congr l _ ?_ hc
  intro q hq k hk
  obtain ⟨hqa, hqne, _⟩ := hl q hq
  have hd := link_disjoint hp hqa hqne k hk
  rw [write64_other _ _ _ _ (by unfold PGSIZE at hd; omega)]
  exact memset_other _ p 1 PGSIZE (q + k) hd

theorem Inv_kalloc {L : Layout} (hL : L.WF) {s s1 : KState} {p : Nat} (hI : Inv L s)
    (h : kalloc L s = .ok (p, s1)) :
    Inv L s1 ∧ p = s.freelist ∧
      (p ≠ 0 → isPage L p ∧ s.ref_cnt (PA2RCI L p) = 0 ∧ s1.ref_cnt (PA2RCI L p) = 1) := by
  obtain ⟨l, hc, hnd, hiff, hnn⟩ := hI
  cases l with
  | nil =>
    unfold Chain at hc
    rw [kalloc_empty L s hc] at h
    cases h
    exact ⟨⟨[], by unfold Chain; exact hc, hnd, hiff, hnn⟩, hc.symm, fun h0 => absurd rfl h0⟩
  | cons q t =>
    obtain ⟨rc, fl, m⟩ := s
    unfold Chain at hc
    obtain ⟨e, ne, c⟩ := hc
    simp only at e c hiff hnn
    subst e
    obtain ⟨hqp, hq0⟩ := (hiff fl).1 (List.mem_cons_self fl t)
    obtain ⟨hqi, _, _⟩ := isPage_index hL hqp
    rw [kalloc_eq hL _ ne hqi] at h
    cases h
    have hnt : fl ∉ t := (List.nodup_cons.1 hnd).1
    refine ⟨⟨t, ?_, (List.nodup_cons.1 hnd).2, ?_, ?_⟩, rfl, fun _ => ⟨hqp, hq0, by simp⟩⟩
    · refine Chain_congr t _ ?_ c
      intro r hr k hk
      have hrp := ((hiff r).1 (List.mem_cons_of_mem fl hr)).1
      have hne : r ≠ fl := fun h => hnt (h ▸ hr)
      exact memset_other _ _ _ _ _ (link_disjoint hqp.1 hrp.1 hne k hk)
    · intro r
      show r ∈ t ↔ isPage L r ∧ Function.update rc (PA2RCI L fl) 1 (PA2RCI L r) = 0
      by_cases hr : r = fl
      · subst hr
        simp [hnt]
      · have hidx : isPage L r → PA2RCI L r ≠ PA2RCI L fl :=
          fun hrp he => hr (PA2RCI_inj hL hrp hqp he)
        constructor
        · intro hrt
          obtain ⟨a, b⟩ := (hiff r).1 (List.mem_cons_of_mem fl hrt)
          exact ⟨a, by rw [Function.update_noteq (hidx a)]; exact b⟩
        · rintro ⟨a, b⟩
          rw [Function.update_noteq (hidx a)] at b
          rcases List.mem_cons.1 ((hiff r).2 ⟨a, b⟩) with h1 | h1
          · exact absurd h1 hr
          · exact h1
    · intro i hi
      show 0 ≤ Function.update rc (PA2RCI L fl) 1 i
      by_cases hii : i = PA2RCI L fl
      · rw [hii, Function.update_same]; norm_num
      · rw [Function.update_noteq hii]; exact hnn i hi

/-- Lowering or raising a count that stays positive keeps the invariant. -/
theorem Inv_count {L : Layout} {s : KState} (hI : Inv L s) (i : Nat) (v : Int)
    (h1 : 1 ≤ s.ref_cnt i) (hv : 1 ≤ v) :
    Inv L { ref_cnt := Function.update s.ref_cnt i v, freelist := s.freelist, mem := s.mem } := by
  obtain ⟨l, hc, hnd, hiff, hnn⟩ := hI
  refine ⟨l, hc, hnd, ?_, ?_⟩
  · intro r
    show r ∈ l ↔ isPage L r ∧ Function.update s.ref_cnt i v (PA2RCI L r) = 0
    rw [hiff r]
    by_cases hr : PA2RCI L r = i
    · rw [hr, Function.update_same]
      constructor
      · rintro ⟨_, b⟩; omega
      · rintro ⟨_, b⟩; omega
    · rw [Function.update_noteq hr]
  · intro j hj
    show 0 ≤ Function.update s.ref_cnt i v j
    by_cases hji : j = i
    · rw [hji, Function.update_same]; omega
    · rw [Function.update_noteq hji]; exact hnn j hj

theorem Inv_kfree {L : Layout} (hL : L.WF) {s s1 : KState} {pa : Nat} (hI : Inv L s)
    (h1 : 1 ≤ s.ref_cnt (PA2RCI L pa)) (h : kfree L s pa = .ok s1) : Inv L s1 := by
  have hi := kfree_ok_index h
  rw [kfree_eq hL s hi] at h
  by_cases hc1 : 1 < s.ref_cnt (PA2RCI L pa)
  · rw [if_pos hc1] at h
    cases h
    exact Inv_count hI _ _ h1 (by omega)
  · rw [if_neg hc1] at h
    by_cases hv : pa % PGSIZE ≠ 0 ∨ pa < L.kend ∨ pa ≥ L.PHYSTOP
    · rw [if_pos hv] at h; cases h
    · rw [if_neg hv] at h
      cases h
      have hpp := isPage_of_valid hL hv hi
      obtain ⟨_, hp0, _⟩ := isPage_index hL hpp
      obtain ⟨l, hc, hnd, hiff, hnn⟩ := hI
      have hnl : pa ∉ l := fun hm => by
        have := ((hiff pa).1 hm).2
        omega
      refine ⟨pa :: l, ?_, List.nodup_cons.2 ⟨hnl, hnd⟩, ?_, ?_⟩
      · refine Chain_push hc hpp.1 hp0 ?_
        intro q hq
        have hqp := ((hiff q).1 hq).1
        exact ⟨hqp.1, fun e => hnl (e ▸ hq), (isPage_index hL hqp).2.2⟩
      · intro r
        show r ∈ pa :: l ↔ isPage L r ∧
          Function.update s.ref_cnt (PA2RCI L pa) (s.ref_cnt (PA2RCI L pa) - 1) (PA2RCI L r) = 0
        by_cases hr : r = pa
        · subst hr
          rw [Function.update_same]
          constructor
          · intro _; exact ⟨hpp, by omega⟩
          · intro _; exact List.mem_cons_self _ _
        · have hidx : isPage L r → PA2RCI L r ≠ PA2RCI L pa :=
            fun hrp he => hr (PA2RCI_inj hL hrp hpp he)
          constructor
          · intro hrt
            rcases List.mem_cons.1 hrt with h2 | h2
            · exact absurd h2 hr
            · obtain ⟨a, b⟩ := (hiff r).1 h2
              exact ⟨a, by rw [Function.update_noteq (hidx a)]; exact b⟩
          · rintro ⟨a, b⟩
            rw [Function.update_noteq (hidx a)] at b
            exact List.mem_cons_of_mem _ ((hiff r).2 ⟨a, b⟩)
      · intro j hj
        show 0 ≤ Function.update s.ref_cnt (PA2RCI L pa) (s.ref_cnt (PA2RCI L pa) - 1) j
        by_cases hji : j = PA2RCI L pa
        · rw [hji, Function.update_same]; omega
        · rw [Function.update_noteq hji]; exact hnn j hj

theorem Inv_incref {L : Layout} (hL : L.WF) {s s1 : KState} {pa : Nat} (hI : Inv L s)
    (hi : PA2RCI L pa < PHY_PAGES L) (h1 : 1 ≤ s.ref_cnt (PA2RCI L pa))
    (h : incref L s pa = .ok s1) : Inv L s1 := by
  rw [incref_eq hL s hi] at h
  cases h
  exact Inv_count hI _ _ h1 (by omega)

/-! ## Start-up (C7) -/

theorem mem_pagesFrom : ∀ (n p q : Nat), q ∈ pagesFrom p n ↔ ∃ k, k < n ∧ q = p + k * PGSIZE
  | 0, p, q => by simp [pagesFrom]
  | n + 1, p, q => by
    simp only [pagesFrom, List.mem_cons, mem_pagesFrom n (p + PGSIZE) q]
    constructor
    · rintro (h | ⟨k, hk, h⟩)
      · exact ⟨0, by omega, by omega⟩
      · exact ⟨k + 1, by omega, by rw [h]; ring⟩
    · rintro ⟨k, hk, h⟩
      cases k with
      | zero => left; omega
      | succ k => right; exact ⟨k, by omega, by rw [h]; ring⟩

theorem nodup_pagesFrom : ∀ (n p : Nat), (pagesFrom p n).Nodup
  | 0, p => by simp [pagesFrom]
  | n + 1, p => by
    simp only [pagesFrom, List.nodup_cons]
    refine ⟨?_, nodup_pagesFrom n _⟩
    rw [mem_pagesFrom]
    rintro ⟨k, _, h⟩
    unfold PGSIZE at h
    omega

/-- The loop of `freerange` is the run of `kfree` over the pages it visits. -/
theorem freerangeLoop_eq_run (L : Layout) (pa_end : Nat) :
    ∀ (fuel p : Nat) (s : KState), (pa_end - p) / PGSIZE < fuel →
      freerangeLoop L pa_end fuel p s =
        some (run L s ((pagesFrom p ((pa_end - p) / PGSIZE)).map Op.kfree))
  | 0, p, s, h => absurd h (Nat.not_lt_zero _)
  | fuel + 1, p, s, h => by
    unfold freerangeLoop
    by_cases hg : p + PGSIZE ≤ pa_end
    · rw [if_pos hg]
      have hn : (pa_end - p) / PGSIZE = (pa_end - (p + PGSIZE)) / PGSIZE + 1 := by
        unfold PGSIZE at *
        omega
      rw [hn]
      simp only [pagesFrom, List.map_cons, run, step]
      cases hk : kfree L s p with
      | ok s1 => exact freerangeLoop_eq_run L pa_end fuel (p + PGSIZE) s1 (by omega)
      | panic m => rfl
      | oob => rfl
    · rw [if_neg hg]
      have hn : (pa_end - p) / PGSIZE = 0 := by
        unfold PGSIZE at *
        omega
      rw [hn]
      rfl

/-- Seeding: `kfree` over `n` consecutive pages whose counts are 0 returns,
pushes them in turn and leaves each of their counts at -1. -/
theorem seed_run {L : Layout} (hL : L.WF) :
    ∀ (n p : Nat) (s : KState) (l : List Nat), p % PGSIZE = 0 → PGROUNDUP L.kend ≤ p →
      (0 < n → p + n * PGSIZE ≤ L.PHYSTOP) → Chain s.mem s.freelist l →
      (∀ q ∈ l, isPage L q ∧ q < p) →
      (∀ k, k < n → s.ref_cnt (PA2RCI L (p + k * PGSIZE)) = 0) →
      ∃ s1, run L s ((pagesFrom p n).map Op.kfree) = .ok s1 ∧
        Chain s1.mem s1.freelist ((pagesFrom p n).reverse ++ l) ∧
        (∀ k, k < n → s1.ref_cnt (PA2RCI L (p + k * PGSIZE)) = -1) ∧
        (∀ i, (∀ k, k < n → i ≠ PA2RCI L (p + k * PGSIZE)) → s1.ref_cnt i = s.ref_cnt i)
  | 0, p, s, l, _, _, _, hc, _, _ => by
    refine ⟨s, rfl, ?_, ?_, ?_⟩
    · simpa [pagesFrom] using hc
    · intro k hk; omega
    · intro i _; rfl
  | n + 1, p, s, l, hpa, hpe, hpn0, hc, hl, hz => by
    have hpn := hpn0 (by omega)
    have hpp : isPage L p := ⟨hpa, hpe, by unfold PGSIZE at *; omega⟩
    obtain ⟨hi, hp0, _⟩ := isPage_index hL hpp
    obtain ⟨_, hb, _⟩ := (isPage_iff hL p).1 hpp
    have hv : ¬ (p % PGSIZE ≠ 0 ∨ p < L.kend ∨ p ≥ L.PHYSTOP) := by
      unfold PGSIZE at *
      omega
    have h0 : s.ref_cnt (PA2RCI L p) = 0 := by simpa using hz 0 (by omega)
    have hk := kfree_eq hL s hi
    rw [if_neg (by omega), if_neg hv, h0] at hk
    have hpage : ∀ k, k < n → isPage L (p + PGSIZE + k * PGSIZE) := by
      intro k hk
      refine ⟨?_, ?_, ?_⟩ <;> unfold PGSIZE at * <;> omega
    have hidx : ∀ k, k < n → PA2RCI L (p + PGSIZE + k * PGSIZE) ≠ PA2RCI L p := by
      intro k hk he
      have := PA2RCI_inj hL (hpage k hk) hpp he
      unfold PGSIZE at this
      omega
    obtain ⟨s1, hr, hc1, hm1, hf1⟩ := seed_run hL n (p + PGSIZE)
      { ref_cnt := Function.update s.ref_cnt (PA2RCI L p) (0 - 1),
        mem := write64 (memset s.mem p 1 PGSIZE) p s.freelist, freelist := p } (p :: l)
      (by unfold PGSIZE at *; omega) (by omega) (fun _ => by unfold PGSIZE at *; omega)
      (Chain_push hc hpa hp0 (fun q hq =>
        ⟨(hl q hq).1.1, by have := (hl q hq).2; omega, (isPage_index hL (hl q hq).1).2.2⟩))
      (by
        intro q hq
        rcases List.mem_cons.1 hq with h | h
        · rw [h]; exact ⟨hpp, by unfold PGSIZE; omega⟩
        · exact ⟨(hl q h).1, by have := (hl q h).2; omega⟩)
      (by
        intro k hk
        show Function.update s.ref_cnt (PA2RCI L p) (0 - 1) _ = 0
        rw [Function.update_noteq (hidx k hk)]
        have := hz (k + 1) (by omega)
        rwa [show p + (k + 1) * PGSIZE = p + PGSIZE + k * PGSIZE by ring] at this)
    refine ⟨s1, ?_, ?_, ?_, ?_⟩
    · simp only [pagesFrom, List.map_cons, run, step, hk]
      exact hr
    · simpa [pagesFrom] using hc1
    · intro k hk
      cases k with
      | zero =>
        rw [Nat.zero_mul, Nat.add_zero, hf1 _ (fun k hk => (hidx k hk).symm)]
        show Function.update s.ref_cnt (PA2RCI L p) (0 - 1) (PA2RCI L p) = -1
        rw [Function.update_same]
        norm_num
      | succ k =>
        rw [show p + (k + 1) * PGSIZE = p + PGSIZE + k * PGSIZE by ring]
        exact hm1 k (by omega)
    · intro i hne
      have h1 : i ≠ PA2RCI L p := by simpa using hne 0 (by omega)
      rw [hf1 i (fun k hk => by
        have := hne (k + 1) (by omega)
        rwa [show p + (k + 1) * PGSIZE = p + PGSIZE + k * PGSIZE by ring] at this)]
      show Function.update s.ref_cnt (PA2RCI L p) (0 - 1) i = s.ref_cnt i
      rw [Function.update_noteq h1]

theorem mem_seedPages {L : Layout} (hL : L.WF) (q : Nat) : q ∈ seedPages L ↔ isPage L q := by
  obtain ⟨ha, hb, hc⟩ := PGROUNDUP_spec hL
  unfold seedPages
  rw [mem_pagesFrom]
  unfold isPage
  generalize PGROUNDUP L.kend = p0 at *
  unfold PGSIZE at *
  constructor
  · rintro ⟨k, hk, h⟩
    have : (k + 1) * 4096 ≤ L.PHYSTOP - p0 := by
      have := Nat.div_mul_le_self (L.PHYSTOP - p0) 4096
      have h2 : (k + 1) * 4096 ≤ (L.PHYSTOP - p0) / 4096 * 4096 := Nat.mul_le_mul_right _ hk
      omega
    omega
  · rintro ⟨h1, h2, h3⟩
    refine ⟨(q - p0) / 4096, ?_, ?_⟩
    · omega
    · omega

/-- What `kinit` does at boot. -/
theorem kinit_spec {L : Layout} (hL : L.WF) (mem : Nat → Nat) :
    ∃ s0 s, freerange L (bootState mem) L.kend L.PHYSTOP =
        some (run L (bootState mem) ((seedPages L).map Op.kfree)) ∧
      run L (bootState mem) ((seedPages L).map Op.kfree) = .ok s0 ∧
      (∀ p, isPage L p → s0.ref_cnt (PA2RCI L p) = -1) ∧
      kinit L (bootState mem) = some (.ok s) ∧
      Chain s.mem s.freelist (seedPages L).reverse ∧
      (∀ i, i < PHY_PAGES L → s.ref_cnt i = 0) := by
  obtain ⟨ha, hb, hc⟩ := PGROUNDUP_spec hL
  have hfr : freerange L (bootState mem) L.kend L.PHYSTOP =
      some (run L (bootState mem) ((seedPages L).map Op.kfree)) := by
    unfold freerange seedPages
    refine freerangeLoop_eq_run L L.PHYSTOP _ _ _ ?_
    exact Nat.lt_succ_of_le (Nat.div_le_div_right (Nat.sub_le _ _))
  obtain ⟨s0, hr, hc0, hm0, _⟩ := seed_run hL ((L.PHYSTOP - PGROUNDUP L.kend) / PGSIZE)
    (PGROUNDUP L.kend) (bootState mem) [] ha le_rfl
    (fun hn => by
      have := Nat.div_mul_le_self (L.PHYSTOP - PGROUNDUP L.kend) PGSIZE
      have h2 : PGROUNDUP L.kend ≤ L.PHYSTOP := by
        by_contra hlt
        rw [Nat.sub_eq_zero_of_le (by omega), Nat.zero_div] at hn
        omega
      omega)
    (by unfold Chain; rfl) (by intro q hq; cases hq) (fun _ _ => rfl)
  have hr2 : run L (bootState mem) ((seedPages L).map Op.kfree) = .ok s0 := hr
  refine ⟨s0, { ref_cnt := fun i => if i < PHY_PAGES L then 0 else s0.ref_cnt i,
                freelist := s0.freelist, mem := s0.mem }, hfr, hr2, ?_, ?_, ?_, ?_⟩
  · intro p hp
    obtain ⟨k, hk, e⟩ := (mem_pagesFrom _ _ _).1 ((mem_seedPages hL p).2 hp)
    rw [e]
    exact hm0 k hk
  · unfold kinit
    rw [hfr, hr2]
  · simpa using hc0
  · intro i hi
    show (if i < PHY_PAGES L then (0 : Int) else s0.ref_cnt i) = 0
    rw [if_pos hi]

theorem Inv_kinit {L : Layout} (hL : L.WF) {mem : Nat → Nat} {s : KState}
    (h : kinit L (bootState mem) = some (.ok s)) : Inv L s := by
  obtain ⟨s0, s2, _, _, _, hk, hc, hz⟩ := kinit_spec hL mem
  rw [hk] at h
  cases h
  refine ⟨(seedPages L).reverse, hc, List.nodup_reverse.2 (nodup_pagesFrom _ _), ?_, ?_⟩
  · intro p
    rw [List.mem_reverse, mem_seedPages hL]
    constructor
    · intro hp; exact ⟨hp, hz _ (isPage_index hL hp).1⟩
    · intro hp; exact hp.1
  · intro i hi
    rw [hz i hi]

/-- C7: at boot (zeroed counters, empty free list) `kinit` returns; its
`freerange` is the run of `kfree` over the page-aligned addresses `p` with
`PGROUNDUP(end) <= p` and `p + PGSIZE <= PHYSTOP`, after which each of their
counts is -1; when `kinit` is done the free list is a chain holding exactly
these addresses, each once, and every count of the table is 0. -/
theorem C7_kinit (L : Layout) (hL : L.WF) (mem : Nat → Nat) :
    ∃ s0 s, freerange L (bootState mem) L.kend L.PHYSTOP =
        some (run L (bootState mem) ((seedPages L).map Op.kfree)) ∧
      run L (bootState mem) ((seedPages L).map Op.kfree) = .ok s0 ∧
      (∀ p, isPage L p → s0.ref_cnt (PA2RCI L p) = -1) ∧
      kinit L (bootState mem) = some (.ok s) ∧
      Chain s.mem s.freelist (seedPages L).reverse ∧ (seedPages L).reverse.Nodup ∧
      (∀ p, p ∈ (seedPages L).reverse ↔
        p % PGSIZE = 0 ∧ PGROUNDUP L.kend ≤ p ∧ p + PGSIZE ≤ L.PHYSTOP) ∧
      (∀ p, onFreeList s p ↔ isPage L p) ∧
      (∀ i, i < PHY_PAGES L → s.ref_cnt i = 0) := by
  obtain ⟨s0, s, h1, h2, h3, h4, h5, h6⟩ := kinit_spec hL mem
  have hm : ∀ p, p ∈ (seedPages L).reverse ↔ isPage L p := fun p => by
    rw [List.mem_reverse, mem_seedPages hL]
  refine ⟨s0, s, h1, h2, h3, h4, h5, List.nodup_reverse.2 (nodup_pagesFrom _ _), hm, ?_, h6⟩
  intro p
  rw [onFreeList_iff h5, hm]

theorem C7_kinit_witness :
    L3.WF ∧ ∃ s, kinit L3 (bootState zeroMem) = some (.ok s) ∧
      Chain s.mem s.freelist [pageB, pageA] ∧ (∀ i, i < PHY_PAGES L3 → s.ref_cnt i = 0) :=
  ⟨L3_WF,
    match C7_kinit L3 L3_WF zeroMem with
    | ⟨_, s, _, _, _, h4, h5, _, _, _, h9⟩ => ⟨s, h4, h5, h9⟩⟩

/-! ## Invariants over runs (C1, C6) -/

theorem Inv_ReachAF {L : Layout} (hL : L.WF) {s : KState} (h : ReachAF L s) : Inv L s := by
  induction h with
  | boot mem s hk => exact Inv_kinit hL hk
  | kalloc s p s1 _ hk ih => exact (Inv_kalloc hL ih hk).1
  | kfree s pa s1 _ h1 hk ih => exact Inv_kfree hL ih h1 hk

theorem Inv_ReachShare {L : Layout} (hL : L.WF) {s : KState} {hist : List Nat}
    (h : ReachShare L s hist) : Inv L s ∧ ∀ p ∈ hist, isPage L p := by
  induction h with
  | boot mem s hk => exact ⟨Inv_kinit hL hk, fun p hp => by cases hp⟩
  | kalloc s hist p s1 _ hk ih =>
    obtain ⟨h1, _, h3⟩ := Inv_kalloc hL ih.1 hk
    refine ⟨h1, ?_⟩
    by_cases hp : p = 0
    · rw [if_pos hp]; exact ih.2
    · rw [if_neg hp]
      intro q hq
      rcases List.mem_cons.1 hq with e | e
      · rw [e]; exact (h3 hp).1
      · exact ih.2 q e
  | incref s hist pa s1 _ hm h1 hk ih =>
    exact ⟨Inv_incref hL ih.1 (isPage_index hL (ih.2 pa hm)).1 h1 hk, ih.2⟩
  | kfree s hist pa s1 _ hm h1 hk ih => exact ⟨Inv_kfree hL ih.1 h1 hk, ih.2⟩

/-- What the invariant says about one page. -/
theorem Inv_page {L : Layout} {s : KState} (hL : L.WF) (hI : Inv L s) (p : Nat)
    (hp : isPage L p) :
    0 ≤ s.ref_cnt (PA2RCI L p) ∧ (onFreeList s p ↔ s.ref_cnt (PA2RCI L p) = 0) := by
  obtain ⟨l, hc, _, hiff, hnn⟩ := hI
  refine ⟨hnn _ (isPage_index hL hp).1, ?_⟩
  rw [onFreeList_iff hc, hiff]
  exact ⟨fun h => h.2, fun h => ⟨hp, h⟩⟩

/-- In a state satisfying the invariant, the head of the free list is null or
has its index inside the counter table, and the free list is a finite chain of
distinct page-aligned addresses. -/
theorem Inv_free_list {L : Layout} {s : KState} (hL : L.WF) (hI : Inv L s) :
    (s.freelist = 0 ∨ PA2RCI L s.freelist < PHY_PAGES L) ∧
    ∃ l, Chain s.mem s.freelist l ∧ l.Nodup ∧ ∀ q ∈ l, q % PGSIZE = 0 := by
  obtain ⟨l, hc, hnd, hiff, _⟩ := hI
  refine ⟨?_, l, hc, hnd, fun q hq => ((hiff q).1 hq).1.1⟩
  cases l with
  | nil =>
    unfold Chain at hc
    exact Or.inl hc
  | cons p t =>
    unfold Chain at hc
    rw [hc.1]
    exact Or.inr (isPage_index hL ((hiff p).1 (List.mem_cons_self p t)).1).1

/-- C1, as stated, fails: after boot on `L3` the calls `kalloc` (which
returns `pageB`), `kfree(pageB)`, `kfree(pageB)` all return, and the count of
the managed page `pageB` is then -1. -/
theorem C1_counterexample :
    ∃ s, bootRun L3 zeroMem [.kalloc, .kfree pageB, .kfree pageB] = some (.ok s) ∧
      isPage L3 pageB ∧ s.ref_cnt (PA2RCI L3 pageB) = -1 ∧
      ¬ (0 ≤ s.ref_cnt (PA2RCI L3 pageB)) :=
  ⟨_, rfl, by decide, by decide, by decide⟩

/-- C1 (amended): in every state reached from boot by `kalloc` and `kfree`
calls that return, where each `kfree` is given an address whose page count is
at least 1, every count of the table is at least 0, and a page of the managed
range is on the free list if and only if its count is 0. -/
theorem C1_counts_and_free_list (L : Layout) (hL : L.WF) (s : KState) (h : ReachAF L s) :
    (∀ i, i < PHY_PAGES L → 0 ≤ s.ref_cnt i) ∧
    ∀ p, isPage L p →
      0 ≤ s.ref_cnt (PA2RCI L p) ∧ (onFreeList s p ↔ s.ref_cnt (PA2RCI L p) = 0) := by
  have hI := Inv_ReachAF hL h
  refine ⟨?_, fun p hp => Inv_page hL hI p hp⟩
  obtain ⟨_, _, _, _, hnn⟩ := hI
  exact hnn

theorem C1_counts_and_free_list_witness :
    L3.WF ∧ ReachAF L3 (after3 [.kalloc, .kfree pageB]) ∧
    (after3 [.kalloc, .kfree pageB]).ref_cnt (PA2RCI L3 pageB) = 0 ∧
    onFreeList (after3 [.kalloc, .kfree pageB]) pageB :=
  have hr : ReachAF L3 (after3 [.kalloc, .kfree pageB]) :=
    ReachAF.kfree (after3 [.kalloc]) pageB _
      (ReachAF.kalloc (after3 []) pageB _ (ReachAF.boot zeroMem _ rfl) rfl) (by decide) rfl
  ⟨L3_WF, hr, by decide,
    ((C1_counts_and_free_list L3 L3_WF _ hr).2 pageB (by decide)).2.2 (by decide)⟩

/-- C6: in every state reached from boot by `kalloc`, `incref` and `kfree`
calls that return, where `incref` and `kfree` are given only an address
`kalloc` returned before and only while its count is at least 1, the free
list is a chain without repetition, every page on it has count 0, and a
page that `kalloc` returns had count 0 before the call: it has no owner. -/
theorem C6_no_live_page_allocated (L : Layout) (hL : L.WF) (s : KState) (hist : List Nat)
    (h : ReachShare L s hist) :
    (∃ l, Chain s.mem s.freelist l ∧ l.Nodup ∧ ∀ p, onFreeList s p ↔ p ∈ l) ∧
    (∀ p, onFreeList s p → s.ref_cnt (PA2RCI L p) = 0 ∧ ¬ 0 < s.ref_cnt (PA2RCI L p)) ∧
    (∀ p s1, kalloc L s = .ok (p, s1) → p ≠ 0 →
      s.ref_cnt (PA2RCI L p) = 0 ∧ ¬ 0 < s.ref_cnt (PA2RCI L p) ∧
      s1.ref_cnt (PA2RCI L p) = 1) := by
  obtain ⟨hI, _⟩ := Inv_ReachShare hL h
  refine ⟨?_, ?_, ?_⟩
  · obtain ⟨l, hc, hnd, _, _⟩ := hI
    exact ⟨l, hc, hnd, fun p => onFreeList_iff hc p⟩
  · intro p hp
    obtain ⟨l, hc, _, hiff, _⟩ := hI
    have h0 := ((hiff p).1 ((onFreeList_iff hc p).1 hp)).2
    exact ⟨h0, by omega⟩
  · intro p s1 hk hp
    obtain ⟨_, _, h3⟩ := Inv_kalloc hL hI hk
    obtain ⟨_, h0, h1⟩ := h3 hp
    exact ⟨h0, by omega, h1⟩

theorem C6_no_live_page_allocated_witness :
    L3.WF ∧ ReachShare L3 (after3 [.kalloc, .incref pageB, .kfree pageB]) [pageB] ∧
    (after3 [.kalloc, .incref pageB, .kfree pageB]).ref_cnt (PA2RCI L3 pageB) = 1 ∧
    ∀ p, onFreeList (after3 [.kalloc, .incref pageB, .kfree pageB]) p →
      (after3 [.kalloc, .incref pageB, .kfree pageB]).ref_cnt (PA2RCI L3 p) = 0 ∧
      ¬ 0 < (after3 [.kalloc, .incref pageB, .kfree pageB]).ref_cnt (PA2RCI L3 p) :=
  have hr : ReachShare L3 (after3 [.kalloc, .incref pageB, .kfree pageB]) [pageB] :=
    ReachShare.kfree (after3 [.kalloc, .incref pageB]) [pageB] pageB _
      (ReachShare.incref (after3 [.kalloc]) [pageB] pageB _
        (ReachShare.kalloc (after3 []) [] pageB _ (ReachShare.boot zeroMem _ rfl) rfl)
        (by decide) (by decide) rfl)
      (by decide) (by decide) rfl
  ⟨L3_WF, hr, by decide, (C6_no_live_page_allocated L3 L3_WF _ _ hr).2.1⟩

end Kalloc

namespace Bio

/-! ## Slots and scans -/

theorem length_updSlot (f : Buf → Buf) : ∀ (l : List Buf) (i : Nat),
    (updSlot f l i).length = l.length
  | [], _ => rfl
  | _ :: _, 0 => rfl
  | b :: bs, i + 1 => by simp [updSlot, length_updSlot f bs i]

theorem getElem?_updSlot (f : Buf → Buf) : ∀ (l : List Buf) (i j : Nat),
    (updSlot f l i)[j]? = if j = i then (l[j]?).map f else l[j]?
  | [], i, j => by simp [updSlot]
  | b :: bs, 0, 0 => by simp [updSlot]
  | b :: bs, 0, j + 1 => by simp [updSlot]
  | b :: bs, i + 1, 0 => by simp [updSlot]
  | b :: bs, i + 1, j + 1 => by simp [updSlot, getElem?_updSlot f bs i j]

theorem updSlot_updSlot (f g : Buf → Buf) : ∀ (l : List Buf) (i : Nat),
    updSlot f (updSlot g l i) i = updSlot (fun x => f (g x)) l i
  | [], _ => rfl
  | _ :: _, 0 => rfl
  | b :: bs, i + 1 => by simp [updSlot, updSlot_updSlot f g bs i]

/-- The scan for a block returns the first slot that carries the identity. -/
theorem lookup_some {d n : Nat} : ∀ (l : List Buf) (k i : Nat), lookup d n l k = some i →
    ∃ j x, i = k + j ∧ l[j]? = some x ∧ x.dev = d ∧ x.blockno = n ∧
      ∀ j2 y, j2 < j → l[j2]? = some y → ¬ (y.dev = d ∧ y.blockno = n)
  | [], k, i, h => by cases h
  | b :: bs, k, i, h => by
    unfold lookup at h
    by_cases hb : b.dev = d ∧ b.blockno = n
    · rw [if_pos hb] at h
      cases h
      exact ⟨0, b, rfl, by simp, hb.1, hb.2, fun j2 y hj => absurd hj (Nat.not_lt_zero _)⟩
    · rw [if_neg hb] at h
      obtain ⟨j, x, e, hx, h1, h2, h3⟩ := lookup_some bs (k + 1) i h
      refine ⟨j + 1, x, by omega, by simpa using hx, h1, h2, ?_⟩
      intro j2 y hj hy
      cases j2 with
      | zero =>
        simp only [List.getElem?_cons_zero, Option.some.injEq] at hy
        rw [← hy]; exact hb
      | succ j2 => exact h3 j2 y (by omega) (by simpa using hy)

theorem lookup_none {d n : Nat} : ∀ (l : List Buf) (k : Nat), lookup d n l k = none →
    ∀ (j : Nat) (y : Buf), l[j]? = some y → ¬ (y.dev = d ∧ y.blockno = n)
  | [], k, _, j, y, hy => by simp at hy
  | b :: bs, k, h, j, y, hy => by
    unfold lookup at h
    by_cases hb : b.dev = d ∧ b.blockno = n
    · rw [if_pos hb] at h; cases h
    · rw [if_neg hb] at h
      cases j with
      | zero =>
        simp only [List.getElem?_cons_zero, Option.some.injEq] at hy
        rw [← hy]; exact hb
      | succ j => exact lookup_none bs (k + 1) h j y (by simpa using hy)

/-- A slot that carries the identity, with none before it, is what the scan
returns. -/
theorem lookup_first {d n : Nat} : ∀ (l : List Buf) (k j : Nat) (x : Buf), l[j]? = some x →
    x.dev = d → x.blockno = n →
    (∀ j2 y, j2 < j → l[j2]? = some y → ¬ (y.dev = d ∧ y.blockno = n)) →
    lookup d n l k = some (k + j)
  | [], k, j, x, hx, _, _, _ => by simp at hx
  | b :: bs, k, 0, x, hx, h1, h2, _ => by
    simp only [List.getElem?_cons_zero, Option.some.injEq] at hx
    subst hx
    unfold lookup
    rw [if_pos ⟨h1, h2⟩]
    rfl
  | b :: bs, k, j + 1, x, hx, h1, h2, h3 => by
    unfold lookup
    rw [if_neg (h3 0 b (by omega) (by simp))]
    rw [lookup_first bs (k + 1) j x (by simpa using hx) h1 h2
      (fun j2 y hj hy => h3 (j2 + 1) y (by omega) (by simpa using hy))]
    congr 1
    omega

theorem findFree_some : ∀ (l : List Buf) (k i : Nat), findFree l k = some i →
    ∃ j x, i = k + j ∧ l[j]? = some x ∧ x.refcnt = 0 ∧
      ∀ j2 y, j2 < j → l[j2]? = some y → y.refcnt ≠ 0
  | [], k, i, h => by cases h
  | b :: bs, k, i, h => by
    unfold findFree at h
    by_cases hb : b.refcnt = 0
    · rw [if_pos hb] at h
      cases h
      exact ⟨0, b, rfl, by simp, hb, fun j2 y hj => absurd hj (Nat.not_lt_zero _)⟩
    · rw [if_neg hb] at h
      obtain ⟨j, x, e, hx, h1, h3⟩ := findFree_some bs (k + 1) i h
      refine ⟨j + 1, x, by omega, by simpa using hx, h1, ?_⟩
      intro j2 y hj hy
      cases j2 with
      | zero =>
        simp only [List.getElem?_cons_zero, Option.some.injEq] at hy
        rw [← hy]; exact hb
      | succ j2 => exact h3 j2 y (by omega) (by simpa using hy)

theorem findFree_none : ∀ (l : List Buf) (k : Nat), findFree l k = none →
    ∀ (j : Nat) (y : Buf), l[j]? = some y → y.refcnt ≠ 0
  | [], k, _, j, y, hy => by simp at hy
  | b :: bs, k, h, j, y, hy => by
    unfold findFree at h
    by_cases hb : b.refcnt = 0
    · rw [if_pos hb] at h; cases h
    · rw [if_neg hb] at h
      cases j with
      | zero =>
        simp only [List.getElem?_cons_zero, Option.some.injEq] at hy
        rw [← hy]; exact hb
      | succ j => exact findFree_none bs (k + 1) h j y (by simpa using hy)

/-- An update that keeps `dev` and `blockno` does not change what the scan
for a block finds. -/
theorem lookup_updSlot_same {d n : Nat} (f : Buf → Buf)
    (hf : ∀ x, (f x).dev = x.dev ∧ (f x).blockno = x.blockno) :
    ∀ (l : List Buf) (i k : Nat), lookup d n (updSlot f l i) k = lookup d n l k
  | [], _, _ => rfl
  | b :: bs, 0, k => by
    simp only [updSlot, lookup, (hf b).1, (hf b).2]
  | b :: bs, i + 1, k => by
    simp only [updSlot, lookup, lookup_updSlot_same f hf bs i (k + 1)]

/-! ## The calls, one by one -/

theorem bgetClaim_ok {c c1 : Cache} {d n i : Nat} (h : bgetClaim c d n = .ok (i, c1)) :
    (lookup d n c.buf 0 = some i ∧
      c1 = { c with buf := updSlot (fun b => { b with refcnt := b.refcnt + 1 }) c.buf i }) ∨
    (lookup d n c.buf 0 = none ∧ findFree c.buf 0 = some i ∧
      c1 = { c with
        buf := updSlot (fun b => { b with dev := d, blockno := n, valid := 0, refcnt := 1 })
          c.buf i }) := by
  unfold bgetClaim at h
  cases hl : lookup d n c.buf 0 with
  | some j =>
    rw [hl] at h
    simp only [Res.ok.injEq, Prod.mk.injEq] at h
    obtain ⟨e1, e2⟩ := h
    subst e1
    exact Or.inl ⟨rfl, e2.symm⟩
  | none =>
    rw [hl] at h
    simp only at h
    cases hf : findFree c.buf 0 with
    | some j =>
      rw [hf] at h
      simp only [Res.ok.injEq, Prod.mk.injEq] at h
      obtain ⟨e1, e2⟩ := h
      subst e1
      exact Or.inr ⟨rfl, rfl, e2.symm⟩
    | none =>
      rw [hf] at h
      cases h

theorem acquiresleep_ok {pid : Nat} {c : Cache} {i : Nat} {r : Nat × Cache}
    (h : acquiresleep pid c i = .ok r) :
    ∃ x, c.buf[i]? = some x ∧ x.lock = none ∧
      r = (i, { c with buf := updSlot (fun b => { b with lock := some pid }) c.buf i }) := by
  unfold acquiresleep at h
  cases hx : c.buf[i]? with
  | none => rw [hx] at h; cases h
  | some x =>
    rw [hx] at h
    simp only at h
    cases hk : x.lock with
    | none =>
      rw [hk] at h
      simp only [Res.ok.injEq] at h
      exact ⟨x, rfl, hk, h.symm⟩
    | some q => rw [hk] at h; cases h

theorem bget_ok {pid : Nat} {c c2 : Cache} {d n i : Nat} (h : bget pid c d n = .ok (i, c2)) :
    ∃ c1 x, bgetClaim c d n = .ok (i, c1) ∧ c1.buf[i]? = some x ∧ x.lock = none ∧
      c2 = { c1 with buf := updSlot (fun b => { b with lock := some pid }) c1.buf i } := by
  unfold bget at h
  cases hc : bgetClaim c d n with
  | ok r =>
    obtain ⟨j, c1⟩ := r
    rw [hc] at h
    simp only at h
    obtain ⟨x, hx, hk, e⟩ := acquiresleep_ok h
    simp only [Prod.mk.injEq] at e
    obtain ⟨e1, e2⟩ := e
    subst e1
    exact ⟨c1, x, rfl, hx, hk, e2⟩
  | panic m => rw [hc] at h; cases h
  | sleeps => rw [hc] at h; cases h
  | badptr => rw [hc] at h; cases h

theorem bread_ok {pid : Nat} {c c3 : Cache} {d n i : Nat} (h : bread pid c d n = .ok (i, c3)) :
    ∃ c2 y, bget pid c d n = .ok (i, c2) ∧ c2.buf[i]? = some y ∧
      ((y.valid ≠ 0 ∧ c3 = c2) ∨
       (y.valid = 0 ∧ c3 =
          { buf := updSlot (fun x => { x with valid := 1 })
              (updSlot (fun x => { x with data := c2.disk y.dev y.blockno }) c2.buf i) i,
            disk := c2.disk,
            log := c2.log ++ [.read i y.dev y.blockno (c2.disk y.dev y.blockno)] })) := by
  unfold bread at h
  cases hg : bget pid c d n with
  | ok r =>
    obtain ⟨j, c2⟩ := r
    rw [hg] at h
    simp only at h
    cases hy : c2.buf[j]? with
    | none => rw [hy] at h; cases h
    | some y =>
      rw [hy] at h
      simp only at h
      by_cases hv : y.valid = 0
      · rw [if_pos hv] at h
        simp only [Res.ok.injEq, Prod.mk.injEq] at h
        obtain ⟨e1, e2⟩ := h
        subst e1
        refine ⟨c2, y, rfl, hy, Or.inr ⟨hv, ?_⟩⟩
        rw [← e2]
        unfold virtio_disk_rw
        rw [hy]
        rfl
      · rw [if_neg hv] at h
        simp only [Res.ok.injEq, Prod.mk.injEq] at h
        obtain ⟨e1, e2⟩ := h
        subst e1
        exact ⟨c2, y, rfl, hy, Or.inl ⟨hv, e2.symm⟩⟩
  | panic m => rw [hg] at h; cases h
  | sleeps => rw [hg] at h; cases h
  | badptr => rw [hg] at h; cases h

/-- After an update of slot `i` that gives it the identity `(d, n)`, with no
slot before it carrying that identity, the scan for `(d, n)` finds slot `i`. -/
theorem lookup_updSlot_first {d n : Nat} (F : Buf → Buf) (l : List Buf) (i : Nat) (x : Buf)
    (hx : l[i]? = some x) (h1 : (F x).dev = d) (h2 : (F x).blockno = n)
    (hprev : ∀ j2 y, j2 < i → l[j2]? = some y → ¬ (y.dev = d ∧ y.blockno = n)) :
    lookup d n (updSlot F l i) 0 = some i := by
  have := lookup_first (updSlot F l i) 0 i (F x)
    (by rw [getElem?_updSlot, if_pos rfl, hx]; rfl) h1 h2
    (fun j2 y hj hy => by
      rw [getElem?_updSlot, if_neg (by omega)] at hy
      exact hprev j2 y hj hy)
  simpa using this

/-- What a `bread` that returns has done: slot `i` was unlocked, it now
carries the identity `(d, n)`, is valid and locked by the caller; no other
slot changed; either the block was cached in slot `i` (one more claim, a
device read only if the slot was not valid), or no slot carried the identity
and slot `i`, the first one without claim, was evicted and read from disk. -/
theorem bread_spec {pid : Nat} {c c3 : Cache} {d n i : Nat}
    (h : bread pid c d n = .ok (i, c3)) :
    ∃ c2 y x z, bget pid c d n = .ok (i, c2) ∧ c2.buf[i]? = some y ∧
      c.buf[i]? = some x ∧ x.lock = none ∧ c3.buf[i]? = some z ∧
      (∀ j, j ≠ i → c3.buf[j]? = c.buf[j]?) ∧ c3.buf.length = c.buf.length ∧
      c3.disk = c.disk ∧ lookup d n c3.buf 0 = some i ∧
      z.dev = d ∧ z.blockno = n ∧ z.lock = some pid ∧ z.valid ≠ 0 ∧
      ((lookup d n c.buf 0 = some i ∧ x.dev = d ∧ x.blockno = n ∧ z.refcnt = x.refcnt + 1 ∧
          ((y.valid ≠ 0 ∧ x.valid ≠ 0 ∧ z.valid = x.valid ∧ z.data = x.data ∧ c3.log = c.log) ∨
           (y.valid = 0 ∧ x.valid = 0 ∧ z.data = c.disk d n ∧
              c3.log = c.log ++ [.read i d n (c.disk d n)]))) ∨
       (lookup d n c.buf 0 = none ∧ findFree c.buf 0 = some i ∧ x.refcnt = 0 ∧
          y.valid = 0 ∧ z.refcnt = 1 ∧ z.data = c.disk d n ∧
          c3.log = c.log ++ [.read i d n (c.disk d n)])) := by
  obtain ⟨c2, y, hg, hy, hv⟩ := bread_ok h
  obtain ⟨c1, x1, hc, hx1, hk, e2⟩ := bget_ok hg
  subst e2
  simp only at hy hv
  rcases bgetClaim_ok hc with ⟨hl, e1⟩ | ⟨hl, hf, e1⟩
  · subst e1
    simp only at hx1 hy hv
    obtain ⟨j, x, ej, hx, hd, hn, hprev⟩ := lookup_some c.buf 0 i hl
    have ej2 : j = i := by omega
    subst ej2
    subst hd
    subst hn
    rw [getElem?_updSlot, if_pos rfl, hx] at hx1
    simp only [Option.map_some', Option.some.injEq] at hx1
    subst hx1
    have hy0 := hy
    rw [getElem?_updSlot, if_pos rfl, getElem?_updSlot, if_pos rfl, hx] at hy
    simp only [Option.map_some', Option.some.injEq] at hy
    subst hy
    simp only at hk hv
    rcases hv with ⟨hv, e3⟩ | ⟨hv, e3⟩
    · subst e3
      refine ⟨_, _, x, ⟨x.valid, x.dev, x.blockno, some pid, x.refcnt + 1, x.data⟩, hg, hy0,
        hx, hk, ?_, ?_, ?_, rfl, ?_,
        rfl, rfl, rfl, hv, Or.inl ⟨hl, rfl, rfl, rfl, Or.inl ⟨hv, hv, rfl, rfl, rfl⟩⟩⟩
      · simp only [updSlot_updSlot, getElem?_updSlot, if_true, hx, Option.map_some']
      · intro j2 hj; simp only [getElem?_updSlot, if_neg hj]
      · simp only [length_updSlot]
      · simp only [updSlot_updSlot]
        exact lookup_updSlot_first _ c.buf j x hx rfl rfl hprev
    · subst e3
      refine ⟨_, _, x,
        ⟨1, x.dev, x.blockno, some pid, x.refcnt + 1, c.disk x.dev x.blockno⟩, hg, hy0,
        hx, hk, ?_, ?_, ?_, rfl, ?_,
        rfl, rfl, rfl, by simp, Or.inl ⟨hl, rfl, rfl, rfl, Or.inr ⟨hv, hv, rfl, rfl⟩⟩⟩
      · simp only [updSlot_updSlot, getElem?_updSlot, if_true, hx, Option.map_some']
      · intro j2 hj; simp only [getElem?_updSlot, if_neg hj]
      · simp only [length_updSlot]
      · simp only [updSlot_updSlot]
        exact lookup_updSlot_first _ c.buf j x hx rfl rfl hprev
  · subst e1
    simp only at hx1 hy hv
    obtain ⟨j, x, ej, hx, hr, _⟩ := findFree_some c.buf 0 i hf
    have ej2 : j = i := by omega
    subst ej2
    rw [getElem?_updSlot, if_pos rfl, hx] at hx1
    simp only [Option.map_some', Option.some.injEq] at hx1
    subst hx1
    have hy0 := hy
    rw [getElem?_updSlot, if_pos rfl, getElem?_updSlot, if_pos rfl, hx] at hy
    simp only [Option.map_some', Option.some.injEq] at hy
    subst hy
    simp only at hk hv
    rcases hv with ⟨hv, e3⟩ | ⟨hv, e3⟩
    · exact absurd rfl hv
    · subst e3
      refine ⟨_, _, x, ⟨1, d, n, some pid, 1, c.disk d n⟩, hg, hy0,
        hx, hk, ?_, ?_, ?_, rfl, ?_,
        rfl, rfl, rfl, by simp, Or.inr ⟨hl, hf, hr, rfl, rfl, rfl, rfl⟩⟩
      · simp only [updSlot_updSlot, getElem?_updSlot, if_true, hx, Option.map_some']
      · intro j2 hj; simp only [getElem?_updSlot, if_neg hj]
      · simp only [length_updSlot]
      · simp only [updSlot_updSlot]
        exact lookup_updSlot_first _ c.buf j x hx rfl rfl
          (fun j2 y _ hy2 => lookup_none c.buf 0 hl j2 y hy2)


theorem brelse_ok {pid : Nat} {c c1 : Cache} {i : Nat} (h : brelse pid c i = .ok c1) :
    ∃ x, c.buf[i]? = some x ∧ x.lock = some pid ∧
      c1 = { c with
        buf := updSlot (fun x => { releasesleep x with refcnt := x.refcnt - 1 }) c.buf i } := by
  unfold brelse at h
  cases hx : c.buf[i]? with
  | none => rw [hx] at h; cases h
  | some x =>
    rw [hx] at h
    simp only at h
    by_cases hh : holdingsleep pid x = true
    · simp only [hh, Bool.not_true, Bool.false_eq_true, if_false, Res.ok.injEq] at h
      refine ⟨x, rfl, ?_, h.symm⟩
      unfold holdingsleep at hh
      simpa using hh
    · simp only [hh, Bool.not_false, if_true] at h
      cases h

theorem brelse_eq {pid : Nat} {c : Cache} {i : Nat} {x : Buf} (hx : c.buf[i]? = some x)
    (hk : x.lock = some pid) :
    brelse pid c i = .ok { c with
      buf := updSlot (fun x => { releasesleep x with refcnt := x.refcnt - 1 }) c.buf i } := by
  unfold brelse
  rw [hx]
  simp [holdingsleep, hk]

theorem bwrite_ok {pid : Nat} {c c1 : Cache} {i : Nat} (h : bwrite pid c i = .ok c1) :
    ∃ x, c.buf[i]? = some x ∧ x.lock = some pid ∧
      c1 = { c with
        disk := fun d n => if d = x.dev ∧ n = x.blockno then x.data else c.disk d n,
        log := c.log ++ [.write i x.dev x.blockno x.data] } := by
  unfold bwrite at h
  cases hx : c.buf[i]? with
  | none => rw [hx] at h; cases h
  | some x =>
    rw [hx] at h
    simp only at h
    by_cases hh : holdingsleep pid x = true
    · simp only [hh, Bool.not_true, Bool.false_eq_true, if_false, Res.ok.injEq] at h
      refine ⟨x, rfl, ?_, ?_⟩
      · unfold holdingsleep at hh
        simpa using hh
      · rw [← h]
        unfold virtio_disk_rw
        rw [hx]
        rfl
    · simp only [hh, Bool.not_false, if_true] at h
      cases h

theorem bpin_ok {c c1 : Cache} {i : Nat} (h : bpin c i = .ok c1) :
    ∃ x, c.buf[i]? = some x ∧
      c1 = { c with buf := updSlot (fun x => { x with refcnt := x.refcnt + 1 }) c.buf i } := by
  unfold bpin at h
  cases hx : c.buf[i]? with
  | none => rw [hx] at h; cases h
  | some x =>
    rw [hx] at h
    simp only [Res.ok.injEq] at h
    exact ⟨x, rfl, h.symm⟩

theorem bunpin_ok {c c1 : Cache} {i : Nat} (h : bunpin c i = .ok c1) :
    ∃ x, c.buf[i]? = some x ∧
      c1 = { c with buf := updSlot (fun x => { x with refcnt := x.refcnt - 1 }) c.buf i } := by
  unfold bunpin at h
  cases hx : c.buf[i]? with
  | none => rw [hx] at h; cases h
  | some x =>
    rw [hx] at h
    simp only [Res.ok.injEq] at h
    exact ⟨x, rfl, h.symm⟩

/-- A block that is cached, valid and unlocked is returned by `bread` without
any device operation. -/
theorem bread_hit (pid : Nat) (c : Cache) {d n i : Nat} {x : Buf}
    (hl : lookup d n c.buf 0 = some i) (hx : c.buf[i]? = some x) (hk : x.lock = none)
    (hv : x.valid ≠ 0) :
    bread pid c d n = .ok (i, { c with
      buf := updSlot (fun b => { b with lock := some pid })
        (updSlot (fun b => { b with refcnt := b.refcnt + 1 }) c.buf i) i }) := by
  unfold bread bget bgetClaim
  rw [hl]
  simp only
  unfold acquiresleep
  simp only [getElem?_updSlot, if_true, hx, Option.map_some', hk]
  rw [if_neg hv]

/-! ## The log of transfers -/

theorem bstep_bread_ok {pid d n : Nat} {c c1 : Cache} (h : bstep c (.bread pid d n) = .ok c1) :
    ∃ i, bread pid c d n = .ok (i, c1) := by
  simp only [bstep] at h
  cases hb : bread pid c d n with
  | ok r =>
    obtain ⟨i, c2⟩ := r
    rw [hb] at h
    simp only [Res.ok.injEq] at h
    exact ⟨i, by rw [h]⟩
  | panic m => rw [hb] at h; cases h
  | sleeps => rw [hb] at h; cases h
  | badptr => rw [hb] at h; cases h

/-- A slot read through `updSlot`. -/
theorem getElem?_updSlot_some {f : Buf → Buf} {l : List Buf} {i j : Nat} {w : Buf}
    (h : (updSlot f l i)[j]? = some w) :
    (j ≠ i ∧ l[j]? = some w) ∨ (j = i ∧ ∃ x, l[j]? = some x ∧ w = f x) := by
  rw [getElem?_updSlot] at h
  by_cases hj : j = i
  · rw [if_pos hj] at h
    cases hx : l[j]? with
    | none => rw [hx] at h; cases h
    | some x =>
      rw [hx] at h
      simp only [Option.map_some', Option.some.injEq] at h
      exact Or.inr ⟨hj, x, rfl, h.symm⟩
  · rw [if_neg hj] at h
    exact Or.inl ⟨hj, h⟩

/-- The states reached by the five calls alone are among those reached by
calls and stores of holders. -/
theorem BReachW_of_BReach {nbuf bsize : Nat} {disk : Nat → Nat → List Nat} {c : Cache}
    (h : BReach nbuf bsize disk c) : BReachW false nbuf bsize disk c := by
  induction h with
  | init => exact BReachW.init
  | step c op c1 _ hs ih => exact BReachW.call c op c1 ih (fun e => by cases e) hs

theorem BReachW_of_BReachHeld {nbuf bsize : Nat} {disk : Nat → Nat → List Nat} {c : Cache}
    (h : BReachHeld nbuf bsize disk c) : BReachW true nbuf bsize disk c := by
  induction h with
  | init => exact BReachW.init
  | step c op c1 _ hc hs ih => exact BReachW.call c op c1 ih (fun _ => hc) hs

theorem NonNeg_upd {c : Cache} (f : Buf → Buf) (i : Nat)
    (hf : ∀ x, c.buf[i]? = some x → 0 ≤ (f x).refcnt)
    (hN : NonNeg c) : NonNeg { c with buf := updSlot f c.buf i } := by
  intro j w hw
  rcases getElem?_updSlot_some hw with ⟨_, h1⟩ | ⟨hj, x, h1, e⟩
  · exact hN j w h1
  · subst e
    subst hj
    exact hf x h1

theorem NonNeg_bstep {c c1 : Cache} {op : BOp} (hN : NonNeg c) (hc : claimHeld c op)
    (h : bstep c op = .ok c1) : NonNeg c1 := by
  cases op with
  | bread pid d n =>
    obtain ⟨i, hb⟩ := bstep_bread_ok h
    obtain ⟨c2, y, x, z, _, _, hx, _, hz, hoth, _, _, _, _, _, _, _, hcase⟩ := bread_spec hb
    intro j w hw
    by_cases hj : j = i
    · subst hj
      rw [hz] at hw
      cases hw
      have := hN j x hx
      rcases hcase with ⟨_, _, _, e, _⟩ | ⟨_, _, _, _, e, _⟩
      · omega
      · omega
    · rw [hoth j hj] at hw
      exact hN j w hw
  | bwrite pid i =>
    obtain ⟨x, _, _, e⟩ := bwrite_ok h
    subst e
    exact hN
  | brelse pid i =>
    obtain ⟨x, hx, _, e⟩ := brelse_ok h
    subst e
    obtain ⟨b, hb, h1⟩ := hc
    refine NonNeg_upd _ i (fun x hx2 => ?_) hN
    rw [hb] at hx2
    cases hx2
    show 0 ≤ b.refcnt - 1
    omega
  | bpin i =>
    obtain ⟨x, hx, e⟩ := bpin_ok h
    subst e
    refine NonNeg_upd _ i (fun x hx2 => ?_) hN
    have := hN i x hx2
    show 0 ≤ x.refcnt + 1
    omega
  | bunpin i =>
    obtain ⟨x, hx, e⟩ := bunpin_ok h
    subst e
    obtain ⟨b, hb, h1⟩ := hc
    refine NonNeg_upd _ i (fun x hx2 => ?_) hN
    rw [hb] at hx2
    cases hx2
    show 0 ≤ b.refcnt - 1
    omega

theorem NonNeg_BReachHeld {nbuf bsize : Nat} {disk : Nat → Nat → List Nat} {c : Cache}
    (h : BReachHeld nbuf bsize disk c) : NonNeg c := by
  induction h with
  | init =>
    intro j w hw
    have hm : w ∈ List.replicate nbuf (zeroBuf bsize) := List.getElem?_mem hw
    rw [List.eq_of_mem_replicate hm]
    exact le_refl _
  | step c op c1 _ hc hs ih => exact NonNeg_bstep ih hc hs


/-- C9: when `bread(d, n)` returns slot `i`, `brelse` of that slot by the same
caller returns, and a second `bread(d, n)` returns the same slot `i`; the
second call issues no device operation (the log is unchanged, the slot is
still valid), and the slot's data is what it was when it was released. -/
theorem C9_reread_is_hit (pid : Nat) (c : Cache) (d n i : Nat) (c1 : Cache)
    (h : bread pid c d n = .ok (i, c1)) :
    ∃ c2 c3 z1 z2 z3, brelse pid c1 i = .ok c2 ∧ bread pid c2 d n = .ok (i, c3) ∧
      c1.buf[i]? = some z1 ∧ c2.buf[i]? = some z2 ∧ c3.buf[i]? = some z3 ∧
      c2.log = c1.log ∧ c3.log = c2.log ∧
      z2.valid ≠ 0 ∧ z2.dev = d ∧ z2.blockno = n ∧ z2.data = z1.data ∧
      z2.refcnt = z1.refcnt - 1 ∧
      z3.valid ≠ 0 ∧ z3.dev = d ∧ z3.blockno = n ∧ z3.data = z2.data ∧
      z3.refcnt = z1.refcnt := by
  obtain ⟨_, _, _, z, _, _, _, _, hz, _, _, _, hl, zd, zn, zl, zv, _⟩ := bread_spec h
  have hb := brelse_eq hz zl
  have h2 : (updSlot (fun x => { releasesleep x with refcnt := x.refcnt - 1 }) c1.buf i)[i]?
      = some { releasesleep z with refcnt := z.refcnt - 1 } := by
    rw [getElem?_updSlot, if_pos rfl, hz]
    rfl
  have hl2 : lookup d n
      (updSlot (fun x => { releasesleep x with refcnt := x.refcnt - 1 }) c1.buf i) 0
      = some i := by
    exact (lookup_updSlot_same (fun x => { releasesleep x with refcnt := x.refcnt - 1 })
      (fun x => ⟨rfl, rfl⟩) c1.buf i 0).trans hl
  have hb2 := bread_hit pid
    { c1 with buf := updSlot (fun x => { releasesleep x with refcnt := x.refcnt - 1 }) c1.buf i }
    hl2 h2 rfl zv
  refine ⟨_, _, z, _, ⟨z.valid, z.dev, z.blockno, some pid, z.refcnt - 1 + 1, z.data⟩,
    hb, hb2, hz, h2, ?_, rfl, rfl, zv, zd, zn, rfl, rfl, zv, zd, zn, rfl, ?_⟩
  · simp only [getElem?_updSlot, if_true, hz, Option.map_some']
    rfl
  · show z.refcnt - 1 + 1 = z.refcnt
    omega

theorem C9_reread_is_hit_witness :
    bread 7 (cacheAfter []) 1 100 = .ok (0, cacheAfter [.bread 7 1 100]) ∧
    ∃ c2 c3, brelse 7 (cacheAfter [.bread 7 1 100]) 0 = .ok c2 ∧
      bread 7 c2 1 100 = .ok (0, c3) ∧ c3.log = c2.log :=
  ⟨rfl,
    match C9_reread_is_hit 7 (cacheAfter []) 1 100 0 (cacheAfter [.bread 7 1 100]) rfl with
    | ⟨c2, c3, _, _, _, h1, h2, _, _, _, _, h3, _⟩ => ⟨c2, c3, h1, h2, h3⟩⟩

/-! ## What `bread` returns (C10) -/

theorem lookup_eq_none {d n : Nat} : ∀ (l : List Buf) (k : Nat),
    (∀ (j : Nat) (y : Buf), l[j]? = some y → ¬ (y.dev = d ∧ y.blockno = n)) →
    lookup d n l k = none
  | [], _, _ => rfl
  | b :: bs, k, h => by
    unfold lookup
    rw [if_neg (h 0 b (by simp))]
    exact lookup_eq_none bs (k + 1) (fun j y hy => h (j + 1) y (by simpa using hy))

theorem findFree_eq_none : ∀ (l : List Buf) (k : Nat),
    (∀ (j : Nat) (y : Buf), l[j]? = some y → y.refcnt ≠ 0) → findFree l k = none
  | [], _, _ => rfl
  | b :: bs, k, h => by
    unfold findFree
    rw [if_neg (h 0 b (by simp))]
    exact findFree_eq_none bs (k + 1) (fun j y hy => h (j + 1) y (by simpa using hy))

/-- A slot without claim, with none before it, is what the eviction scan
returns. -/
theorem findFree_first : ∀ (l : List Buf) (k j : Nat) (x : Buf), l[j]? = some x →
    x.refcnt = 0 → (∀ (j2 : Nat) (y : Buf), j2 < j → l[j2]? = some y → y.refcnt ≠ 0) →
    findFree l k = some (k + j)
  | [], k, j, x, hx, _, _ => by simp at hx
  | b :: bs, k, 0, x, hx, h1, _ => by
    simp only [List.getElem?_cons_zero, Option.some.injEq] at hx
    subst hx
    unfold findFree
    rw [if_pos h1]
    rfl
  | b :: bs, k, j + 1, x, hx, h1, h3 => by
    unfold findFree
    rw [if_neg (h3 0 b (by omega) (by simp))]
    rw [findFree_first bs (k + 1) j x (by simpa using hx) h1
      (fun j2 y hj hy => h3 (j2 + 1) y (by omega) (by simpa using hy))]
    congr 1
    omega

theorem bgetClaim_hit {c : Cache} {d n i : Nat} (h : lookup d n c.buf 0 = some i) :
    bgetClaim c d n =
      .ok (i, { c with buf := updSlot (fun b => { b with refcnt := b.refcnt + 1 }) c.buf i }) := by
  unfold bgetClaim
  rw [h]

theorem bgetClaim_evict {c : Cache} {d n i : Nat} (h : lookup d n c.buf 0 = none)
    (hf : findFree c.buf 0 = some i) :
    bgetClaim c d n = .ok (i, { c with
      buf := updSlot (fun b => { b with dev := d, blockno := n, valid := 0, refcnt := 1 })
        c.buf i }) := by
  unfold bgetClaim
  rw [h]
  simp only
  rw [hf]

theorem bgetClaim_panic {c : Cache} {d n : Nat} (h : lookup d n c.buf 0 = none)
    (hf : findFree c.buf 0 = none) : bgetClaim c d n = .panic "bget: no buffers" := by
  unfold bgetClaim
  rw [h]
  simp only
  rw [hf]

theorem acquiresleep_not_panic (pid : Nat) (c : Cache) (i : Nat) (m : String) :
    acquiresleep pid c i ≠ .panic m := by
  unfold acquiresleep
  cases c.buf[i]? with
  | none => simp
  | some b =>
    cases hb : b.lock with
    | none => simp [hb]
    | some q => simp [hb]

/-- `bget` halts in `panic` exactly when the part under the spin locks does. -/
theorem bget_panic_iff (pid : Nat) (c : Cache) (d n : Nat) (m : String) :
    bget pid c d n = .panic m ↔ bgetClaim c d n = .panic m := by
  unfold bget
  cases hc : bgetClaim c d n with
  | ok r =>
    obtain ⟨i, c1⟩ := r
    simp only
    constructor
    · intro h; exact absurd h (acquiresleep_not_panic pid c1 i m)
    · intro h; cases h
  | panic m2 => simp
  | sleeps => simp
  | badptr => simp

theorem bgetClaim_panic_iff (c : Cache) (d n : Nat) (m : String) :
    bgetClaim c d n = .panic m ↔
      m = "bget: no buffers" ∧ lookup d n c.buf 0 = none ∧ findFree c.buf 0 = none := by
  cases hl : lookup d n c.buf 0 with
  | some i => rw [bgetClaim_hit hl]; simp
  | none =>
    cases hf : findFree c.buf 0 with
    | some i => rw [bgetClaim_evict hl hf]; simp
    | none =>
      rw [bgetClaim_panic hl hf]
      simp only [Res.panic.injEq, and_self, and_true]
      exact eq_comm

/-- C11: `bget` halts with `panic("bget: no buffers")`, and with no other
message, exactly when no slot carries the requested identity and no slot has
reference count 0.  With two slots after `binit`, the requests `(1,100)` and
`(1,200)` return and the request `(1,300)` that follows them halts so. -/
theorem C11_no_buffers (pid : Nat) (c : Cache) (d n : Nat) :
    (bget pid c d n = .panic "bget: no buffers" ↔
      (∀ (j : Nat) (y : Buf), c.buf[j]? = some y → ¬ (y.dev = d ∧ y.blockno = n)) ∧
      (∀ (j : Nat) (y : Buf), c.buf[j]? = some y → y.refcnt ≠ 0)) ∧
    (∀ m, bget pid c d n = .panic m → m = "bget: no buffers") ∧
    (∃ c2, brun (binit 2 4 disk0) [.bread 1 1 100, .bread 1 1 200] = .ok c2) ∧
    brun (binit 2 4 disk0) [.bread 1 1 100, .bread 1 1 200, .bread 1 1 300]
      = .panic "bget: no buffers" := by
  refine ⟨?_, ?_, ⟨_, rfl⟩, rfl⟩
  · rw [bget_panic_iff, bgetClaim_panic_iff]
    constructor
    · rintro ⟨_, hl, hf⟩
      exact ⟨lookup_none c.buf 0 hl, findFree_none c.buf 0 hf⟩
    · rintro ⟨h1, h2⟩
      exact ⟨rfl, lookup_eq_none c.buf 0 h1, findFree_eq_none c.buf 0 h2⟩
  · intro m hm
    rw [bget_panic_iff, bgetClaim_panic_iff] at hm
    exact hm.1


/-- What the part of `bget` under the spin locks has done when it returns slot
`i`: no other slot changed, the scan for `(d, n)` now finds slot `i`, and
either slot `i` carried the identity and got one more claim, or no slot
carried it and slot `i`, the first one with count 0, was given the identity,
the valid flag 0 and the count 1. -/
theorem bgetClaim_spec {c c1 : Cache} {d n i : Nat} (h : bgetClaim c d n = .ok (i, c1)) :
    ∃ x z, c.buf[i]? = some x ∧ c1.buf[i]? = some z ∧
      (∀ j, j ≠ i → c1.buf[j]? = c.buf[j]?) ∧ c1.buf.length = c.buf.length ∧
      c1.disk = c.disk ∧ c1.log = c.log ∧ lookup d n c1.buf 0 = some i ∧
      ((lookup d n c.buf 0 = some i ∧ x.dev = d ∧ x.blockno = n ∧
          z = ⟨x.valid, x.dev, x.blockno, x.lock, x.refcnt + 1, x.data⟩) ∨
       (lookup d n c.buf 0 = none ∧ findFree c.buf 0 = some i ∧ x.refcnt = 0 ∧
          z = ⟨0, d, n, x.lock, 1, x.data⟩)) := by
  rcases bgetClaim_ok h with ⟨hl, e1⟩ | ⟨hl, hf, e1⟩
  · subst e1
    obtain ⟨j, x, ej, hx, hd, hn, hprev⟩ := lookup_some c.buf 0 i hl
    have ej2 : j = i := by omega
    subst ej2
    refine ⟨x, ⟨x.valid, x.dev, x.blockno, x.lock, x.refcnt + 1, x.data⟩, hx, ?_, ?_, ?_,
      rfl, rfl, ?_, Or.inl ⟨hl, hd, hn, rfl⟩⟩
    · simp only [getElem?_updSlot, if_true, hx, Option.map_some']
    · intro j2 hj; simp only [getElem?_updSlot, if_neg hj]
    · simp only [length_updSlot]
    · exact lookup_updSlot_first _ c.buf j x hx hd hn hprev
  · subst e1
    obtain ⟨j, x, ej, hx, hr, _⟩ := findFree_some c.buf 0 i hf
    have ej2 : j = i := by omega
    subst ej2
    refine ⟨x, ⟨0, d, n, x.lock, 1, x.data⟩, hx, ?_, ?_, ?_,
      rfl, rfl, ?_, Or.inr ⟨hl, hf, hr, rfl⟩⟩
    · simp only [getElem?_updSlot, if_true, hx, Option.map_some']
    · intro j2 hj; simp only [getElem?_updSlot, if_neg hj]
    · simp only [length_updSlot]
    · exact lookup_updSlot_first _ c.buf j x hx rfl rfl
        (fun j2 y _ hy2 => lookup_none c.buf 0 hl j2 y hy2)

/-- C12: when `bget` has chosen slot `i` for `(d, n)` (whether or not it then
has to wait for the slot's exclusive lock): a slot whose device, block number
or valid flag differs afterwards had reference count exactly 0 before and is
slot `i`; every slot whose count was above 0 keeps device, block number, valid
flag, data and lock; a slot returned while its count was above 0 already
carried the identity `(d, n)`.  The same holds of the state in which `bget`
returns. -/
theorem C12_only_unclaimed_repurposed (c : Cache) (d n i : Nat) (c1 : Cache)
    (h : bgetClaim c d n = .ok (i, c1)) :
    (∀ (j : Nat) (x y : Buf), c.buf[j]? = some x → c1.buf[j]? = some y →
      (y.dev ≠ x.dev ∨ y.blockno ≠ x.blockno ∨ y.valid ≠ x.valid) → x.refcnt = 0 ∧ j = i) ∧
    (∀ (j : Nat) (x : Buf), c.buf[j]? = some x → 0 < x.refcnt →
      ∃ y, c1.buf[j]? = some y ∧ y.dev = x.dev ∧ y.blockno = x.blockno ∧ y.valid = x.valid ∧
        y.data = x.data ∧ y.lock = x.lock) ∧
    (∀ (x : Buf), c.buf[i]? = some x → 0 < x.refcnt → x.dev = d ∧ x.blockno = n) ∧
    (∀ (pid k : Nat) (c2 : Cache), bget pid c d n = .ok (k, c2) → k = i ∧
      ∀ (j : Nat) (x : Buf), c.buf[j]? = some x → 0 < x.refcnt →
        ∃ y, c2.buf[j]? = some y ∧ y.dev = x.dev ∧ y.blockno = x.blockno ∧
          y.valid = x.valid ∧ y.data = x.data) := by
  obtain ⟨x0, z, hx0, hz, hoth, _, _, _, _, hcase⟩ := bgetClaim_spec h
  have keep : ∀ (j : Nat) (x : Buf), c.buf[j]? = some x → 0 < x.refcnt →
      ∃ y, c1.buf[j]? = some y ∧ y.dev = x.dev ∧ y.blockno = x.blockno ∧ y.valid = x.valid ∧
        y.data = x.data ∧ y.lock = x.lock := by
    intro j x hx hpos
    by_cases hj : j = i
    · subst hj
      rw [hx0] at hx
      cases hx
      rcases hcase with ⟨_, _, _, e⟩ | ⟨_, _, hr, _⟩
      · exact ⟨z, hz, by rw [e], by rw [e], by rw [e], by rw [e], by rw [e]⟩
      · omega
    · exact ⟨x, by rw [hoth j hj]; exact hx, rfl, rfl, rfl, rfl, rfl⟩
  refine ⟨?_, keep, ?_, ?_⟩
  · intro j x y hx hy hne
    by_cases hj : j = i
    · subst hj
      rw [hx0] at hx
      cases hx
      rw [hz] at hy
      cases hy
      rcases hcase with ⟨_, _, _, e⟩ | ⟨_, _, hr, _⟩
      · rw [e] at hne
        simp at hne
      · exact ⟨hr, rfl⟩
    · rw [hoth j hj, hx] at hy
      cases hy
      simp at hne
  · intro x hx hpos
    rw [hx0] at hx
    cases hx
    rcases hcase with ⟨_, hd, hn, _⟩ | ⟨_, _, hr, _⟩
    · exact ⟨hd, hn⟩
    · omega
  · intro pid k c2 hg
    obtain ⟨c1b, xb, hcb, _, _, e2⟩ := bget_ok hg
    rw [h] at hcb
    simp only [Res.ok.injEq, Prod.mk.injEq] at hcb
    obtain ⟨e3, e4⟩ := hcb
    subst e3
    subst e4
    refine ⟨rfl, ?_⟩
    intro j x hx hpos
    obtain ⟨y, hy, a1, a2, a3, a4, _⟩ := keep j x hx hpos
    subst e2
    by_cases hj : j = i
    · refine ⟨{ y with lock := some pid }, ?_, a1, a2, a3, a4⟩
      simp only [getElem?_updSlot, if_pos hj, hy, Option.map_some']
    · exact ⟨y, by simp only [getElem?_updSlot, if_neg hj]; exact hy, a1, a2, a3, a4⟩

theorem C12_only_unclaimed_repurposed_witness :
    bgetClaim (cacheAfter [.bread 7 1 100]) 1 200 =
      .ok (1, { cacheAfter [.bread 7 1 100] with
        buf := updSlot (fun b => { b with dev := 1, blockno := 200, valid := 0, refcnt := 1 })
          (cacheAfter [.bread 7 1 100]).buf 1 }) ∧
    ∀ (x : Buf), (cacheAfter [.bread 7 1 100]).buf[0]? = some x → 0 < x.refcnt →
      ∃ y, ({ cacheAfter [.bread 7 1 100] with
        buf := updSlot (fun b => { b with dev := 1, blockno := 200, valid := 0, refcnt := 1 })
          (cacheAfter [.bread 7 1 100]).buf 1 } : Cache).buf[0]? = some y ∧
        y.dev = x.dev ∧ y.blockno = x.blockno ∧ y.valid = x.valid ∧ y.data = x.data ∧
        y.lock = x.lock :=
  ⟨rfl, (C12_only_unclaimed_repurposed (cacheAfter [.bread 7 1 100]) 1 200 1 _ rfl).2.1 0⟩


/-- C13: when `bget` has chosen slot `i` for `(d, n)`, a second choice for the
same pair, made before anything is released, selects the same slot `i` and
raises its reference count by exactly one over the value the first choice
left; this also holds after the first claimant has taken the slot's exclusive
lock, in which case the second `bget` then waits for that lock. -/
theorem C13_same_pair_same_slot (c : Cache) (d n i : Nat) (c1 : Cache)
    (h : bgetClaim c d n = .ok (i, c1)) :
    (∃ c2 z1 z2, bgetClaim c1 d n = .ok (i, c2) ∧ c1.buf[i]? = some z1 ∧
      c2.buf[i]? = some z2 ∧ z2.refcnt = z1.refcnt + 1 ∧ z2.dev = d ∧ z2.blockno = n) ∧
    (∀ (pid pid2 : Nat) (c1b : Cache), bget pid c d n = .ok (i, c1b) →
      ∃ c2 z1 z2, bgetClaim c1b d n = .ok (i, c2) ∧ c1b.buf[i]? = some z1 ∧
        c2.buf[i]? = some z2 ∧ z2.refcnt = z1.refcnt + 1 ∧ z1.lock = some pid ∧
        bget pid2 c1b d n = .sleeps) := by
  obtain ⟨x, z, _, hz, _, _, _, _, hl, hcase⟩ := bgetClaim_spec h
  have zid : z.dev = d ∧ z.blockno = n := by
    rcases hcase with ⟨_, hd, hn, e⟩ | ⟨_, _, _, e⟩
    · rw [e]; exact ⟨hd, hn⟩
    · rw [e]; exact ⟨rfl, rfl⟩
  constructor
  · refine ⟨_, z, ⟨z.valid, z.dev, z.blockno, z.lock, z.refcnt + 1, z.data⟩,
      bgetClaim_hit hl, hz, ?_, rfl, zid.1, zid.2⟩
    simp only [getElem?_updSlot, if_true, hz, Option.map_some']
  · intro pid pid2 c1b hg
    obtain ⟨c1c, xb, hcb, hxb, hk, e2⟩ := bget_ok hg
    rw [h] at hcb
    simp only [Res.ok.injEq, Prod.mk.injEq, true_and] at hcb
    subst hcb
    subst e2
    rw [hz] at hxb
    cases hxb
    have hl2 : lookup d n (updSlot (fun b => { b with lock := some pid }) c1.buf i) 0
        = some i :=
      (lookup_updSlot_same (fun b => { b with lock := some pid }) (fun x => ⟨rfl, rfl⟩)
        c1.buf i 0).trans hl
    have hz2 : (updSlot (fun b => { b with lock := some pid }) c1.buf i)[i]?
        = some ⟨z.valid, z.dev, z.blockno, some pid, z.refcnt, z.data⟩ := by
      simp only [getElem?_updSlot, if_true, hz, Option.map_some']
    have hc2 := bgetClaim_hit
      (c := { c1 with buf := updSlot (fun b => { b with lock := some pid }) c1.buf i }) hl2
    refine ⟨_, _, ⟨z.valid, z.dev, z.blockno, some pid, z.refcnt + 1, z.data⟩,
      hc2, hz2, ?_, rfl, rfl, ?_⟩
    · simp only [getElem?_updSlot, if_true, hz, Option.map_some']
    · unfold bget
      rw [hc2]
      simp only
      unfold acquiresleep
      simp only [getElem?_updSlot, if_true, hz, Option.map_some']

theorem C13_same_pair_same_slot_witness :
    bgetClaim (cacheAfter []) 1 100 =
      .ok (0, { cacheAfter [] with
        buf := updSlot (fun b => { b with dev := 1, blockno := 100, valid := 0, refcnt := 1 })
          (cacheAfter []).buf 0 }) ∧
    ∃ c2 z1 z2, bgetClaim ({ cacheAfter [] with
        buf := updSlot (fun b => { b with dev := 1, blockno := 100, valid := 0, refcnt := 1 })
          (cacheAfter []).buf 0 } : Cache) 1 100 = .ok (0, c2) ∧
      ({ cacheAfter [] with
        buf := updSlot (fun b => { b with dev := 1, blockno := 100, valid := 0, refcnt := 1 })
          (cacheAfter []).buf 0 } : Cache).buf[0]? = some z1 ∧
      c2.buf[0]? = some z2 ∧ z2.refcnt = z1.refcnt + 1 :=
  ⟨rfl,
    match (C13_same_pair_same_slot (cacheAfter []) 1 100 0 _ rfl).1 with
    | ⟨c2, z1, z2, h1, h2, h3, h4, _⟩ => ⟨c2, z1, z2, h1, h2, h3, h4⟩⟩

/-! ## Calls that need the exclusive lock (C16) -/

/-- C16: for a slot `i` of the array, `bwrite` and `brelse` halt in `panic`
exactly when the caller does not hold the slot's exclusive lock.  When it
does, `bwrite` returns after one device write of the slot's data under the
slot's identity, with every slot unchanged; `brelse` returns with the lock
released and the slot's count lowered by exactly one, its device, block
number, valid flag and data, every other slot, the device and the log
unchanged. -/
theorem C16_lock_required (pid : Nat) (c : Cache) (i : Nat) (x : Buf)
    (hx : c.buf[i]? = some x) :
    ((∃ m, bwrite pid c i = .panic m) ↔ x.lock ≠ some pid) ∧
    ((∃ m, brelse pid c i = .panic m) ↔ x.lock ≠ some pid) ∧
    (x.lock ≠ some pid → bwrite pid c i = .panic "bwrite" ∧ brelse pid c i = .panic "brelse") ∧
    (x.lock = some pid →
      (∃ c1, bwrite pid c i = .ok c1 ∧ c1.buf = c.buf ∧
        c1.log = c.log ++ [.write i x.dev x.blockno x.data]) ∧
      (∃ c1, brelse pid c i = .ok c1 ∧
        c1.buf[i]? = some ⟨x.valid, x.dev, x.blockno, none, x.refcnt - 1, x.data⟩ ∧
        (∀ j, j ≠ i → c1.buf[j]? = c.buf[j]?) ∧ c1.disk = c.disk ∧ c1.log = c.log)) := by
  have hw : x.lock ≠ some pid → bwrite pid c i = .panic "bwrite" := by
    intro hne
    unfold bwrite
    rw [hx]
    simp [holdingsleep, hne]
  have hr : x.lock ≠ some pid → brelse pid c i = .panic "brelse" := by
    intro hne
    unfold brelse
    rw [hx]
    simp [holdingsleep, hne]
  have hw2 : x.lock = some pid → bwrite pid c i = .ok (virtio_disk_rw c i true) := by
    intro he
    unfold bwrite
    rw [hx]
    simp [holdingsleep, he]
  refine ⟨?_, ?_, fun hne => ⟨hw hne, hr hne⟩, ?_⟩
  · constructor
    · rintro ⟨m, hm⟩ he
      rw [hw2 he] at hm
      cases hm
    · intro hne
      exact ⟨_, hw hne⟩
  · constructor
    · rintro ⟨m, hm⟩ he
      rw [brelse_eq hx he] at hm
      cases hm
    · intro hne
      exact ⟨_, hr hne⟩
  · intro he
    constructor
    · refine ⟨_, hw2 he, ?_, ?_⟩
      · unfold virtio_disk_rw
        rw [hx]
        rfl
      · unfold virtio_disk_rw
        rw [hx]
        rfl
    · refine ⟨_, brelse_eq hx he, ?_, ?_, rfl, rfl⟩
      · simp only [getElem?_updSlot, if_true, hx, Option.map_some']
        rfl
      · intro j hj
        simp only [getElem?_updSlot, if_neg hj]

theorem C16_lock_required_witness :
    (cacheAfter [.bread 7 1 100]).buf[0]? = some ⟨1, 1, 100, some 7, 1, [1, 100]⟩ ∧
    brelse 8 (cacheAfter [.bread 7 1 100]) 0 = .panic "brelse" ∧
    ∃ c1, brelse 7 (cacheAfter [.bread 7 1 100]) 0 = .ok c1 ∧
      c1.buf[0]? = some ⟨1, 1, 100, none, 1 - 1, [1, 100]⟩ :=
  ⟨by decide,
    ((C16_lock_required 8 (cacheAfter [.bread 7 1 100]) 0
      ⟨1, 1, 100, some 7, 1, [1, 100]⟩ (by decide)).2.2.1 (by decide)).2,
    match ((C16_lock_required 7 (cacheAfter [.bread 7 1 100]) 0
      ⟨1, 1, 100, some 7, 1, [1, 100]⟩ (by decide)).2.2.2 rfl).2 with
    | ⟨c1, h1, h2, _⟩ => ⟨c1, h1, h2⟩⟩


theorem lookup_congr {d n : Nat} : ∀ (l l2 : List Buf) (k : Nat),
    l.map slotKey = l2.map slotKey → lookup d n l k = lookup d n l2 k
  | [], [], _, _ => rfl
  | [], _ :: _, _, h => by simp at h
  | _ :: _, [], _, h => by simp at h
  | b :: bs, b2 :: bs2, k, h => by
    simp only [List.map_cons, List.cons.injEq, slotKey, Prod.mk.injEq] at h
    obtain ⟨⟨h1, h2, _⟩, h4⟩ := h
    unfold lookup
    rw [h1, h2, lookup_congr bs bs2 (k + 1) h4]

theorem findFree_congr : ∀ (l l2 : List Buf) (k : Nat),
    l.map slotKey = l2.map slotKey → findFree l k = findFree l2 k
  | [], [], _, _ => rfl
  | [], _ :: _, _, h => by simp at h
  | _ :: _, [], _, h => by simp at h
  | b :: bs, b2 :: bs2, k, h => by
    simp only [List.map_cons, List.cons.injEq, slotKey, Prod.mk.injEq] at h
    obtain ⟨⟨_, _, h3⟩, h4⟩ := h
    unfold findFree
    rw [h3, findFree_congr bs bs2 (k + 1) h4]

theorem chosen_eq (c : Cache) (d n : Nat) :
    chosen c d n =
      match lookup d n c.buf 0 with
      | some i => some i
      | none => findFree c.buf 0 := by
  unfold chosen
  cases hl : lookup d n c.buf 0 with
  | some i => rw [bgetClaim_hit hl]
  | none =>
    cases hf : findFree c.buf 0 with
    | some i => rw [bgetClaim_evict hl hf]
    | none => rw [bgetClaim_panic hl hf]

/-- C17: if some slot carries the identity `(d, n)`, `bget` chooses the
lowest-indexed such slot, whatever its count, valid flag or lock, and only
adds one to its count; otherwise, if some slot has count 0, it chooses the
lowest-indexed slot with count 0 and gives it device `d`, block number `n`,
valid flag 0 and count 1; no other slot changes.  `bget` returns the chosen
slot once it has taken the slot's exclusive lock.  The choice is determined by
the devices, block numbers and counts of the slots in index order: two states
that agree on these make the same choice. -/
theorem C17_choice_by_index (c : Cache) (d n : Nat) :
    (∀ (j : Nat) (x : Buf), c.buf[j]? = some x → x.dev = d → x.blockno = n →
      (∀ (j2 : Nat) (y : Buf), j2 < j → c.buf[j2]? = some y → ¬ (y.dev = d ∧ y.blockno = n)) →
      ∃ c1, bgetClaim c d n = .ok (j, c1) ∧
        c1.buf[j]? = some ⟨x.valid, x.dev, x.blockno, x.lock, x.refcnt + 1, x.data⟩ ∧
        (∀ k, k ≠ j → c1.buf[k]? = c.buf[k]?) ∧ c1.disk = c.disk ∧ c1.log = c.log) ∧
    (∀ (j : Nat) (x : Buf),
      (∀ (k : Nat) (y : Buf), c.buf[k]? = some y → ¬ (y.dev = d ∧ y.blockno = n)) →
      c.buf[j]? = some x → x.refcnt = 0 →
      (∀ (j2 : Nat) (y : Buf), j2 < j → c.buf[j2]? = some y → y.refcnt ≠ 0) →
      ∃ c1, bgetClaim c d n = .ok (j, c1) ∧
        c1.buf[j]? = some ⟨0, d, n, x.lock, 1, x.data⟩ ∧
        (∀ k, k ≠ j → c1.buf[k]? = c.buf[k]?) ∧ c1.disk = c.disk ∧ c1.log = c.log) ∧
    (∀ (pid k : Nat) (c2 : Cache), bget pid c d n = .ok (k, c2) →
      ∃ c1 z, bgetClaim c d n = .ok (k, c1) ∧ c1.buf[k]? = some z ∧ z.lock = none ∧
        c2.buf[k]? = some ⟨z.valid, z.dev, z.blockno, some pid, z.refcnt, z.data⟩ ∧
        (∀ j, j ≠ k → c2.buf[j]? = c1.buf[j]?)) ∧
    (∀ (c3 : Cache), c3.buf.map slotKey = c.buf.map slotKey → chosen c3 d n = chosen c d n) := by
  refine ⟨?_, ?_, ?_, ?_⟩
  · intro j x hx hd hn hprev
    have hl : lookup d n c.buf 0 = some j := by
      simpa using lookup_first c.buf 0 j x hx hd hn hprev
    refine ⟨_, bgetClaim_hit hl, ?_, ?_, rfl, rfl⟩
    · simp only [getElem?_updSlot, if_true, hx, Option.map_some']
    · intro k hk
      simp only [getElem?_updSlot, if_neg hk]
  · intro j x hnone hx hr hprev
    have hl : lookup d n c.buf 0 = none := lookup_eq_none c.buf 0 hnone
    have hf : findFree c.buf 0 = some j := by
      simpa using findFree_first c.buf 0 j x hx hr hprev
    refine ⟨_, bgetClaim_evict hl hf, ?_, ?_, rfl, rfl⟩
    · simp only [getElem?_updSlot, if_true, hx, Option.map_some']
    · intro k hk
      simp only [getElem?_updSlot, if_neg hk]
  · intro pid k c2 hg
    obtain ⟨c1, z, hc, hz, hk, e2⟩ := bget_ok hg
    subst e2
    refine ⟨c1, z, hc, hz, hk, ?_, ?_⟩
    · simp only [getElem?_updSlot, if_true, hz, Option.map_some']
    · intro j hj
      simp only [getElem?_updSlot, if_neg hj]
  · intro c3 h3
    rw [chosen_eq, chosen_eq, lookup_congr c3.buf c.buf 0 h3, findFree_congr c3.buf c.buf 0 h3]

theorem C17_choice_by_index_witness :
    (cacheAfter [.bread 7 1 100, .brelse 7 0]).buf[1]? = some (zeroBuf 4) ∧
    (∀ (j2 : Nat) (y : Buf), j2 < 1 →
      (cacheAfter [.bread 7 1 100, .brelse 7 0]).buf[j2]? = some y →
      ¬ (y.dev = 0 ∧ y.blockno = 0)) ∧
    ∃ c1, bgetClaim (cacheAfter [.bread 7 1 100, .brelse 7 0]) 0 0 = .ok (1, c1) ∧
      c1.buf[1]? = some ⟨0, 0, 0, none, 0 + 1, List.replicate 4 0⟩ :=
  have hprev : ∀ (j2 : Nat) (y : Buf), j2 < 1 →
      (cacheAfter [.bread 7 1 100, .brelse 7 0]).buf[j2]? = some y →
      ¬ (y.dev = 0 ∧ y.blockno = 0) := by
    intro j2 y hj hy
    have e : j2 = 0 := by omega
    subst e
    have hy2 : some (⟨1, 1, 100, none, 0, [1, 100]⟩ : Buf) = some y := hy
    cases hy2
    decide
  ⟨by decide, hprev,
    match (C17_choice_by_index (cacheAfter [.bread 7 1 100, .brelse 7 0]) 0 0).1 1 (zeroBuf 4)
      (by decide) rfl rfl hprev with
    | ⟨c1, h1, h2, _⟩ => ⟨c1, h1, h2⟩⟩


/-! ## Counting claims (C14) -/

theorem brun_cons_ok {c0 c : Cache} {op : BOp} {ops : List BOp}
    (h : brun c0 (op :: ops) = .ok c) : ∃ c1, bstep c0 op = .ok c1 ∧ brun c1 ops = .ok c := by
  unfold brun at h
  cases hs : bstep c0 op with
  | ok c1 => rw [hs] at h; exact ⟨c1, rfl, h⟩
  | panic m => rw [hs] at h; cases h
  | sleeps => rw [hs] at h; cases h
  | badptr => rw [hs] at h; cases h

/-- A choice of `bget` for another block leaves alone a slot that carries
`(d, n)` with a count other than 0. -/
theorem claimed_slot_kept {c c1 : Cache} {i j d n d2 n2 : Nat} {y : Buf}
    (hy : c.buf[i]? = some y) (hyd : y.dev = d) (hyn : y.blockno = n) (hyr : y.refcnt ≠ 0)
    (hne : ¬ (d2 = d ∧ n2 = n)) (h : bgetClaim c d2 n2 = .ok (j, c1)) :
    j ≠ i ∧ c1.buf[i]? = some y := by
  obtain ⟨x, z, hx, _, hoth, _, _, _, _, hcase⟩ := bgetClaim_spec h
  have hji : j ≠ i := by
    intro e
    subst e
    rw [hy] at hx
    cases hx
    rcases hcase with ⟨_, h1, h2, _⟩ | ⟨_, _, h0, _⟩
    · exact hne ⟨by rw [← h1, hyd], by rw [← h2, hyn]⟩
    · exact hyr h0
  exact ⟨hji, by rw [hoth i (fun e => hji e.symm)]; exact hy⟩

/-- A returning call that avoids slot `i` and the block `(d, n)` leaves slot
`i` as it is and gives no slot before it the identity `(d, n)`. -/
theorem claimed_slot_step {c c1 : Cache} {op : BOp} {i d n : Nat} {y : Buf}
    (hy : c.buf[i]? = some y) (hyd : y.dev = d) (hyn : y.blockno = n) (hyr : y.refcnt ≠ 0)
    (hprev : ∀ (j2 : Nat) (w : Buf), j2 < i → c.buf[j2]? = some w →
      ¬ (w.dev = d ∧ w.blockno = n))
    (hav : avoids i d n op) (hs : bstep c op = .ok c1) :
    c1.buf[i]? = some y ∧
    ∀ (j2 : Nat) (w : Buf), j2 < i → c1.buf[j2]? = some w → ¬ (w.dev = d ∧ w.blockno = n) := by
  have upd : ∀ (f : Buf → Buf) (j : Nat), j ≠ i →
      (∀ x, (f x).dev = x.dev ∧ (f x).blockno = x.blockno) →
      (updSlot f c.buf j)[i]? = some y ∧
      ∀ (j2 : Nat) (w : Buf), j2 < i → (updSlot f c.buf j)[j2]? = some w →
        ¬ (w.dev = d ∧ w.blockno = n) := by
    intro f j hj hf
    refine ⟨by rw [getElem?_updSlot, if_neg (fun e => hj e.symm)]; exact hy, ?_⟩
    intro j2 w hlt hw
    rcases getElem?_updSlot_some hw with ⟨_, h1⟩ | ⟨_, x, h1, e⟩
    · exact hprev j2 w hlt h1
    · rw [e, (hf x).1, (hf x).2]
      exact hprev j2 x hlt h1
  cases op with
  | bread pid d2 n2 =>
    obtain ⟨j, hb⟩ := bstep_bread_ok hs
    obtain ⟨_, _, x, z, _, _, hx, _, hz, hoth, _, _, _, zd, zn, _, _, hcase⟩ := bread_spec hb
    have hji : j ≠ i := by
      intro e
      subst e
      rw [hy] at hx
      cases hx
      rcases hcase with ⟨_, h1, h2, _⟩ | ⟨_, _, h0, _⟩
      · exact hav ⟨by rw [← h1, hyd], by rw [← h2, hyn]⟩
      · exact hyr h0
    refine ⟨by rw [hoth i (fun e => hji e.symm)]; exact hy, ?_⟩
    intro j2 w hlt hw
    by_cases e : j2 = j
    · subst e
      rw [hz] at hw
      cases hw
      rw [zd, zn]
      exact hav
    · rw [hoth j2 e] at hw
      exact hprev j2 w hlt hw
  | bwrite pid j =>
    obtain ⟨_, _, _, e⟩ := bwrite_ok hs
    subst e
    exact ⟨hy, hprev⟩
  | brelse pid j =>
    obtain ⟨_, _, _, e⟩ := brelse_ok hs
    subst e
    exact upd _ j hav (fun x => ⟨rfl, rfl⟩)
  | bpin j =>
    obtain ⟨_, _, e⟩ := bpin_ok hs
    subst e
    exact upd _ j hav (fun x => ⟨rfl, rfl⟩)
  | bunpin j =>
    obtain ⟨_, _, e⟩ := bunpin_ok hs
    subst e
    exact upd _ j hav (fun x => ⟨rfl, rfl⟩)

theorem claimed_slot_run {i d n : Nat} {y : Buf} (hyd : y.dev = d) (hyn : y.blockno = n)
    (hyr : y.refcnt ≠ 0) : ∀ (ops : List BOp) (c c3 : Cache), c.buf[i]? = some y →
    (∀ (j2 : Nat) (w : Buf), j2 < i → c.buf[j2]? = some w → ¬ (w.dev = d ∧ w.blockno = n)) →
    (∀ op ∈ ops, avoids i d n op) → brun c ops = .ok c3 →
    c3.buf[i]? = some y ∧
    ∀ (j2 : Nat) (w : Buf), j2 < i → c3.buf[j2]? = some w → ¬ (w.dev = d ∧ w.blockno = n)
  | [], c, c3, hy, hprev, _, h => by
    simp only [brun, Res.ok.injEq] at h
    subst h
    exact ⟨hy, hprev⟩
  | op :: ops, c, c3, hy, hprev, hav, h => by
    obtain ⟨c1, hs, hr⟩ := brun_cons_ok h
    obtain ⟨hy1, hprev1⟩ :=
      claimed_slot_step hy hyd hyn hyr hprev (hav op (List.mem_cons_self op ops)) hs
    exact claimed_slot_run hyd hyn hyr ops c1 c3 hy1 hprev1
      (fun o ho => hav o (List.mem_cons_of_mem op ho)) hr

/-- C15, as stated, fails: `bread(1, 100)` by process 7 followed by `bunpin`
on the returned slot 0 leaves the slot valid, locked by 7 and carrying
`(1, 100)`, with count 0.  After `bpin` on the slot and `brelse` by the holder
the count is 0 again, not at least 1, and the choice of `bget` for the other
block `(1, 200)` takes the slot: its block number and valid flag change. -/
theorem C15_counterexample :
    ∃ c c1 c2 c4, BReachHeld 2 4 disk0 c ∧
      c.buf[0]? = some ⟨1, 1, 100, some 7, 0, [1, 100]⟩ ∧ lookup 1 100 c.buf 0 = some 0 ∧
      bpin c 0 = .ok c1 ∧ brelse 7 c1 0 = .ok c2 ∧
      c2.buf[0]? = some ⟨1, 1, 100, none, 0, [1, 100]⟩ ∧
      bgetClaim c2 1 200 = .ok (0, c4) ∧ c4.buf[0]? = some ⟨0, 1, 200, none, 1, [1, 100]⟩ :=
  ⟨cacheAfter [.bread 7 1 100, .bunpin 0], _, _, _,
    BReachHeld.step (cacheAfter [.bread 7 1 100]) (.bunpin 0) _
      (BReachHeld.step _ (.bread 7 1 100) _ BReachHeld.init trivial rfl)
      ⟨⟨1, 1, 100, some 7, 1, [1, 100]⟩, by decide, by decide⟩ rfl,
    by decide, by decide, rfl, rfl, by decide, rfl, by decide⟩

/-- C15 (amended): let slot `i` be the slot the scan finds for block `(d, n)`, valid,
locked by its holder `pid`, with the holder's claim in its count.  After
`bpin` on the slot and `brelse` by the holder, the count is what it was, at
least 1, and the lock is free.  From then on, through any returning calls
that are neither a `bread` of `(d, n)` nor a call on slot `i`, the slot is
left as it is: a choice of `bget` for another block never selects it or
changes it, and `bread(d, n)` returns this slot with one more claim, the same
data and no device operation.  If the holder's claim was the only one,
`bunpin` brings the count to 0, and the eviction scan for a block that is
not cached, when all slots before `i` are claimed, then takes slot `i`. -/
theorem C15_pinned_slot_stays (pid i : Nat) (c : Cache) (x : Buf) (d n : Nat)
    (hx : c.buf[i]? = some x) (hk : x.lock = some pid) (hd : x.dev = d) (hn : x.blockno = n)
    (hv : x.valid ≠ 0) (hr : 1 ≤ x.refcnt) (hfirst : lookup d n c.buf 0 = some i) :
    ∃ c1 c2 y, bpin c i = .ok c1 ∧ brelse pid c1 i = .ok c2 ∧ c2.buf[i]? = some y ∧
      y.refcnt = x.refcnt ∧ 1 ≤ y.refcnt ∧ y.dev = d ∧ y.blockno = n ∧ y.valid = x.valid ∧
      y.data = x.data ∧ y.lock = none ∧
      (∀ (ops : List BOp) (c3 : Cache), (∀ op ∈ ops, avoids i d n op) →
        brun c2 ops = .ok c3 →
        c3.buf[i]? = some y ∧
        (∀ (d2 n2 j : Nat) (c4 : Cache), ¬ (d2 = d ∧ n2 = n) →
          bgetClaim c3 d2 n2 = .ok (j, c4) → j ≠ i ∧ c4.buf[i]? = some y) ∧
        (∀ (pid2 : Nat), ∃ c4 z, bread pid2 c3 d n = .ok (i, c4) ∧ c4.log = c3.log ∧
          c4.buf[i]? = some z ∧ z.data = x.data ∧ z.refcnt = y.refcnt + 1)) ∧
      (x.refcnt = 1 → ∃ c5, bunpin c2 i = .ok c5 ∧
        c5.buf[i]? = some ⟨y.valid, y.dev, y.blockno, y.lock, 0, y.data⟩ ∧
        ∀ (d2 n2 : Nat),
          (∀ (k : Nat) (w : Buf), c5.buf[k]? = some w → ¬ (w.dev = d2 ∧ w.blockno = n2)) →
          (∀ (j2 : Nat) (w : Buf), j2 < i → c5.buf[j2]? = some w → w.refcnt ≠ 0) →
          ∃ c6, bgetClaim c5 d2 n2 = .ok (i, c6) ∧
            c6.buf[i]? = some ⟨0, d2, n2, none, 1, x.data⟩) := by
  obtain ⟨j0, x0, ej, hx0, _, _, hprev⟩ := lookup_some c.buf 0 i hfirst
  have ej2 : j0 = i := by omega
  subst ej2
  -- the state after `bpin`
  have hpin : bpin c j0 = .ok { c with
      buf := updSlot (fun x => { x with refcnt := x.refcnt + 1 }) c.buf j0 } := by
    unfold bpin
    rw [hx]
  have hx1 : (updSlot (fun x => { x with refcnt := x.refcnt + 1 }) c.buf j0)[j0]?
      = some ⟨x.valid, x.dev, x.blockno, x.lock, x.refcnt + 1, x.data⟩ := by
    simp only [getElem?_updSlot, if_true, hx, Option.map_some']
  -- the state after `brelse`
  have hrel := brelse_eq
    (c := { c with buf := updSlot (fun x => { x with refcnt := x.refcnt + 1 }) c.buf j0 })
    hx1 hk
  have hx2 : (updSlot (fun x => { releasesleep x with refcnt := x.refcnt - 1 })
      (updSlot (fun x => { x with refcnt := x.refcnt + 1 }) c.buf j0) j0)[j0]?
      = some ⟨x.valid, x.dev, x.blockno, none, x.refcnt + 1 - 1, x.data⟩ := by
    simp only [getElem?_updSlot, if_true, hx, Option.map_some']
    rfl
  have hcnt : x.refcnt + 1 - 1 = x.refcnt := by ring
  have hprev2 : ∀ (j2 : Nat) (w : Buf), j2 < j0 →
      (updSlot (fun x => { releasesleep x with refcnt := x.refcnt - 1 })
        (updSlot (fun x => { x with refcnt := x.refcnt + 1 }) c.buf j0) j0)[j2]? = some w →
      ¬ (w.dev = d ∧ w.blockno = n) := by
    intro j2 w hlt hw
    rw [getElem?_updSlot, if_neg (by omega), getElem?_updSlot, if_neg (by omega)] at hw
    exact hprev j2 w hlt hw
  refine ⟨_, _, ⟨x.valid, x.dev, x.blockno, none, x.refcnt + 1 - 1, x.data⟩, hpin, hrel, hx2,
    hcnt, by rw [hcnt]; exact hr, hd, hn, rfl, rfl, rfl, ?_, ?_⟩
  · intro ops c3 hav hrun
    obtain ⟨hy3, hprev3⟩ := claimed_slot_run
      (y := ⟨x.valid, x.dev, x.blockno, none, x.refcnt + 1 - 1, x.data⟩) hd hn
      (by show x.refcnt + 1 - 1 ≠ 0; omega) ops _ c3 hx2 hprev2 hav hrun
    refine ⟨hy3, ?_, ?_⟩
    · intro d2 n2 j c4 hne hc
      exact claimed_slot_kept hy3 hd hn (by show x.refcnt + 1 - 1 ≠ 0; omega) hne hc
    · intro pid2
      have hl3 : lookup d n c3.buf 0 = some j0 := by
        simpa using lookup_first c3.buf 0 j0 _ hy3 hd hn hprev3
      refine ⟨_, ⟨x.valid, x.dev, x.blockno, some pid2, x.refcnt + 1 - 1 + 1, x.data⟩,
        bread_hit pid2 c3 hl3 hy3 rfl hv, rfl, ?_, rfl, rfl⟩
      simp only [getElem?_updSlot, if_true, hy3, Option.map_some']
  · intro h1
    have hun : bunpin { c with
        buf := updSlot (fun x => { releasesleep x with refcnt := x.refcnt - 1 })
          (updSlot (fun x => { x with refcnt := x.refcnt + 1 }) c.buf j0) j0 } j0
        = .ok { c with
          buf := updSlot (fun x => { x with refcnt := x.refcnt - 1 })
            (updSlot (fun x => { releasesleep x with refcnt := x.refcnt - 1 })
              (updSlot (fun x => { x with refcnt := x.refcnt + 1 }) c.buf j0) j0) j0 } := by
      unfold bunpin
      simp only [hx2]
    have hx5 : (updSlot (fun x => { x with refcnt := x.refcnt - 1 })
        (updSlot (fun x => { releasesleep x with refcnt := x.refcnt - 1 })
          (updSlot (fun x => { x with refcnt := x.refcnt + 1 }) c.buf j0) j0) j0)[j0]?
        = some ⟨x.valid, x.dev, x.blockno, none, 0, x.data⟩ := by
      simp only [getElem?_updSlot, if_true, hx, Option.map_some', releasesleep, h1]
      rfl
    refine ⟨_, hun, hx5, ?_⟩
    intro d2 n2 hnone hfull
    have hl5 := lookup_eq_none (d := d2) (n := n2) _ 0 hnone
    have hf5 := findFree_first _ 0 j0 _ hx5 rfl hfull
    rw [Nat.zero_add] at hf5
    refine ⟨_, bgetClaim_evict hl5 hf5, ?_⟩
    simp only [getElem?_updSlot, if_true, hx, Option.map_some', releasesleep]

theorem C15_pinned_slot_stays_witness :
    (cacheAfter [.bread 7 1 100]).buf[0]? = some ⟨1, 1, 100, some 7, 1, [1, 100]⟩ ∧
    lookup 1 100 (cacheAfter [.bread 7 1 100]).buf 0 = some 0 ∧
    ∃ c1 c2 y, bpin (cacheAfter [.bread 7 1 100]) 0 = .ok c1 ∧ brelse 7 c1 0 = .ok c2 ∧
      c2.buf[0]? = some y ∧ y.refcnt = 1 ∧ 1 ≤ y.refcnt ∧ y.dev = 1 ∧ y.blockno = 100 :=
  ⟨by decide, by decide,
    match C15_pinned_slot_stays 7 0 (cacheAfter [.bread 7 1 100])
      ⟨1, 1, 100, some 7, 1, [1, 100]⟩ 1 100 (by decide) rfl rfl rfl (by decide) (by decide)
      (by decide) with
    | ⟨c1, c2, y, h1, h2, h3, h4, h5, h6, h7, _⟩ => ⟨c1, c2, y, h1, h2, h3, h4, h5, h6, h7⟩⟩


/-! ## Identities of claimed slots (C20) -/

theorem FirstLive_bread {pid d n i : Nat} {c c1 : Cache} (hF : FirstLive c)
    (h : bread pid c d n = .ok (i, c1)) : FirstLive c1 := by
  obtain ⟨_, _, x, z, _, _, hx, _, hz, hoth, _, _, _, zd, zn, _, _, hcase⟩ := bread_spec h
  -- no slot before `i` carried `(d, n)`, and a slot that did was not after `i`
  have hlow : ∀ (j2 : Nat) (w : Buf), j2 < i → c.buf[j2]? = some w →
      ¬ (w.dev = d ∧ w.blockno = n) := by
    intro j2 w hlt hw
    rcases hcase with ⟨hl, _⟩ | ⟨hl, _⟩
    · obtain ⟨j0, _, ej, _, _, _, hprev⟩ := lookup_some c.buf 0 i hl
      have ej2 : j0 = i := by omega
      subst ej2
      exact hprev j2 w hlt hw
    · exact lookup_none c.buf 0 hl j2 w hw
  have hhigh : ∀ (k : Nat) (w : Buf), i < k → c.buf[k]? = some w → 0 < w.refcnt →
      ¬ (w.dev = d ∧ w.blockno = n) := by
    intro k w hlt hw hpos hid
    rcases hcase with ⟨_, xd, xn, _⟩ | ⟨hl, _⟩
    · exact hF k w hw hpos i x hlt hx ⟨by rw [xd, hid.1], by rw [xn, hid.2]⟩
    · exact lookup_none c.buf 0 hl k w hw hid
  intro k w hw hpos j y hlt hy
  by_cases hk : k = i
  · subst hk
    rw [hz] at hw
    cases hw
    rw [hoth j (by omega)] at hy
    rw [zd, zn]
    exact hlow j y hlt hy
  · rw [hoth k hk] at hw
    by_cases hj : j = i
    · subst hj
      rw [hz] at hy
      cases hy
      rw [zd, zn]
      intro hid
      exact hhigh k w hlt hw hpos ⟨hid.1.symm, hid.2.symm⟩
    · rw [hoth j hj] at hy
      exact hF k w hw hpos j y hlt hy

theorem FirstLive_brelse {pid i : Nat} {c c1 : Cache} (hF : FirstLive c)
    (h : brelse pid c i = .ok c1) : FirstLive c1 := by
  obtain ⟨_, _, _, e⟩ := brelse_ok h
  subst e
  intro k w hw hpos j y hlt hy
  have hy2 : ∃ y0, c.buf[j]? = some y0 ∧ y.dev = y0.dev ∧ y.blockno = y0.blockno := by
    rcases getElem?_updSlot_some hy with ⟨_, h1⟩ | ⟨_, y0, h1, e⟩
    · exact ⟨y, h1, rfl, rfl⟩
    · exact ⟨y0, h1, by rw [e]; rfl, by rw [e]; rfl⟩
  obtain ⟨y0, hy0, e1, e2⟩ := hy2
  rw [e1, e2]
  rcases getElem?_updSlot_some hw with ⟨_, h1⟩ | ⟨_, w0, h1, e⟩
  · exact hF k w h1 hpos j y0 hlt hy0
  · subst e
    have hpos0 : 0 < w0.refcnt := by
      have : 0 < w0.refcnt - 1 := hpos
      omega
    exact hF k w0 h1 hpos0 j y0 hlt hy0

theorem FirstLive_run : ∀ (ops : List BOp) (c0 c : Cache), FirstLive c0 →
    (∀ op ∈ ops, readRelease op) → brun c0 ops = .ok c → FirstLive c
  | [], c0, c, h0, _, h => by
    simp only [brun, Res.ok.injEq] at h
    subst h
    exact h0
  | op :: ops, c0, c, h0, hrr, h => by
    obtain ⟨c1, hs, hr⟩ := brun_cons_ok h
    have h1 : FirstLive c1 := by
      have hop := hrr op (List.mem_cons_self op ops)
      cases op with
      | bread pid d n =>
        obtain ⟨i, hb⟩ := bstep_bread_ok hs
        exact FirstLive_bread h0 hb
      | brelse pid i => exact FirstLive_brelse h0 hs
      | bwrite pid i => exact absurd hop (by simp [readRelease])
      | bpin i => exact absurd hop (by simp [readRelease])
      | bunpin i => exact absurd hop (by simp [readRelease])
    exact FirstLive_run ops c1 c h1 (fun o ho => hrr o (List.mem_cons_of_mem op ho)) hr

/-- C20: in every state reached from `binit` by `bread` and `brelse` calls
that return, no slot before a slot with count above 0 carries the same
identity, and two slots with count above 0 never carry the same identity.
Slots with count 0 may share an identity with another slot: after `binit` all
slots carry `(0, 0)`, and after `bread(0, 0)` on two slots the idle slot 1
still carries the identity of the claimed slot 0. -/
theorem C20_claimed_identity_unique (nbuf bsize : Nat) (disk : Nat → Nat → List Nat)
    (ops : List BOp) (c : Cache) (hrr : ∀ op ∈ ops, readRelease op)
    (h : brun (binit nbuf bsize disk) ops = .ok c) :
    FirstLive c ∧
    (∀ (i j : Nat) (x y : Buf), c.buf[i]? = some x → c.buf[j]? = some y → 0 < x.refcnt →
      0 < y.refcnt → x.dev = y.dev → x.blockno = y.blockno → i = j) ∧
    (∀ (k : Nat), k < nbuf → (binit nbuf bsize disk).buf[k]? = some (zeroBuf bsize)) ∧
    (∃ c2, brun (binit 2 4 disk0) [.bread 7 0 0] = .ok c2 ∧
      c2.buf[0]? = some ⟨1, 0, 0, some 7, 1, [0, 0]⟩ ∧
      c2.buf[1]? = some ⟨0, 0, 0, none, 0, [0, 0, 0, 0]⟩) := by
  have h0 : FirstLive (binit nbuf bsize disk) := by
    intro i x hx hpos
    have hm : x ∈ List.replicate nbuf (zeroBuf bsize) := List.getElem?_mem hx
    rw [List.eq_of_mem_replicate hm] at hpos
    exact absurd hpos (lt_irrefl (0 : Int))
  have hF := FirstLive_run ops _ c h0 hrr h
  refine ⟨hF, ?_, ?_, ⟨_, rfl, by decide, by decide⟩⟩
  · intro i j x y hx hy hxp hyp hd hn
    rcases Nat.lt_trichotomy i j with hlt | heq | hgt
    · exact absurd ⟨hd, hn⟩ (hF j y hy hyp i x hlt hx)
    · exact heq
    · exact absurd ⟨hd.symm, hn.symm⟩ (hF i x hx hxp j y hgt hy)
  · intro k hk
    show (List.replicate nbuf (zeroBuf bsize))[k]? = some (zeroBuf bsize)
    exact List.getElem?_replicate_of_lt hk

theorem C20_claimed_identity_unique_witness :
    (∀ op ∈ [BOp.bread 7 0 0, BOp.brelse 7 0, BOp.bread 8 1 5, BOp.bread 9 0 0],
      readRelease op) ∧
    brun (binit 3 4 disk0) [.bread 7 0 0, .brelse 7 0, .bread 8 1 5, .bread 9 0 0]
      = .ok { buf := [⟨1, 1, 5, some 8, 1, [1, 5]⟩, ⟨1, 0, 0, some 9, 1, [0, 0]⟩, zeroBuf 4],
              disk := disk0,
              log := [.read 0 0 0 [0, 0], .read 0 1 5 [1, 5], .read 1 0 0 [0, 0]] } ∧
    FirstLive { buf := [⟨1, 1, 5, some 8, 1, [1, 5]⟩, ⟨1, 0, 0, some 9, 1, [0, 0]⟩, zeroBuf 4],
                disk := disk0,
                log := [.read 0 0 0 [0, 0], .read 0 1 5 [1, 5], .read 1 0 0 [0, 0]] } :=
  have hrr : ∀ op ∈ [BOp.bread 7 0 0, BOp.brelse 7 0, BOp.bread 8 1 5, BOp.bread 9 0 0],
      readRelease op := by
    intro op hop
    simp only [List.mem_cons, List.mem_singleton, List.not_mem_nil, or_false] at hop
    rcases hop with e | e | e | e <;> subst e <;> exact trivial
  ⟨hrr, rfl, (C20_claimed_identity_unique 3 4 disk0 _ _ hrr rfl).1⟩


/-! ## Lock order in the slow path (C18) -/

theorem bucket_ne {k t : Nat} (h : k ≠ t) : Lock.bucket k ≠ Lock.bucket t :=
  fun e => h (Lock.bucket.inj e)

theorem evictTrace_order (t : Nat) : ∀ (bs : List Buf) (i : Nat) (prev : Option LockEv),
    LockOrder false t [.bucket t, .pool] prev (evictTrace t bs i)
  | [], _, _ => by simp [evictTrace, LockOrder]
  | b :: bs, i, prev => by
    unfold evictTrace
    by_cases he : b.blockno % NBUCKET = t
    · by_cases hr : b.refcnt = 0
      · simp [he, hr, LockOrder]
      · simp only [he, hr, ne_eq, not_true_eq_false, if_false, List.nil_append]
        exact evictTrace_order t bs (i + 1) prev
    · have hne := bucket_ne he
      by_cases hr : b.refcnt = 0
      · simp [he, hr, LockOrder, hne]
      · simp only [he, hr, ne_eq, not_false_eq_true, if_true, if_false, List.singleton_append,
          LockOrder, List.mem_cons, true_or, or_true, implies_true, true_and,
          List.erase_cons_head]
        exact evictTrace_order t bs (i + 1) _

theorem slowTrace_order (c : Cache) (d n : Nat) :
    LockOrder false (n % NBUCKET) [] none (slowTrace c d n) := by
  unfold slowTrace
  cases lookup d n c.buf 0 with
  | some i => simp [LockOrder]
  | none =>
    simp only [List.cons_append, List.nil_append, LockOrder, List.mem_cons, List.mem_singleton,
      true_or, or_true, ne_eq, not_true_eq_false, false_implies, true_and, List.not_mem_nil,
      or_false]
    exact evictTrace_order (n % NBUCKET) c.buf 0 _

/-- The lock order rejects a scan that keeps the bucket lock of a skipped
victim: here bucket 0 is still held when `bcache.lock` is released. -/
theorem LockOrder_skip_release :
    ¬ LockOrder false 9 [] none
      [.acq .pool, .acq (.bucket 9), .acq (.bucket 0), .acq (.bucket 1), .rel .pool,
       .rel (.bucket 1), .rel (.bucket 9), .sleepAcq 1] ∧
    ¬ LockOrder false 9 [] none [.acq .pool, .acq (.bucket 9), .acq (.bucket 0)] ∧
    LockOrder false 9 [] none
      [.acq .pool, .acq (.bucket 9), .acq (.bucket 0), .rel (.bucket 0), .acq (.bucket 1),
       .rel .pool, .rel (.bucket 1), .rel (.bucket 9), .sleepAcq 1] :=
  ⟨by decide, by decide, by decide⟩

/-- The eviction scan on a victim it skips whose bucket is not the target's:
the bucket lock is acquired and released again at once, and `bcache.lock` has
not been released before. -/
theorem evictTrace_skip (t : Nat) : ∀ (bs : List Buf) (k j : Nat) (x : Buf),
    bs[j]? = some x →
    (∀ (j2 : Nat) (w : Buf), j2 ≤ j → bs[j2]? = some w → w.refcnt ≠ 0) →
    x.blockno % NBUCKET ≠ t →
    ∃ pre post, evictTrace t bs k = pre ++ [.acq (.bucket (x.blockno % NBUCKET)),
      .rel (.bucket (x.blockno % NBUCKET))] ++ post ∧ LockEv.rel .pool ∉ pre
  | [], _, _, _, hx, _, _ => by simp at hx
  | b :: bs, k, 0, x, hx, hall, hne => by
    simp only [List.getElem?_cons_zero, Option.some.injEq] at hx
    subst hx
    have hr : b.refcnt ≠ 0 := hall 0 b (Nat.le_refl 0) (by simp)
    refine ⟨[], evictTrace t bs (k + 1), ?_, List.not_mem_nil _⟩
    rw [evictTrace]
    simp [hr, hne]
  | b :: bs, k, j + 1, x, hx, hall, hne => by
    have hr : b.refcnt ≠ 0 := hall 0 b (Nat.zero_le _) (by simp)
    obtain ⟨pre, post, hpre, hnot⟩ := evictTrace_skip t bs (k + 1) j x (by simpa using hx)
      (fun j2 w hj hw => hall (j2 + 1) w (by omega) (by simpa using hw)) hne
    refine ⟨(if b.blockno % NBUCKET ≠ t then [.acq (.bucket (b.blockno % NBUCKET))] else [])
      ++ ((if b.blockno % NBUCKET ≠ t then [.rel (.bucket (b.blockno % NBUCKET))] else [])
      ++ pre), post, ?_, ?_⟩
    · rw [evictTrace, if_neg hr, hpre]
      simp only [List.append_assoc]
    · by_cases he : b.blockno % NBUCKET = t
      · simpa [he] using hnot
      · simpa [he] using hnot

/-- The end of the eviction scan on the path that claims a victim whose
bucket is not the target's. -/
theorem evictTrace_claim (t : Nat) : ∀ (bs : List Buf) (k j : Nat) (x : Buf),
    findFree bs k = some (k + j) → bs[j]? = some x → x.blockno % NBUCKET ≠ t →
    ∃ pre, evictTrace t bs k = pre ++ [.acq (.bucket (x.blockno % NBUCKET)), .rel .pool,
      .rel (.bucket (x.blockno % NBUCKET)), .rel (.bucket t), .sleepAcq (k + j)]
  | [], _, _, _, h, _, _ => by cases h
  | b :: bs, k, j, x, h, hx, hne => by
    unfold findFree at h
    unfold evictTrace
    by_cases hr : b.refcnt = 0
    · rw [if_pos hr] at h
      have hj : j = 0 := by
        simp only [Option.some.injEq] at h
        omega
      subst hj
      simp only [List.getElem?_cons_zero, Option.some.injEq] at hx
      subst hx
      refine ⟨[], ?_⟩
      simp [hr, hne]
    · rw [if_neg hr] at h
      cases j with
      | zero =>
        obtain ⟨j2, _, e, _⟩ := findFree_some bs (k + 1) (k + 0) h
        omega
      | succ j =>
        have h2 : findFree bs (k + 1) = some (k + 1 + j) := by
          rw [h]; congr 1; omega
        obtain ⟨pre, hpre⟩ := evictTrace_claim t bs (k + 1) j x h2 (by simpa using hx) hne
        rw [if_neg hr, hpre]
        refine ⟨(if b.blockno % NBUCKET ≠ t then [.acq (.bucket (b.blockno % NBUCKET))] else [])
          ++ ((if b.blockno % NBUCKET ≠ t then [.rel (.bucket (b.blockno % NBUCKET))] else [])
          ++ pre), ?_⟩
        have e3 : k + 1 + j = k + (j + 1) := by omega
        rw [e3]
        simp only [List.append_assoc]

/-- C18, as stated, fails: after `binit`, `bget(1, 100)` takes the slow path
with target bucket 9; slot 0 carries block number 0, so the scan locks bucket
0, claims the slot and releases `bcache.lock` before bucket 0. -/
theorem C18_counterexample :
    slowTrace (binit 2 4 disk0) 1 100 =
      [.acq .pool, .acq (.bucket 9), .acq (.bucket 0), .rel .pool, .rel (.bucket 0),
       .rel (.bucket 9), .sleepAcq 0] ∧
    ¬ LockOrder true (100 % NBUCKET) [] none (slowTrace (binit 2 4 disk0) 1 100) :=
  ⟨by decide, by decide⟩

/-- C18 (amended): on every execution of the slow path of `bget`,
`bcache.lock` is acquired first and the target bucket lock is re-acquired
with it held; every other bucket lock taken by the eviction scan is acquired
with `bcache.lock` and the target bucket lock both held, and no such lock is
held at the end.  When the victim is skipped its bucket lock is released at
once, `bcache.lock` not having been released; when the victim is claimed its
bucket lock is released right after the release of `bcache.lock`, before the
release of the target bucket lock, and it is the only other bucket lock held
when `bcache.lock` is released. -/
theorem C18_slow_path_lock_order (c : Cache) (d n : Nat) :
    (∃ rest, slowTrace c d n = .acq .pool :: .acq (.bucket (n % NBUCKET)) :: rest) ∧
    LockOrder false (n % NBUCKET) [] none (slowTrace c d n) ∧
    (∀ (j : Nat) (x : Buf), lookup d n c.buf 0 = none → c.buf[j]? = some x →
      (∀ (j2 : Nat) (w : Buf), j2 ≤ j → c.buf[j2]? = some w → w.refcnt ≠ 0) →
      x.blockno % NBUCKET ≠ n % NBUCKET →
      ∃ pre post, slowTrace c d n = pre ++ [.acq (.bucket (x.blockno % NBUCKET)),
        .rel (.bucket (x.blockno % NBUCKET))] ++ post ∧ LockEv.rel .pool ∉ pre) ∧
    (∀ (i : Nat) (x : Buf), lookup d n c.buf 0 = none → findFree c.buf 0 = some i →
      c.buf[i]? = some x → x.blockno % NBUCKET ≠ n % NBUCKET →
      ∃ pre, slowTrace c d n = pre ++ [.acq (.bucket (x.blockno % NBUCKET)), .rel .pool,
        .rel (.bucket (x.blockno % NBUCKET)), .rel (.bucket (n % NBUCKET)), .sleepAcq i]) := by
  refine ⟨⟨_, rfl⟩, slowTrace_order c d n, ?_, ?_⟩
  · intro j x hl hx hall hne
    obtain ⟨pre, post, hpre, hnot⟩ := evictTrace_skip (n % NBUCKET) c.buf 0 j x hx hall hne
    refine ⟨[.acq .pool, .acq (.bucket (n % NBUCKET))] ++ pre, post, ?_, ?_⟩
    · unfold slowTrace
      rw [hl]
      simp only [hpre, List.append_assoc]
    · simpa using hnot
  · intro i x hl hf hx hne
    obtain ⟨pre, hpre⟩ := evictTrace_claim (n % NBUCKET) c.buf 0 i x (by simpa using hf) hx hne
    refine ⟨[.acq .pool, .acq (.bucket (n % NBUCKET))] ++ pre, ?_⟩
    unfold slowTrace
    rw [hl]
    simp only [hpre, Nat.zero_add, List.append_assoc]

theorem C18_slow_path_lock_order_witness :
    slowTrace (cacheAfter [.bread 7 1 100]) 1 200 =
      [.acq .pool, .acq (.bucket 5), .acq (.bucket 9), .rel (.bucket 9), .acq (.bucket 0),
       .rel .pool, .rel (.bucket 0), .rel (.bucket 5), .sleepAcq 1] ∧
    LockOrder false (200 % NBUCKET) [] none (slowTrace (cacheAfter [.bread 7 1 100]) 1 200) ∧
    (∃ pre post, slowTrace (cacheAfter [.bread 7 1 100]) 1 200 =
      pre ++ [.acq (.bucket 9), .rel (.bucket 9)] ++ post ∧ LockEv.rel .pool ∉ pre) ∧
    (∃ pre, slowTrace (cacheAfter [.bread 7 1 100]) 1 200 =
      pre ++ [.acq (.bucket 0), .rel .pool, .rel (.bucket 0), .rel (.bucket 5), .sleepAcq 1]) :=
  ⟨by decide, (C18_slow_path_lock_order (cacheAfter [.bread 7 1 100]) 1 200).2.1,
    (C18_slow_path_lock_order (cacheAfter [.bread 7 1 100]) 1 200).2.2.1 0
      ⟨1, 1, 100, some 7, 1, [1, 100]⟩ (by decide) (by decide)
      (fun j2 w h hw => by
        obtain rfl : j2 = 0 := Nat.le_zero.1 h
        obtain rfl : (⟨1, 1, 100, some 7, 1, [1, 100]⟩ : Buf) = w :=
          Option.some.inj ((by decide :
            (cacheAfter [.bread 7 1 100]).buf[0]? = some ⟨1, 1, 100, some 7, 1, [1, 100]⟩).symm.trans
            hw)
        decide)
      (by decide),
    (C18_slow_path_lock_order (cacheAfter [.bread 7 1 100]) 1 200).2.2.2 1
      ⟨0, 0, 0, none, 0, [0, 0, 0, 0]⟩ (by decide) (by decide) (by decide) (by decide)⟩


/-! ## Spin locks and suspension points (C19) -/

theorem nospin_acq {held : List Lock} {l : Lock} {evs : List LockEv} (h1 : l ∉ held)
    (h2 : NoSpinHeld (l :: held) evs) : NoSpinHeld held (.acq l :: evs) := by
  unfold NoSpinHeld
  exact ⟨h1, h2⟩

theorem nospin_rel {held : List Lock} {l : Lock} {evs : List LockEv}
    (h2 : NoSpinHeld (held.erase l) evs) : NoSpinHeld held (.rel l :: evs) := by
  unfold NoSpinHeld
  exact h2

/-- The eviction scan, entered with `bcache.lock` and the target bucket lock
held, acquires no lock twice and has released every spin lock when it
reaches `acquiresleep`; what follows a scan that claimed a slot starts with
no spin lock held. -/
theorem evictTrace_nospin (t : Nat) : ∀ (bs : List Buf) (i : Nat) (tail : List LockEv),
    NoSpinHeld [] tail → (findFree bs i = none → tail = []) →
    NoSpinHeld [.bucket t, .pool] (evictTrace t bs i ++ tail)
  | [], _, tail, _, h2 => by
    rw [h2 rfl]
    simp [evictTrace, NoSpinHeld]
  | b :: bs, i, tail, h1, h2 => by
    unfold evictTrace
    unfold findFree at h2
    by_cases he : b.blockno % NBUCKET = t
    · by_cases hr : b.refcnt = 0
      · simp [he, hr, NoSpinHeld, h1]
      · rw [if_neg hr] at h2
        simp only [he, hr, ne_eq, not_true_eq_false, if_false, List.nil_append]
        exact evictTrace_nospin t bs (i + 1) tail h1 h2
    · have hne := bucket_ne he
      by_cases hr : b.refcnt = 0
      · simp [he, hr, NoSpinHeld, hne, h1]
      · rw [if_neg hr] at h2
        rw [if_pos he, if_neg hr, if_pos he]
        refine nospin_acq (by simp [hne]) (nospin_rel ?_)
        rw [List.erase_cons_head]
        exact evictTrace_nospin t bs (i + 1) tail h1 h2

theorem slowTrace_nospin (c : Cache) (d n : Nat) (tail : List LockEv)
    (h1 : NoSpinHeld [] tail)
    (h2 : lookup d n c.buf 0 = none → findFree c.buf 0 = none → tail = []) :
    NoSpinHeld [] (slowTrace c d n ++ tail) := by
  unfold slowTrace
  refine nospin_acq (List.not_mem_nil _) (nospin_acq (by simp) ?_)
  cases hl : lookup d n c.buf 0 with
  | some i => simp [NoSpinHeld, h1]
  | none => exact evictTrace_nospin (n % NBUCKET) c.buf 0 tail h1 (h2 hl)

theorem bgetTrace_nospin (c c2 : Cache) (d n : Nat) (tail : List LockEv)
    (h1 : NoSpinHeld [] tail)
    (h2 : lookup d n c.buf 0 = none → lookup d n c2.buf 0 = none → findFree c2.buf 0 = none →
      tail = []) :
    NoSpinHeld [] (bgetTrace c c2 d n ++ tail) := by
  unfold bgetTrace
  refine nospin_acq (List.not_mem_nil _) ?_
  cases hl : lookup d n c.buf 0 with
  | some i => simp [NoSpinHeld, h1]
  | none =>
    refine nospin_rel ?_
    rw [List.erase_cons_head]
    exact slowTrace_nospin c2 d n tail h1 (h2 hl)

/-- The eviction scan never acquires the target bucket lock. -/
theorem evictTrace_no_target (t : Nat) : ∀ (bs : List Buf) (k : Nat),
    LockEv.acq (.bucket t) ∉ evictTrace t bs k
  | [], _ => by simp [evictTrace]
  | b :: bs, k => by
    have ih := evictTrace_no_target t bs (k + 1)
    unfold evictTrace
    by_cases he : b.blockno % NBUCKET = t
    · by_cases hr : b.refcnt = 0
      · simp [he, hr]
      · simp [he, hr, ih]
    · have hne : t ≠ b.blockno % NBUCKET := fun e => he e.symm
      by_cases hr : b.refcnt = 0
      · simp [he, hr, hne]
      · simp [he, hr, hne, ih]

/-- The events of a claiming eviction scan end with `acquiresleep` on the
slot it has chosen. -/
theorem evictTrace_last (t : Nat) : ∀ (bs : List Buf) (k j : Nat), findFree bs k = some j →
    ∃ pre, evictTrace t bs k = pre ++ [.sleepAcq j]
  | [], _, _, h => by cases h
  | b :: bs, k, j, h => by
    unfold findFree at h
    unfold evictTrace
    by_cases hr : b.refcnt = 0
    · rw [if_pos hr] at h
      cases h
      rw [if_pos hr]
      exact ⟨(if b.blockno % NBUCKET ≠ t then [.acq (.bucket (b.blockno % NBUCKET))] else [])
        ++ ([.rel .pool]
        ++ ((if b.blockno % NBUCKET ≠ t then [.rel (.bucket (b.blockno % NBUCKET))] else [])
        ++ [.rel (.bucket t)])), by simp⟩
    · rw [if_neg hr] at h
      obtain ⟨pre, hpre⟩ := evictTrace_last t bs (k + 1) j h
      rw [if_neg hr, hpre]
      exact ⟨(if b.blockno % NBUCKET ≠ t then [.acq (.bucket (b.blockno % NBUCKET))] else [])
        ++ ((if b.blockno % NBUCKET ≠ t then [.rel (.bucket (b.blockno % NBUCKET))] else [])
        ++ pre), by simp⟩

/-- The events of `bget` end with `acquiresleep` on the slot it has chosen. -/
theorem bgetTrace_last {c c1 : Cache} {d n i : Nat} (h : bgetClaim c d n = .ok (i, c1)) :
    ∃ pre, bgetTrace c c d n = pre ++ [.sleepAcq i] := by
  unfold bgetTrace slowTrace
  rcases bgetClaim_ok h with ⟨hl, _⟩ | ⟨hl, hf, _⟩
  · rw [hl]
    exact ⟨[.acq (.bucket (n % NBUCKET)), .rel (.bucket (n % NBUCKET))], rfl⟩
  · rw [hl]
    obtain ⟨pre, hpre⟩ := evictTrace_last (n % NBUCKET) c.buf 0 i hf
    simp only [hpre]
    exact ⟨.acq (.bucket (n % NBUCKET)) :: .rel (.bucket (n % NBUCKET)) ::
      ([.acq .pool, .acq (.bucket (n % NBUCKET))] ++ pre), by simp⟩

/-- C19: in the events of `bget` (whatever another processor did to the
cache between its two scans), `bread`, `brelse`, `bpin` and `bunpin`, no spin
lock is acquired while the caller already holds it, and no spin lock is held
at an `acquiresleep` or at the device read of `bread`; the eviction scan
never acquires the target bucket lock, which the caller holds. -/
theorem C19_no_spin_lock_at_suspension (pid : Nat) (c c2 : Cache) (d n i : Nat) :
    NoSpinHeld [] (bgetTrace c c2 d n) ∧
    NoSpinHeld [] (breadTrace c d n) ∧
    NoSpinHeld [] (brelseTrace pid c i) ∧
    NoSpinHeld [] bpinTrace ∧
    LockEv.acq (.bucket (n % NBUCKET)) ∉ evictTrace (n % NBUCKET) c2.buf 0 := by
  refine ⟨?_, ?_, ?_, by decide, evictTrace_no_target _ _ _⟩
  · have := bgetTrace_nospin c c2 d n [] (by simp [NoSpinHeld]) (fun _ _ _ => rfl)
    simpa using this
  · unfold breadTrace
    apply bgetTrace_nospin
    · cases bgetClaim c d n with
      | ok r =>
        obtain ⟨j, c1⟩ := r
        simp only
        cases c1.buf[j]? with
        | none => simp [NoSpinHeld]
        | some b =>
          by_cases hv : b.valid = 0
          · simp [hv, NoSpinHeld]
          · simp [hv, NoSpinHeld]
      | panic m => simp [NoSpinHeld]
      | sleeps => simp [NoSpinHeld]
      | badptr => simp [NoSpinHeld]
    · intro hl _ hf
      rw [bgetClaim_panic hl hf]
  · unfold brelseTrace
    cases c.buf[i]? with
    | none => simp [NoSpinHeld]
    | some b =>
      by_cases hh : holdingsleep pid b = true
      · simp [hh, NoSpinHeld]
      · simp [hh, NoSpinHeld]

end Bio
